import Mathlib

/-!
# Generalized binary indexed tree (`library/rangeQuery/generalizedBIT.h`)

A shallow embedding of the `GeneralizedBIT` structure, its `build`, `update`, `add`,
point and range `query`, the four binary searches (`lowerBound`, `upperBound`,
`lowerBoundBackward`, `upperBoundBackward`) and the walks `findNext` and `findPrev`.

Modelling conventions.

* `int` is a 32-bit two's complement integer.  Positions are never negative
  inside the store, so they are natural numbers; `i & -i` is computed as
  `i &&& (2 ^ 32 - i)` and `pos & ~1` as `pos &&& (2 ^ 32 - 2)`.  The results
  on `build`, `update` and `findNext` assume `N < 2 ^ 30`, the range in which
  none of their `int` computations (`mask <<= 1`, `i += i & -i`,
  `pos += pos & -pos`) leaves the type; the results on the queries and on the
  binary searches hold for every `N < 2 ^ 31`.  The bounds `lo`, `hi` of the
  binary searches are integers, since `hi` may reach `left - 1 = -1`.
* `vector<T>` is a `List T`.  A read at an index past the end yields the
  parameter `junk` (an unspecified value); a write past the end is dropped.
* Every `for`/`while` loop is a function recursing on a fuel argument that
  answers `none` when the fuel is used up, so a statement `f .. = some x`
  says that the loop terminated and produced `x`.
* Where a statement is about the indices a method touches, the method is run
  with a log of its accesses (`updateLog`, `queryRangeLog`): the same loops,
  the same store or value, and the list of the indices read and written.
* Where a statement is about the growth of a cost with `N`, the width of `int`
  is a parameter `w` (`lowbitW`, `buildW`, `findNextCountW`, which counts the
  evaluations of the predicate); `w = 32` gives the functions above.
-/

namespace GBIT

/-- The source's `i & -i` on 32-bit two's complement integers. -/
def lowbit (i : Nat) : Nat := i &&& (2 ^ 32 - i)

/-- The source's `i & (i - 1)`. -/
def clearLow (i : Nat) : Nat := i &&& (i - 1)

/-- Reading slot `i` of a vector; `junk` stands for what lies past its end. -/
def rd {T : Type} (junk : T) (xs : List T) (i : Nat) : T := xs.getD i junk

/-- The fields of `struct GeneralizedBIT`. -/
structure GeneralizedBIT (T : Type) where
  N : Nat
  tree : List T
  treeR : List T
  defaultValue : T
  mergeOp : T → T → T

variable {T : Type}

/-- The constructor `GeneralizedBIT(BinOp op, T dflt)`: an empty store. -/
def empty (op : T → T → T) (dflt : T) : GeneralizedBIT T :=
  { N := 0, tree := [], treeR := [], defaultValue := dflt, mergeOp := op }

/-- The method `init(n)`. -/
def init (st : GeneralizedBIT T) (n : Nat) : GeneralizedBIT T :=
  { st with
    N := n
    tree := List.replicate (n + 1) st.defaultValue
    treeR := List.replicate n st.defaultValue }

/-- First loop of `initUpdate`: `for (i = pos + 1; i <= N; i += i & -i)`. -/
def initUpdateTree (junk : T) (val : T) : Nat → GeneralizedBIT T → Nat → Option (GeneralizedBIT T)
  | 0, _, _ => none
  | fuel + 1, st, i =>
    if i ≤ st.N then
      initUpdateTree junk val fuel
        { st with tree := st.tree.set i (st.mergeOp (rd junk st.tree i) val) } (i + lowbit i)
    else some st

/-- Second loop of `initUpdate`: `for (i = pos; i > 0; i &= i - 1)`. -/
def initUpdateTreeR (junk : T) (val : T) : Nat → GeneralizedBIT T → Nat → Option (GeneralizedBIT T)
  | 0, _, _ => none
  | fuel + 1, st, i =>
    if 0 < i then
      initUpdateTreeR junk val fuel
        { st with treeR := st.treeR.set i (st.mergeOp (rd junk st.treeR i) val) } (clearLow i)
    else some st

/-- The private method `initUpdate(pos, val)`. -/
def initUpdate (junk : T) (st : GeneralizedBIT T) (pos : Nat) (val : T) :
    Option (GeneralizedBIT T) :=
  match initUpdateTree junk val (st.N + 1) st (pos + 1) with
  | none => none
  | some st1 => initUpdateTreeR junk val (st.N + 1) st1 pos

/-- The loop of `build`: `for (i = 0; i < n; i++) initUpdate(i, arr[i])`,
entered at index `i` with the remaining elements of the array. -/
def buildLoop (junk : T) : GeneralizedBIT T → Nat → List T → Option (GeneralizedBIT T)
  | st, _, [] => some st
  | st, i, x :: xs =>
    match initUpdate junk st i x with
    | none => none
    | some st1 => buildLoop junk st1 (i + 1) xs

/-- The method `build(const vector<T>& v)` (through `build(arr, n)`). -/
def build (junk : T) (st : GeneralizedBIT T) (v : List T) : Option (GeneralizedBIT T) :=
  buildLoop junk (init st v.length) 0 v

/-- The constructor `GeneralizedBIT(const vector<T>& v, BinOp op, T dflt)`. -/
def ofList (junk : T) (v : List T) (op : T → T → T) (dflt : T) : Option (GeneralizedBIT T) :=
  build junk (empty op dflt) v

/-- The loop of `update`:
`for (curr |= mask; curr <= N; prev = curr, curr = (curr & (curr - 1)) | mask)`. -/
def updateLoop (junk : T) : Nat → GeneralizedBIT T → Nat → Nat → Nat → Option (GeneralizedBIT T)
  | 0, _, _, _, _ => none
  | fuel + 1, st, prev, curr, mask =>
    if curr ≤ st.N then
      let x := st.mergeOp (rd junk st.tree prev) (rd junk st.treeR prev)
      let st1 : GeneralizedBIT T :=
        if prev &&& mask ≠ 0 then { st with treeR := st.treeR.set curr x }
        else { st with tree := st.tree.set curr x }
      let mask1 := mask <<< 1
      updateLoop junk fuel st1 curr (clearLow curr ||| mask1) mask1
    else some st

/-- The method `update(pos, val)`. -/
def update (junk : T) (st : GeneralizedBIT T) (pos : Nat) (val : T) : Option (GeneralizedBIT T) :=
  let curr := pos &&& (2 ^ 32 - 2)
  let prev := pos ||| 1
  let st1 : GeneralizedBIT T :=
    if pos &&& 1 ≠ 0 then { st with treeR := st.treeR.set prev val }
    else { st with tree := st.tree.set prev val }
  let mask := 2
  updateLoop junk (st.N + 1) st1 prev (curr ||| mask) mask

/-- The point query `query(pos)`. -/
def query (junk : T) (st : GeneralizedBIT T) (pos : Nat) : T :=
  if pos &&& 1 ≠ 0 then rd junk st.treeR pos else rd junk st.tree (pos + 1)

/-- The loop of the `left == 0` branch of `query(left, right)`:
`for (R = right + 1; 0 < R; R &= R - 1) res = mergeOp(res, tree[R])`. -/
def queryLoop0 (junk : T) (st : GeneralizedBIT T) : Nat → Nat → T → Option T
  | 0, _, _ => none
  | fuel + 1, R, res =>
    if 0 < R then queryLoop0 junk st fuel (clearLow R) (st.mergeOp res (rd junk st.tree R))
    else some res

/-- The first loop of the `left > 0` branch:
`for (next = R & (R - 1); left <= next; R = next, next = R & (R - 1))`;
it hands back the final `R` together with `res`. -/
def queryLoopR (junk : T) (st : GeneralizedBIT T) (left : Nat) : Nat → Nat → Nat → T → Option (Nat × T)
  | 0, _, _, _ => none
  | fuel + 1, R, next, res =>
    if left ≤ next then
      queryLoopR junk st left fuel next (clearLow next) (st.mergeOp res (rd junk st.tree R))
    else some (R, res)

/-- The second loop of the `left > 0` branch:
`for (L = left; L < R; L += L & -L) res = mergeOp(res, treeR[L])`. -/
def queryLoopL (junk : T) (st : GeneralizedBIT T) (R : Nat) : Nat → Nat → T → Option T
  | 0, _, _ => none
  | fuel + 1, L, res =>
    if L < R then queryLoopL junk st R fuel (L + lowbit L) (st.mergeOp res (rd junk st.treeR L))
    else some res

/-- The range query `query(left, right)`. -/
def queryRange (junk : T) (st : GeneralizedBIT T) (left right : Nat) : Option T :=
  if left = 0 then queryLoop0 junk st (st.N + 2) (right + 1) st.defaultValue
  else
    match queryLoopR junk st left (st.N + 2) (right + 1) (clearLow (right + 1)) st.defaultValue with
    | none => none
    | some (R, res) => queryLoopL junk st R (st.N + 2) left res

/-- The loop of `lowerBound`: `while (lo <= hi)` with `mid = lo + (hi - lo) / 2` and the
test `st.query(left, mid) < value`. -/
def lowerBoundLoop [LT T] [DecidableRel (fun (x y : T) => x < y)] (junk : T)
    (st : GeneralizedBIT T) (left : Nat) (value : T) : Nat → Int → Int → Option Int
  | 0, _, _ => none
  | fuel + 1, lo, hi =>
    if lo ≤ hi then
      let mid := lo + (hi - lo) / 2
      match queryRange junk st left mid.toNat with
      | none => none
      | some q =>
        if q < value then lowerBoundLoop junk st left value fuel (mid + 1) hi
        else lowerBoundLoop junk st left value fuel lo (mid - 1)
    else some lo

/-- The function `lowerBound(st, left, right, value)`. -/
def lowerBound [LT T] [DecidableRel (fun (x y : T) => x < y)] (junk : T)
    (st : GeneralizedBIT T) (left right : Nat) (value : T) : Option Int :=
  lowerBoundLoop junk st left value (right + 2 - left) left right

/-- The loop of `upperBound`: as `lowerBoundLoop`, with the test `st.query(left, mid) <= value`. -/
def upperBoundLoop [LE T] [DecidableRel (fun (x y : T) => x ≤ y)] (junk : T)
    (st : GeneralizedBIT T) (left : Nat) (value : T) : Nat → Int → Int → Option Int
  | 0, _, _ => none
  | fuel + 1, lo, hi =>
    if lo ≤ hi then
      let mid := lo + (hi - lo) / 2
      match queryRange junk st left mid.toNat with
      | none => none
      | some q =>
        if q ≤ value then upperBoundLoop junk st left value fuel (mid + 1) hi
        else upperBoundLoop junk st left value fuel lo (mid - 1)
    else some lo

/-- The function `upperBound(st, left, right, value)`. -/
def upperBound [LE T] [DecidableRel (fun (x y : T) => x ≤ y)] (junk : T)
    (st : GeneralizedBIT T) (left right : Nat) (value : T) : Option Int :=
  upperBoundLoop junk st left value (right + 2 - left) left right

/-- The loop of `lowerBoundBackward`: the test is `st.query(mid, right) < value`, a true
test moves `hi`, and the loop hands back `hi`. -/
def lowerBoundBackwardLoop [LT T] [DecidableRel (fun (x y : T) => x < y)] (junk : T)
    (st : GeneralizedBIT T) (right : Nat) (value : T) : Nat → Int → Int → Option Int
  | 0, _, _ => none
  | fuel + 1, lo, hi =>
    if lo ≤ hi then
      let mid := lo + (hi - lo) / 2
      match queryRange junk st mid.toNat right with
      | none => none
      | some q =>
        if q < value then lowerBoundBackwardLoop junk st right value fuel lo (mid - 1)
        else lowerBoundBackwardLoop junk st right value fuel (mid + 1) hi
    else some hi

/-- The function `lowerBoundBackward(st, left, right, value)`. -/
def lowerBoundBackward [LT T] [DecidableRel (fun (x y : T) => x < y)] (junk : T)
    (st : GeneralizedBIT T) (left right : Nat) (value : T) : Option Int :=
  lowerBoundBackwardLoop junk st right value (right + 2 - left) left right

/-- The loop of `upperBoundBackward`: the test is `st.query(mid, right) <= value`. -/
def upperBoundBackwardLoop [LE T] [DecidableRel (fun (x y : T) => x ≤ y)] (junk : T)
    (st : GeneralizedBIT T) (right : Nat) (value : T) : Nat → Int → Int → Option Int
  | 0, _, _ => none
  | fuel + 1, lo, hi =>
    if lo ≤ hi then
      let mid := lo + (hi - lo) / 2
      match queryRange junk st mid.toNat right with
      | none => none
      | some q =>
        if q ≤ value then upperBoundBackwardLoop junk st right value fuel lo (mid - 1)
        else upperBoundBackwardLoop junk st right value fuel (mid + 1) hi
    else some hi

/-- The function `upperBoundBackward(st, left, right, value)`. -/
def upperBoundBackward [LE T] [DecidableRel (fun (x y : T) => x ≤ y)] (junk : T)
    (st : GeneralizedBIT T) (left right : Nat) (value : T) : Option Int :=
  upperBoundBackwardLoop junk st right value (right + 2 - left) left right

/-- The inner loop of `findNext`:
`while (pos < gbit.N && !f(gbit.treeR[pos])) pos += pos & -pos`; it hands back `pos`. -/
def findNextSkip (junk : T) (st : GeneralizedBIT T) (f : T → Bool) : Nat → Nat → Option Nat
  | 0, _ => none
  | fuel + 1, pos =>
    if pos < st.N ∧ f (rd junk st.treeR pos) = false then
      findNextSkip junk st f fuel (pos + lowbit pos)
    else some pos

/-- The outer loop `while (pos < gbit.N)` of `findNext`.  `pos1` is `pos` after the
conditional `pos++`; the statement after `return pos;` in the source is never run. -/
def findNextLoop (junk : T) (st : GeneralizedBIT T) (f : T → Bool) : Nat → Nat → Option Int
  | 0, _ => none
  | fuel + 1, pos =>
    if pos < st.N then
      let pos1 := if pos &&& 1 = 0 then pos + 1 else pos
      if pos &&& 1 = 0 ∧ f (rd junk st.tree pos1) = true then some ((pos1 : Int) - 1)
      else if pos1 < st.N ∧ f (rd junk st.treeR pos1) = true then some (pos1 : Int)
      else
        match findNextSkip junk st f (st.N + 1) pos1 with
        | none => none
        | some pos2 => findNextLoop junk st f fuel pos2
    else some (-1)

/-- The function `findNext(gbit, start, f)`. -/
def findNext (junk : T) (st : GeneralizedBIT T) (start : Nat) (f : T → Bool) : Option Int :=
  findNextLoop junk st f (st.N + 1) start

/-- The inner loop of `findPrev`:
`while (pos > 0 && !f(gbit.tree[pos])) pos &= pos - 1`; it hands back `pos`. -/
def findPrevSkip (junk : T) (st : GeneralizedBIT T) (f : T → Bool) : Nat → Nat → Option Nat
  | 0, _ => none
  | fuel + 1, pos =>
    if 0 < pos ∧ f (rd junk st.tree pos) = false then
      findPrevSkip junk st f fuel (clearLow pos)
    else some pos

/-- The outer loop `while (pos > 0)` of `findPrev`.  `pos1` is `pos` after the conditional
`pos--`. -/
def findPrevLoop (junk : T) (st : GeneralizedBIT T) (f : T → Bool) : Nat → Nat → Option Int
  | 0, _ => none
  | fuel + 1, pos =>
    if 0 < pos then
      let pos1 := if pos &&& 1 = 0 then pos - 1 else pos
      if pos &&& 1 = 0 ∧ f (rd junk st.treeR pos1) = true then some (pos1 : Int)
      else if 0 < pos1 ∧ f (rd junk st.tree pos1) = true then some ((pos1 : Int) - 1)
      else
        match findPrevSkip junk st f (st.N + 2) pos1 with
        | none => none
        | some pos2 => findPrevLoop junk st f fuel pos2
    else some (-1)

/-- The function `findPrev(gbit, start, f)`. -/
def findPrev (junk : T) (st : GeneralizedBIT T) (start : Nat) (f : T → Bool) : Option Int :=
  findPrevLoop junk st f (st.N + 2) (start + 1)

/-- The method `add(pos, val)`: `update(pos, query(pos) + val)`, with the `+` of `T`. -/
def add [Add T] (junk : T) (st : GeneralizedBIT T) (pos : Nat) (val : T) :
    Option (GeneralizedBIT T) :=
  update junk st pos (query junk st pos + val)

/-- The indices that a run touches in the two arrays, in the order of the accesses. -/
structure AccessLog where
  treeReads : List Nat
  treeRReads : List Nat
  treeWrites : List Nat
  treeRWrites : List Nat
deriving DecidableEq

/-- The loop of `update`, run exactly as `updateLoop`, with every index it reads
(`tree[prev]`, `treeR[prev]`) and writes (`treeR[curr]` or `tree[curr]`) recorded. -/
def updateLoopLog (junk : T) :
    Nat → GeneralizedBIT T → Nat → Nat → Nat → AccessLog → Option (GeneralizedBIT T × AccessLog)
  | 0, _, _, _, _, _ => none
  | fuel + 1, st, prev, curr, mask, log =>
    if curr ≤ st.N then
      let x := st.mergeOp (rd junk st.tree prev) (rd junk st.treeR prev)
      let log1 : AccessLog :=
        { log with treeReads := log.treeReads ++ [prev], treeRReads := log.treeRReads ++ [prev] }
      let st1 : GeneralizedBIT T :=
        if prev &&& mask ≠ 0 then { st with treeR := st.treeR.set curr x }
        else { st with tree := st.tree.set curr x }
      let log2 : AccessLog :=
        if prev &&& mask ≠ 0 then { log1 with treeRWrites := log1.treeRWrites ++ [curr] }
        else { log1 with treeWrites := log1.treeWrites ++ [curr] }
      let mask1 := mask <<< 1
      updateLoopLog junk fuel st1 curr (clearLow curr ||| mask1) mask1 log2
    else some (st, log)

/-- The method `update(pos, val)` with every index it reads and writes recorded. -/
def updateLog (junk : T) (st : GeneralizedBIT T) (pos : Nat) (val : T) :
    Option (GeneralizedBIT T × AccessLog) :=
  let curr := pos &&& (2 ^ 32 - 2)
  let prev := pos ||| 1
  let st1 : GeneralizedBIT T :=
    if pos &&& 1 ≠ 0 then { st with treeR := st.treeR.set prev val }
    else { st with tree := st.tree.set prev val }
  let log1 : AccessLog :=
    if pos &&& 1 ≠ 0 then { treeReads := [], treeRReads := [], treeWrites := [], treeRWrites := [prev] }
    else { treeReads := [], treeRReads := [], treeWrites := [prev], treeRWrites := [] }
  let mask := 2
  updateLoopLog junk (st.N + 1) st1 prev (curr ||| mask) mask log1

/-- The log of a run that has touched nothing yet. -/
def emptyLog : AccessLog :=
  { treeReads := [], treeRReads := [], treeWrites := [], treeRWrites := [] }

/-- The loop of the `left == 0` branch of `query(left, right)`, run exactly as `queryLoop0`,
with every index read in `tree` recorded; it hands back the final `R`, the result and the
log. -/
def queryLoop0Log (junk : T) (st : GeneralizedBIT T) :
    Nat → Nat → T → AccessLog → Option (Nat × T × AccessLog)
  | 0, _, _, _ => none
  | fuel + 1, R, res, log =>
    if 0 < R then
      queryLoop0Log junk st fuel (clearLow R) (st.mergeOp res (rd junk st.tree R))
        { log with treeReads := log.treeReads ++ [R] }
    else some (R, res, log)

/-- The first loop of the `left > 0` branch, run exactly as `queryLoopR`, with every index
read in `tree` recorded. -/
def queryLoopRLog (junk : T) (st : GeneralizedBIT T) (left : Nat) :
    Nat → Nat → Nat → T → AccessLog → Option (Nat × T × AccessLog)
  | 0, _, _, _, _ => none
  | fuel + 1, R, next, res, log =>
    if left ≤ next then
      queryLoopRLog junk st left fuel next (clearLow next) (st.mergeOp res (rd junk st.tree R))
        { log with treeReads := log.treeReads ++ [R] }
    else some (R, res, log)

/-- The second loop of the `left > 0` branch, run exactly as `queryLoopL`, with every index
read in `treeR` recorded; it hands back the final `L`, the result and the log. -/
def queryLoopLLog (junk : T) (st : GeneralizedBIT T) (R : Nat) :
    Nat → Nat → T → AccessLog → Option (Nat × T × AccessLog)
  | 0, _, _, _ => none
  | fuel + 1, L, res, log =>
    if L < R then
      queryLoopLLog junk st R fuel (L + lowbit L) (st.mergeOp res (rd junk st.treeR L))
        { log with treeRReads := log.treeRReads ++ [L] }
    else some (L, res, log)

/-- What a run of `query(left, right)` leaves: the value returned, the indices read, and the
final values of the loop variables `L` and `R` (in the `left == 0` branch there is no `L`;
`finalL` is `left` there). -/
structure QueryRun (T : Type) where
  value : T
  log : AccessLog
  finalL : Nat
  finalR : Nat

/-- The range query `query(left, right)` with every index it reads recorded. -/
def queryRangeLog (junk : T) (st : GeneralizedBIT T) (left right : Nat) : Option (QueryRun T) :=
  if left = 0 then
    match queryLoop0Log junk st (st.N + 2) (right + 1) st.defaultValue emptyLog with
    | none => none
    | some (R, res, log) => some { value := res, log := log, finalL := left, finalR := R }
  else
    match queryLoopRLog junk st left (st.N + 2) (right + 1) (clearLow (right + 1))
        st.defaultValue emptyLog with
    | none => none
    | some (R, res, log) =>
      match queryLoopLLog junk st R (st.N + 2) left res log with
      | none => none
      | some (L, res1, log1) => some { value := res1, log := log1, finalL := L, finalR := R }

/-- The source's `i & -i` when `int` is a `w`-bit two's complement integer; `lowbit` is
`lowbitW 32`. -/
def lowbitW (w i : Nat) : Nat := i &&& (2 ^ w - i)

/-- First loop of `initUpdate` for `w`-bit `int`:
`for (i = pos + 1; i <= N; i += i & -i)`. -/
def initUpdateTreeW (w : Nat) (junk : T) (val : T) :
    Nat → GeneralizedBIT T → Nat → Option (GeneralizedBIT T)
  | 0, _, _ => none
  | fuel + 1, st, i =>
    if i ≤ st.N then
      initUpdateTreeW w junk val fuel
        { st with tree := st.tree.set i (st.mergeOp (rd junk st.tree i) val) } (i + lowbitW w i)
    else some st

/-- The private method `initUpdate(pos, val)` for `w`-bit `int`; its second loop does not
depend on the width. -/
def initUpdateW (w : Nat) (junk : T) (st : GeneralizedBIT T) (pos : Nat) (val : T) :
    Option (GeneralizedBIT T) :=
  match initUpdateTreeW w junk val (st.N + 1) st (pos + 1) with
  | none => none
  | some st1 => initUpdateTreeR junk val (st.N + 1) st1 pos

/-- The loop of `build` for `w`-bit `int`. -/
def buildLoopW (w : Nat) (junk : T) : GeneralizedBIT T → Nat → List T → Option (GeneralizedBIT T)
  | st, _, [] => some st
  | st, i, x :: xs =>
    match initUpdateW w junk st i x with
    | none => none
    | some st1 => buildLoopW w junk st1 (i + 1) xs

/-- The method `build(const vector<T>& v)` for `w`-bit `int`. -/
def buildW (w : Nat) (junk : T) (st : GeneralizedBIT T) (v : List T) : Option (GeneralizedBIT T) :=
  buildLoopW w junk (init st v.length) 0 v

/-- The inner loop of `findNext` for `w`-bit `int`, run as `findNextSkip`, with a counter
of the evaluations of `f`: in `pos < gbit.N && !f(gbit.treeR[pos])` the predicate is
evaluated exactly when `pos < gbit.N`.  It hands back `pos` and the counter. -/
def findNextSkipCountW (w : Nat) (junk : T) (st : GeneralizedBIT T) (f : T → Bool) :
    Nat → Nat → Nat → Option (Nat × Nat)
  | 0, _, _ => none
  | fuel + 1, pos, cnt =>
    if pos < st.N then
      if f (rd junk st.treeR pos) = false then
        findNextSkipCountW w junk st f fuel (pos + lowbitW w pos) (cnt + 1)
      else some (pos, cnt + 1)
    else some (pos, cnt)

/-- The outer loop of `findNext` for `w`-bit `int`, run as `findNextLoop`, with a counter of
the evaluations of `f`: `f(gbit.tree[pos])` is evaluated when `pos` was even, and
`f(gbit.treeR[pos])` in `pos < gbit.N && f(gbit.treeR[pos])` when `pos < gbit.N`. -/
def findNextLoopCountW (w : Nat) (junk : T) (st : GeneralizedBIT T) (f : T → Bool) :
    Nat → Nat → Nat → Option (Int × Nat)
  | 0, _, _ => none
  | fuel + 1, pos, cnt =>
    if pos < st.N then
      let pos1 := if pos &&& 1 = 0 then pos + 1 else pos
      let cnt1 := if pos &&& 1 = 0 then cnt + 1 else cnt
      if pos &&& 1 = 0 ∧ f (rd junk st.tree pos1) = true then some ((pos1 : Int) - 1, cnt1)
      else
        let cnt2 := if pos1 < st.N then cnt1 + 1 else cnt1
        if pos1 < st.N ∧ f (rd junk st.treeR pos1) = true then some ((pos1 : Int), cnt2)
        else
          match findNextSkipCountW w junk st f (st.N + 1) pos1 cnt2 with
          | none => none
          | some (pos2, cnt3) => findNextLoopCountW w junk st f fuel pos2 cnt3
    else some (-1, cnt)

/-- The function `findNext(gbit, start, f)` for `w`-bit `int`, with the number of
evaluations of `f` it performs. -/
def findNextCountW (w : Nat) (junk : T) (st : GeneralizedBIT T) (start : Nat) (f : T → Bool) :
    Option (Int × Nat) :=
  findNextLoopCountW w junk st f (st.N + 1) start 0

/-! ### Specification-level notions -/

/-- Left-to-right merge of the `n` elements `a[l], .., a[l + n - 1]`, started from `d`. -/
def foldIdx (op : T → T → T) (d : T) (a : List T) (l : Nat) : Nat → T
  | 0 => d
  | n + 1 => op (foldIdx op d a l n) (a.getD (l + n) d)

/-- Merge of the half-open block `a[l .. r - 1]`, started from `d`. -/
def mergeOver (op : T → T → T) (d : T) (a : List T) (l r : Nat) : T :=
  foldIdx op d a l (r - l)

/-- The fold `a[l] ⊕ a[l + 1] ⊕ .. ⊕ a[r]` of the inclusive range `[l, r]`, left to right
(`d` only for an empty range). -/
def rangeFold (op : T → T → T) (d : T) (a : List T) (l r : Nat) : T :=
  match (a.drop l).take (r + 1 - l) with
  | [] => d
  | x :: xs => xs.foldl op x

/-- The sequence `a` after the point assignments `us`, applied in order. -/
def applyUpdates (a : List T) (us : List (Nat × T)) : List T :=
  us.foldl (fun b u => b.set u.1 u.2) a

/-- A finite sequence of calls `update(p, v)`, in order. -/
def updates (junk : T) : GeneralizedBIT T → List (Nat × T) → Option (GeneralizedBIT T)
  | st, [] => some st
  | st, u :: us =>
    match update junk st u.1 u.2 with
    | none => none
    | some st1 => updates junk st1 us

/-- Slot `i` of `tree` holds the merge of `a[i - lowbit i .. i - 1]`, for `1 ≤ i ≤ N`. -/
def TreeOk (op : T → T → T) (d : T) (a : List T) (tree : List T) : Prop :=
  ∀ i, 0 < i → i ≤ a.length → tree[i]? = some (mergeOver op d a (clearLow i) i)

/-- Slot `i` of `treeR` holds the merge of `a[i .. i + lowbit i - 1]`, for the slots
whose block lies inside `[0, N)`. -/
def TreeROk (op : T → T → T) (d : T) (a : List T) (treeR : List T) : Prop :=
  ∀ i, 0 < i → i + lowbit i ≤ a.length → treeR[i]? = some (mergeOver op d a i (i + lowbit i))

/-- The store `st` represents the sequence `a`: sizes, and the slots read by the queries. -/
structure Valid (st : GeneralizedBIT T) (a : List T) : Prop where
  size : st.N = a.length
  tree_len : st.tree.length = a.length + 1
  treeR_len : st.treeR.length = a.length
  tree_ok : TreeOk st.mergeOp st.defaultValue a st.tree
  treeR_ok : TreeROk st.mergeOp st.defaultValue a st.treeR

/-! ### Notions used in the proofs -/

/-- State of the store inside `build` after the first `p` elements of `a` went in. -/
structure BuiltUpTo (op : T → T → T) (d : T) (a : List T) (p : Nat)
    (st : GeneralizedBIT T) : Prop where
  size : st.N = a.length
  op_eq : st.mergeOp = op
  dflt_eq : st.defaultValue = d
  tree_len : st.tree.length = a.length + 1
  treeR_len : st.treeR.length = a.length
  tree_val : ∀ n, 0 < n → n ≤ a.length →
    st.tree[n]? = some (mergeOver op d a (clearLow n) (min n p))
  treeR_val : ∀ n, 0 < n → n < a.length →
    st.treeR[n]? = some (mergeOver op d a n (min (n + lowbit n) p))

/-- The slot visited by `update(pos, _)` at level `j`: the middle of the aligned block of
size `2 ^ (j + 1)` around `pos`. -/
def node (pos j : Nat) : Nat := 2 ^ j * (2 * (pos / 2 ^ (j + 1)) + 1)

/-- State of the store inside the loop of `update(pos, _)` on entering level `i + 1`:
all slots below that level, and all slots that do not cover `pos`, hold the merge of
their block of the new sequence `b`. -/
structure UpdInv (op : T → T → T) (d : T) (b : List T) (pos i : Nat)
    (st : GeneralizedBIT T) : Prop where
  size : st.N = b.length
  op_eq : st.mergeOp = op
  dflt_eq : st.defaultValue = d
  tree_len : st.tree.length = b.length + 1
  treeR_len : st.treeR.length = b.length
  tree_val : ∀ n, 0 < n → n ≤ b.length →
    (lowbit n < 2 ^ (i + 1) ∨ ¬ (clearLow n ≤ pos ∧ pos < n)) →
    st.tree[n]? = some (mergeOver op d b (clearLow n) n)
  treeR_val : ∀ n, 0 < n → n + lowbit n ≤ b.length →
    (lowbit n < 2 ^ (i + 1) ∨ ¬ (n ≤ pos ∧ pos < n + lowbit n)) →
    st.treeR[n]? = some (mergeOver op d b n (n + lowbit n))

/-- A store of three positions with arbitrary slot contents. -/
def sampleStore : GeneralizedBIT Int :=
  { N := 3, tree := [0, 10, 20, 30], treeR := [0, 40, 50], defaultValue := 0,
    mergeOp := fun x y => x + y }

/-- The common shape of the four binary searches: `test mid` tells whether the search
continues to the right of `mid` (`lo = mid + 1`) or to the left (`hi = mid - 1`); the loop
hands back the final `(lo, hi)`. -/
def searchLoop (test : Int → Option Bool) : Nat → Int → Int → Option (Int × Int)
  | 0, _, _ => none
  | fuel + 1, lo, hi =>
    if lo ≤ hi then
      let mid := lo + (hi - lo) / 2
      match test mid with
      | none => none
      | some true => searchLoop test fuel (mid + 1) hi
      | some false => searchLoop test fuel lo (mid - 1)
    else some (lo, hi)

/-- The value the range query yields (any value if it did not terminate). -/
def queryVal (junk : T) (st : GeneralizedBIT T) (l r : Nat) : T :=
  (queryRange junk st l r).getD junk

/-- The store that `build` makes of `[1, 2, 3, 4, 5]` under addition. -/
def sumStore : GeneralizedBIT Int :=
  { N := 5, tree := [0, 1, 3, 3, 10, 5], treeR := [0, 2, 7, 4, 5], defaultValue := 0,
    mergeOp := fun x y => x + y }

/-- The linear scan of the specification: the first `i` with `start ≤ i < N` for which
`f(query(start, i))` holds, `-1` if there is none.  `n` positions remain from `i` on. -/
def linearScanFrom (junk : T) (st : GeneralizedBIT T) (start : Nat) (f : T → Bool) :
    Nat → Nat → Option Int
  | 0, _ => some (-1)
  | n + 1, i =>
    match queryRange junk st start i with
    | none => none
    | some x => if f x = true then some (i : Int) else linearScanFrom junk st start f n (i + 1)

/-- The linear scan over `[start, N)`. -/
def linearScan (junk : T) (st : GeneralizedBIT T) (start : Nat) (f : T → Bool) : Option Int :=
  linearScanFrom junk st start f (st.N - start) start

/-- `res` is the first position of `[s, N)` whose point value satisfies `f`, or `-1` when
no position of `[s, N)` does. -/
def IsFirst (f : T → Bool) (d : T) (a : List T) (s : Nat) (res : Int) : Prop :=
  (res = -1 ∧ ∀ j, s ≤ j → j < a.length → f (a.getD j d) = false) ∨
  (∃ p : Nat, res = (p : Int) ∧ s ≤ p ∧ p < a.length ∧ f (a.getD p d) = true ∧
    ∀ j, s ≤ j → j < p → f (a.getD j d) = false)

/-- The store that `build` makes of `[1, 1, 1, 1]` under addition. -/
def onesStore : GeneralizedBIT Int :=
  { N := 4, tree := [0, 1, 2, 1, 4], treeR := [0, 1, 2, 1], defaultValue := 0,
    mergeOp := fun x y => x + y }

/-- The backward linear scan of the specification: the first `i`, going from `start` down
to `0`, for which `f(query(i, start))` holds, `-1` if there is none.  The positions below
`n` remain to be looked at. -/
def backwardScanFrom (junk : T) (st : GeneralizedBIT T) (start : Nat) (f : T → Bool) :
    Nat → Option Int
  | 0 => some (-1)
  | i + 1 =>
    match queryRange junk st i start with
    | none => none
    | some x => if f x = true then some (i : Int) else backwardScanFrom junk st start f i

/-- The backward linear scan over `[0, start]`. -/
def backwardScan (junk : T) (st : GeneralizedBIT T) (start : Nat) (f : T → Bool) : Option Int :=
  backwardScanFrom junk st start f (start + 1)

/-- `res` is the last position of `[0, s]` whose point value satisfies `f`, or `-1` when
no position of `[0, s]` does. -/
def IsLast (f : T → Bool) (d : T) (a : List T) (s : Nat) (res : Int) : Prop :=
  (res = -1 ∧ ∀ j, j ≤ s → f (a.getD j d) = false) ∨
  (∃ p : Nat, res = (p : Int) ∧ p ≤ s ∧ f (a.getD p d) = true ∧
    ∀ j, p < j → j ≤ s → f (a.getD j d) = false)

/-- The store that `build` makes of `[5, 3, 8, 1, 9]` under `min`, with the largest `int`
as `defaultValue`. -/
def minStore : GeneralizedBIT Int :=
  { N := 5, tree := [2147483647, 5, 3, 8, 1, 9], treeR := [2147483647, 3, 1, 1, 9],
    defaultValue := 2147483647, mergeOp := fun x y => min x y }

/-- A store of integers under addition with the given slot contents. -/
def sumStoreOf (tree treeR : List Int) : GeneralizedBIT Int :=
  { N := treeR.length, tree := tree, treeR := treeR, defaultValue := 0,
    mergeOp := fun x y => x + y }

/-- The store that `build` makes of `[0, 1, .., 9]` under addition. -/
def tenStore : GeneralizedBIT Int :=
  sumStoreOf [0, 0, 1, 2, 6, 4, 9, 6, 28, 8, 17] [0, 1, 5, 3, 22, 5, 13, 7, 17, 9]

/-- The store `tenStore` after `update(3, 100)`. -/
def tenStoreUpdated : GeneralizedBIT Int :=
  sumStoreOf [0, 0, 1, 2, 103, 4, 9, 6, 125, 8, 17] [0, 1, 102, 100, 22, 5, 13, 7, 17, 9]

/-- The store `minStore` after `update(3, 0)`. -/
def minStoreUpdated : GeneralizedBIT Int :=
  { N := 5, tree := [2147483647, 5, 3, 8, 0, 9], treeR := [2147483647, 3, 0, 0, 9],
    defaultValue := 2147483647, mergeOp := fun x y => min x y }

/-- The representation invariant of the store relative to a sequence `a` of length `N`:
`tree[i]` is the merge of `a[i - lowbit i .. i - 1]` for every `1 ≤ i ≤ N`, and `treeR[i]`
is the merge of `a[i .. min (i + lowbit i) N - 1]` for every `1 ≤ i < N`. -/
def RepInv (st : GeneralizedBIT T) (a : List T) : Prop :=
  (∀ i, 1 ≤ i → i ≤ a.length →
    st.tree[i]? = some (mergeOver st.mergeOp st.defaultValue a (i - lowbit i) i)) ∧
  (∀ i, 1 ≤ i → i < a.length →
    st.treeR[i]? = some (mergeOver st.mergeOp st.defaultValue a i (min (i + lowbit i) a.length)))

/-- A store of naturals under `max` with the given slot contents. -/
def maxStoreOf (tree treeR : List Nat) : GeneralizedBIT Nat :=
  { N := treeR.length, tree := tree, treeR := treeR, defaultValue := 0, mergeOp := max }

/-- Every recorded access except the reads of `treeR` lies inside its array, and the reads
of `treeR` lie in `[1, N]`. -/
def AlmostInRange (N : Nat) (log : AccessLog) : Prop :=
  (∀ n ∈ log.treeReads, 1 ≤ n ∧ n ≤ N) ∧ (∀ n ∈ log.treeRReads, 1 ≤ n ∧ n ≤ N) ∧
  (∀ n ∈ log.treeWrites, 1 ≤ n ∧ n ≤ N) ∧ (∀ n ∈ log.treeRWrites, 1 ≤ n ∧ n < N)

/-- The block of positions `[R - lowbit R, R)` that the slot `tree[R]` stands for. -/
def treeBlock (R : Nat) : Nat × Nat := (clearLow R, R)

/-- The block of positions `[L, L + lowbit L)` that the slot `treeR[L]` stands for. -/
def treeRBlock (L : Nat) : Nat × Nat := (L, L + lowbit L)

/-- The blocks of the slots read by a run, from left to right: the `treeR` blocks in the
order read, then the `tree` blocks in the reverse of the order read. -/
def blocksRead (log : AccessLog) : List (Nat × Nat) :=
  log.treeRReads.map treeRBlock ++ (log.treeReads.map treeBlock).reverse

/-- The half-open blocks `bs` tile `[a, b)`: the first starts at `a`, each is non-empty,
each starts where the one before ends, and the last ends at `b`. -/
def Tiles : Nat → Nat → List (Nat × Nat) → Prop
  | a, b, [] => a = b
  | a, b, blk :: rest => blk.1 = a ∧ a < blk.2 ∧ Tiles blk.2 b rest

/-- What the downward walks over `tree` keep true of the log: nothing read in `treeR`, every
index read in `tree` in `[1, N]`, and the blocks read tile `[R, right + 1)`. -/
def DownInv (N right R : Nat) (log : AccessLog) : Prop :=
  R ≤ right + 1 ∧ log.treeRReads = [] ∧ (∀ n ∈ log.treeReads, 1 ≤ n ∧ n ≤ N) ∧
  Tiles R (right + 1) (log.treeReads.map treeBlock).reverse

/-- The state of `build` on the all-ones sequence of length `N` under addition after the
first `p` calls of `initUpdate`, as far as the slots of odd index and the `treeR` slots of
even index are concerned. -/
structure OnesInv (junk : Nat) (N p : Nat) (st : GeneralizedBIT Nat) : Prop where
  size : st.N = N
  op_eq : st.mergeOp = fun x y => x + y
  tree_len : st.tree.length = N + 1
  treeR_len : st.treeR.length = N
  tree_odd : ∀ j, j % 2 = 1 → j ≤ N → rd junk st.tree j = if j ≤ p then 1 else 0
  treeR_odd : ∀ j, j % 2 = 1 → j < N → rd junk st.treeR j = if j < p then 1 else 0
  treeR_even1 : ∀ j, j % 2 = 0 → 0 < j → j < N → j < p → 1 ≤ rd junk st.treeR j
  treeR_even2 : ∀ j, j % 2 = 0 → 0 < j → j < N → j + 1 < p → 2 ≤ rd junk st.treeR j

/-! ### Theorems -/

theorem and_even_even (a b : Nat) : (2 * a) &&& (2 * b) = 2 * (a &&& b) := by
  have h := Nat.land_bit false a false b
  simpa [Nat.bit_val] using h

theorem and_even_odd (a b : Nat) : (2 * a) &&& (2 * b + 1) = 2 * (a &&& b) := by
  have h := Nat.land_bit false a true b
  simpa [Nat.bit_val] using h

theorem and_odd_even (a b : Nat) : (2 * a + 1) &&& (2 * b) = 2 * (a &&& b) := by
  have h := Nat.land_bit true a false b
  simpa [Nat.bit_val] using h

theorem and_odd_odd (a b : Nat) : (2 * a + 1) &&& (2 * b + 1) = 2 * (a &&& b) + 1 := by
  have h := Nat.land_bit true a true b
  simpa [Nat.bit_val] using h

theorem or_even_even (a b : Nat) : (2 * a) ||| (2 * b) = 2 * (a ||| b) := by
  have h := Nat.lor_bit false a false b
  simpa [Nat.bit_val] using h

theorem or_one_eq (p : Nat) : p ||| 1 = 2 * (p / 2) + 1 := by
  rcases Nat.mod_two_eq_zero_or_one p with h | h
  · have hp : p = 2 * (p / 2) := by omega
    have h1 := Nat.lor_bit false (p / 2) true 0
    simp [Nat.bit_val] at h1
    rw [← hp] at h1
    omega
  · have hp : p = 2 * (p / 2) + 1 := by omega
    have h1 := Nat.lor_bit true (p / 2) true 0
    simp [Nat.bit_val] at h1
    rw [← hp] at h1
    omega

/-- Every positive number is an odd multiple of a power of two. -/
theorem exists_level : ∀ n : Nat, 0 < n → ∃ j m, n = 2 ^ j * (2 * m + 1) := by
  intro n
  induction n using Nat.strong_induction_on with
  | _ n ih =>
    intro hn
    rcases Nat.mod_two_eq_zero_or_one n with h | h
    · obtain ⟨j, m, hjm⟩ := ih (n / 2) (by omega) (by omega)
      refine ⟨j + 1, m, ?_⟩
      have : n = 2 * (n / 2) := by omega
      rw [this, hjm, pow_succ]; ring
    · exact ⟨0, n / 2, by simp; omega⟩

theorem clearLow_level (j m : Nat) : clearLow (2 ^ j * (2 * m + 1)) = 2 ^ j * (2 * m) := by
  unfold clearLow
  induction j with
  | zero => simp [and_odd_even]
  | succ j ih =>
    have hpos : 0 < 2 ^ j * (2 * m + 1) := by positivity
    have e1 : 2 ^ (j + 1) * (2 * m + 1) = 2 * (2 ^ j * (2 * m + 1)) := by rw [pow_succ]; ring
    have e2 : 2 * (2 ^ j * (2 * m + 1)) - 1 = 2 * (2 ^ j * (2 * m + 1) - 1) + 1 := by omega
    rw [e1, e2, and_even_odd, ih, pow_succ]; ring

theorem and_compl_eq_zero : ∀ (v m : Nat), m < 2 ^ v → m &&& (2 ^ v - 1 - m) = 0 := by
  intro v
  induction v with
  | zero => intro m hm; simp at hm; subst hm; simp
  | succ v ih =>
    intro m hm
    have hv : 2 ^ (v + 1) = 2 * 2 ^ v := by rw [pow_succ]; ring
    have ha : m / 2 < 2 ^ v := by omega
    rcases Nat.mod_two_eq_zero_or_one m with h | h
    · have e1 : m = 2 * (m / 2) := by omega
      have e2 : 2 ^ (v + 1) - 1 - m = 2 * (2 ^ v - 1 - m / 2) + 1 := by omega
      rw [e2]; nth_rewrite 1 [e1]
      rw [and_even_odd, ih _ ha]
    · have e1 : m = 2 * (m / 2) + 1 := by omega
      have e2 : 2 ^ (v + 1) - 1 - m = 2 * (2 ^ v - 1 - m / 2) := by omega
      rw [e2]; nth_rewrite 1 [e1]
      rw [and_odd_even, ih _ ha]

theorem and_neg_level : ∀ (j w m : Nat), 2 ^ j * (2 * m + 1) < 2 ^ w →
    (2 ^ j * (2 * m + 1)) &&& (2 ^ w - 2 ^ j * (2 * m + 1)) = 2 ^ j := by
  intro j
  induction j with
  | zero =>
    intro w m h
    cases w with
    | zero => simp at h
    | succ w =>
      have hv : 2 ^ (w + 1) = 2 * 2 ^ w := by rw [pow_succ]; ring
      simp only [pow_zero, one_mul] at h ⊢
      have e2 : 2 ^ (w + 1) - (2 * m + 1) = 2 * (2 ^ w - 1 - m) + 1 := by omega
      rw [e2, and_odd_odd, and_compl_eq_zero w m (by omega)]; rfl
  | succ j ih =>
    intro w m h
    cases w with
    | zero =>
      have : 0 < 2 ^ (j + 1) * (2 * m + 1) := by positivity
      simp at h
    | succ w =>
      have hv : 2 ^ (w + 1) = 2 * 2 ^ w := by rw [pow_succ]; ring
      have e1 : 2 ^ (j + 1) * (2 * m + 1) = 2 * (2 ^ j * (2 * m + 1)) := by rw [pow_succ]; ring
      rw [e1] at h ⊢
      have e2 : 2 ^ (w + 1) - 2 * (2 ^ j * (2 * m + 1)) = 2 * (2 ^ w - 2 ^ j * (2 * m + 1)) := by
        omega
      rw [e2, and_even_even, ih w m (by omega), pow_succ]; ring

theorem lowbit_level (j m : Nat) (h : 2 ^ j * (2 * m + 1) < 2 ^ 32) :
    lowbit (2 ^ j * (2 * m + 1)) = 2 ^ j := and_neg_level j 32 m h

theorem and_not_one (p : Nat) (h : p < 2 ^ 32) : p &&& (2 ^ 32 - 2) = 2 * (p / 2) := by
  have e : (2:Nat) ^ 32 - 2 = 2 * (2 ^ 31 - 1) := by norm_num
  have hm : p / 2 &&& (2 ^ 31 - 1) = p / 2 := by
    rw [Nat.and_pow_two_sub_one_eq_mod]; exact Nat.mod_eq_of_lt (by omega)
  rcases Nat.mod_two_eq_zero_or_one p with h1 | h1
  · have e1 : p = 2 * (p / 2) := by omega
    rw [e]; nth_rewrite 1 [e1]; rw [and_even_even, hm]
  · have e1 : p = 2 * (p / 2) + 1 := by omega
    rw [e]; nth_rewrite 1 [e1]; rw [and_odd_even, hm]

theorem or_pow_level (j q : Nat) : (2 ^ j * q) ||| 2 ^ j = 2 ^ j * (2 * (q / 2) + 1) := by
  induction j with
  | zero => simp [or_one_eq]
  | succ j ih =>
    have e1 : 2 ^ (j + 1) * q = 2 * (2 ^ j * q) := by rw [pow_succ]; ring
    have e2 : 2 ^ (j + 1) = 2 * 2 ^ j := by rw [pow_succ]; ring
    rw [e1, e2, or_even_even, ih]; ring

theorem and_pow_level (i q : Nat) :
    (2 ^ i * (2 * q + 1)) &&& 2 ^ (i + 1) = 2 ^ (i + 1) * (q % 2) := by
  induction i with
  | zero =>
    have : (2 * q + 1) &&& 2 = 2 * (q &&& 1) := by
      have := and_odd_even q 1; simpa using this
    simp [this, Nat.and_one_is_mod]
  | succ i ih =>
    have e1 : 2 ^ (i + 1) * (2 * q + 1) = 2 * (2 ^ i * (2 * q + 1)) := by rw [pow_succ]; ring
    have e2 : 2 ^ (i + 1 + 1) = 2 * 2 ^ (i + 1) := by rw [pow_succ]; ring
    rw [e1, e2, and_even_even, ih]; ring

/-- Level view of a positive 32-bit index: its lowest set bit and what remains without it. -/
theorem level_view (i : Nat) (h0 : 0 < i) (h : i < 2 ^ 32) :
    ∃ j m, i = 2 ^ j * (2 * m + 1) ∧ lowbit i = 2 ^ j ∧ clearLow i = 2 ^ j * (2 * m) := by
  obtain ⟨j, m, hjm⟩ := exists_level i h0
  refine ⟨j, m, hjm, ?_, ?_⟩
  · rw [hjm]; exact lowbit_level j m (hjm ▸ h)
  · rw [hjm]; exact clearLow_level j m

theorem clearLow_view (i : Nat) (h0 : 0 < i) :
    ∃ j m, i = 2 ^ j * (2 * m + 1) ∧ clearLow i = 2 ^ j * (2 * m) := by
  obtain ⟨j, m, hjm⟩ := exists_level i h0
  exact ⟨j, m, hjm, by rw [hjm]; exact clearLow_level j m⟩

theorem clearLow_lt (i : Nat) (h0 : 0 < i) : clearLow i < i := by
  obtain ⟨j, m, hi, hc⟩ := clearLow_view i h0
  have hp : 0 < 2 ^ j := by positivity
  rw [hc, hi, Nat.mul_add, Nat.mul_one]; omega

theorem clearLow_le (i : Nat) : clearLow i ≤ i := Nat.and_le_left

theorem lowbit_pos (i : Nat) (h0 : 0 < i) (h : i < 2 ^ 32) : 0 < lowbit i := by
  obtain ⟨j, m, -, hl, -⟩ := level_view i h0 h
  rw [hl]; positivity

theorem clearLow_add_lowbit (i : Nat) (h0 : 0 < i) (h : i < 2 ^ 32) :
    clearLow i + lowbit i = i := by
  obtain ⟨j, m, hi, hl, hc⟩ := level_view i h0 h
  rw [hl, hc, hi]; ring

theorem lowbit_le (i : Nat) (h0 : 0 < i) (h : i < 2 ^ 32) : lowbit i ≤ i := by
  have := clearLow_add_lowbit i h0 h; omega

/-- A power of two dividing an odd multiple of `2 ^ J` has exponent at most `J`. -/
theorem level_ge_of_mul (a c J M : Nat) (h : 2 ^ a * c = 2 ^ J * (2 * M + 1)) : a ≤ J := by
  by_contra hlt
  have hlt : J < a := by omega
  obtain ⟨e, rfl⟩ : ∃ e, a = J + 1 + e := ⟨a - J - 1, by omega⟩
  have hp : 0 < 2 ^ J := by positivity
  have h2 : 2 ^ J * (2 * (2 ^ e * c)) = 2 ^ J * (2 * M + 1) := by
    rw [← h, pow_add, pow_succ]; ring
  have := Nat.eq_of_mul_eq_mul_left hp h2
  omega

theorem div_pow_of_bounds (p j a : Nat) (h1 : 2 ^ j * a ≤ p) (h2 : p < 2 ^ j * (a + 1)) :
    p / 2 ^ j = a := by
  have hp : 0 < 2 ^ j := by positivity
  apply Nat.le_antisymm
  · have : p / 2 ^ j < a + 1 := by
      rw [Nat.div_lt_iff_lt_mul hp]; rw [Nat.mul_comm]; exact h2
    omega
  · rw [Nat.le_div_iff_mul_le hp]; rw [Nat.mul_comm]; exact h1

theorem div_pow_succ (p j : Nat) : p / 2 ^ (j + 1) = p / 2 ^ j / 2 := by
  rw [pow_succ, Nat.div_div_eq_div_mul]

theorem blockEnd_step (p j : Nat) :
    2 ^ j * (p / 2 ^ j + 1) ≤ 2 ^ (j + 1) * (p / 2 ^ (j + 1) + 1) := by
  rw [div_pow_succ, pow_succ, Nat.mul_assoc]
  apply Nat.mul_le_mul_left
  omega

theorem blockEnd_mono (p j l : Nat) (h : j ≤ l) :
    2 ^ j * (p / 2 ^ j + 1) ≤ 2 ^ l * (p / 2 ^ l + 1) := by
  induction l, h using Nat.le_induction with
  | base => exact Nat.le_refl _
  | succ n _ ih => exact Nat.le_trans ih (blockEnd_step p n)

theorem blockStart_step (p j : Nat) :
    2 ^ (j + 1) * (p / 2 ^ (j + 1)) ≤ 2 ^ j * (p / 2 ^ j) := by
  rw [div_pow_succ, pow_succ, Nat.mul_assoc]
  apply Nat.mul_le_mul_left
  omega

theorem blockStart_anti (p j l : Nat) (h : j ≤ l) :
    2 ^ l * (p / 2 ^ l) ≤ 2 ^ j * (p / 2 ^ j) := by
  induction l, h using Nat.le_induction with
  | base => exact Nat.le_refl _
  | succ n _ ih => exact Nat.le_trans (blockStart_step p n) ih

/-- The upward walk `L += L & -L` started strictly inside the block below `R` lands on or
below `R`. -/
theorem lowbit_step_le (L R : Nat) (hL : 0 < L) (hLR : L < R) (hc : clearLow R < L)
    (hR : R < 2 ^ 32) : L + lowbit L ≤ R := by
  obtain ⟨k, m, hRe, hRc⟩ := clearLow_view R (by omega)
  obtain ⟨j, s, hLe, hLl, -⟩ := level_view L hL (by omega)
  rw [hLl]
  by_cases hjk : j < k
  · obtain ⟨e, rfl⟩ : ∃ e, k = j + 1 + e := ⟨k - j - 1, by omega⟩
    have hR2 : R = 2 ^ j * (2 * (2 ^ e * (2 * m + 1))) := by
      rw [hRe, pow_add, pow_succ]; ring
    have hp : 0 < 2 ^ j := by positivity
    have h1 : 2 ^ j * (2 * s + 1) < 2 ^ j * (2 * (2 ^ e * (2 * m + 1))) := by
      rw [← hLe, ← hR2]; exact hLR
    have h2 := Nat.lt_of_mul_lt_mul_left h1
    have h3 : 2 ^ j * (2 * s + 2) ≤ 2 ^ j * (2 * (2 ^ e * (2 * m + 1))) :=
      Nat.mul_le_mul_left _ (by omega)
    rw [hR2]
    calc L + 2 ^ j = 2 ^ j * (2 * s + 2) := by rw [hLe]; ring
      _ ≤ _ := h3
  · exfalso
    obtain ⟨e, rfl⟩ : ∃ e, j = k + e := ⟨j - k, by omega⟩
    have hL2 : L = 2 ^ k * (2 ^ e * (2 * s + 1)) := by rw [hLe, pow_add]; ring
    have h1 : 2 ^ k * (2 * m) < 2 ^ k * (2 ^ e * (2 * s + 1)) := by
      rw [← hL2, ← hRc]; exact hc
    have h2 : 2 ^ k * (2 ^ e * (2 * s + 1)) < 2 ^ k * (2 * m + 1) := by
      rw [← hL2, ← hRe]; exact hLR
    have h3 := Nat.lt_of_mul_lt_mul_left h1
    have h4 := Nat.lt_of_mul_lt_mul_left h2
    omega

/-- A `tree` slot covering `p` is the end of an aligned block around `p`. -/
theorem tree_node_eq_blockEnd (i p j m : Nat) (hi : i = 2 ^ j * (2 * m + 1))
    (h1 : 2 ^ j * (2 * m) ≤ p) (h2 : p < i) :
    p / 2 ^ j = 2 * m ∧ i = 2 ^ j * (p / 2 ^ j + 1) := by
  have h := div_pow_of_bounds p j (2 * m) h1 (hi ▸ h2)
  exact ⟨h, by rw [h, hi]⟩

/-- A `treeR` slot covering `p` is the start of an aligned block around `p`. -/
theorem treeR_node_eq_blockStart (i p j m : Nat) (hi : i = 2 ^ j * (2 * m + 1))
    (h1 : i ≤ p) (h2 : p < i + 2 ^ j) :
    p / 2 ^ j = 2 * m + 1 ∧ i = 2 ^ j * (p / 2 ^ j) := by
  have h := div_pow_of_bounds p j (2 * m + 1) (hi ▸ h1) (by rw [hi] at h2; linarith)
  exact ⟨h, by rw [h, hi]⟩

/-- The successor `i + lowbit i` of a `tree` slot covering `p` covers `p` too. -/
theorem up_contains (i p : Nat) (h0 : 0 < i) (hi : i + lowbit i < 2 ^ 32)
    (h1 : clearLow i ≤ p) (h2 : p < i) :
    clearLow (i + lowbit i) ≤ p ∧ p < i + lowbit i := by
  obtain ⟨j, m, hie, hl, hc⟩ := level_view i h0 (by omega)
  refine ⟨?_, by omega⟩
  obtain ⟨J, M, hIe, hIc⟩ := clearLow_view (i + lowbit i) (by omega)
  have hsum : i + lowbit i = 2 ^ (j + 1) * (m + 1) := by rw [hl, hie, pow_succ]; ring
  have hJ : j + 1 ≤ J := level_ge_of_mul (j + 1) (m + 1) J M (by rw [← hsum, hIe])
  have hpow : 2 ^ (j + 1) ≤ 2 ^ J := Nat.pow_le_pow_right (by norm_num) hJ
  have e1 : clearLow (i + lowbit i) + 2 ^ J = i + lowbit i := by
    rw [hIc, hIe]; ring
  have e2 : clearLow i + 2 ^ (j + 1) = i + lowbit i := by
    rw [hc, hl, pow_succ, hie]; ring
  omega

/-- Between a `tree` slot covering `p` and its successor there is no other slot covering `p`. -/
theorem up_no_skip (i n p : Nat) (h0 : 0 < i) (hi : i < 2 ^ 32) (hn0 : 0 < n)
    (h1 : clearLow i ≤ p) (h2 : p < i) (h3 : clearLow n ≤ p) (h4 : p < n) (hin : i < n) :
    i + lowbit i ≤ n := by
  obtain ⟨j, m, hie, hl, hc⟩ := level_view i h0 hi
  obtain ⟨l, s, hne, hnc⟩ := clearLow_view n hn0
  obtain ⟨hd1, he1⟩ := tree_node_eq_blockEnd i p j m hie (hc ▸ h1) h2
  obtain ⟨hd2, he2⟩ := tree_node_eq_blockEnd n p l s hne (hnc ▸ h3) h4
  have hjl : j + 1 ≤ l := by
    by_contra hcon
    have := blockEnd_mono p l j (by omega)
    rw [← he1, ← he2] at this; omega
  have h5 := blockEnd_mono p (j + 1) l hjl
  rw [← he2, div_pow_succ, hd1] at h5
  have e : i + lowbit i = 2 ^ (j + 1) * (2 * m / 2 + 1) := by
    have : 2 * m / 2 = m := by omega
    rw [hl, pow_succ, this, hie]; ring
  omega

/-- The predecessor `i & (i - 1)` of a `treeR` slot covering `p` covers `p` too. -/
theorem down_contains (i p : Nat) (h0 : 0 < i) (hi : i < 2 ^ 32) (h1 : i ≤ p)
    (h2 : p < i + lowbit i) (hc0 : 0 < clearLow i) :
    clearLow i ≤ p ∧ p < clearLow i + lowbit (clearLow i) := by
  obtain ⟨j, m, hie, hl, hc⟩ := level_view i h0 hi
  have hcl := clearLow_le i
  refine ⟨by omega, ?_⟩
  obtain ⟨J, M, hCe, hCl, -⟩ := level_view (clearLow i) hc0 (by omega)
  have hJ : j + 1 ≤ J := level_ge_of_mul (j + 1) m J M (by rw [← hCe, hc, pow_succ]; ring)
  have hpow : 2 ^ (j + 1) ≤ 2 ^ J := Nat.pow_le_pow_right (by norm_num) hJ
  have e2 : clearLow i + 2 ^ (j + 1) = i + lowbit i := by
    rw [hc, hl, pow_succ, hie]; ring
  omega

/-- Between a `treeR` slot covering `p` and its predecessor there is no other slot covering `p`. -/
theorem down_no_skip (i n p : Nat) (h0 : 0 < i) (hi : i < 2 ^ 32) (hn0 : 0 < n)
    (h1 : i ≤ p) (h2 : p < i + lowbit i) (h3 : n ≤ p) (h4 : p < n + lowbit n) (hni : n < i) :
    n ≤ clearLow i := by
  obtain ⟨j, m, hie, hl, hc⟩ := level_view i h0 hi
  obtain ⟨l, s, hne, hnl, -⟩ := level_view n hn0 (by omega)
  obtain ⟨hd1, he1⟩ := treeR_node_eq_blockStart i p j m hie h1 (hl ▸ h2)
  obtain ⟨hd2, he2⟩ := treeR_node_eq_blockStart n p l s hne h3 (hnl ▸ h4)
  have hjl : j + 1 ≤ l := by
    by_contra hcon
    have := blockStart_anti p l j (by omega)
    rw [← he1, ← he2] at this; omega
  have h5 := blockStart_anti p (j + 1) l hjl
  rw [← he2, div_pow_succ, hd1] at h5
  have e : clearLow i = 2 ^ (j + 1) * ((2 * m + 1) / 2) := by
    rw [hc, pow_succ]
    have : (2 * m + 1) / 2 = m := by omega
    rw [this]; ring
  omega

theorem rd_of_getElem? (junk : T) (xs : List T) (i : Nat) (x : T) (h : xs[i]? = some x) :
    rd junk xs i = x := by
  simp [rd, List.getD_eq_getElem?_getD, h]

theorem getElem?_set_self (xs : List T) (i : Nat) (x : T) (h : i < xs.length) :
    (xs.set i x)[i]? = some x := by
  simp [List.getElem?_set, h]

theorem getElem?_set_other (xs : List T) (i k : Nat) (x : T) (h : i ≠ k) :
    (xs.set i x)[k]? = xs[k]? := by
  simp [List.getElem?_set, h]

theorem mergeOver_self (op : T → T → T) (d : T) (a : List T) (l : Nat) :
    mergeOver op d a l l = d := by
  simp [mergeOver, foldIdx]

theorem mergeOver_of_le (op : T → T → T) (d : T) (a : List T) (l r : Nat) (h : r ≤ l) :
    mergeOver op d a l r = d := by
  have : r - l = 0 := by omega
  simp [mergeOver, this, foldIdx]

theorem mergeOver_succ (op : T → T → T) (d : T) (a : List T) (l r : Nat) (h : l ≤ r) :
    mergeOver op d a l (r + 1) = op (mergeOver op d a l r) (a.getD r d) := by
  have e : r + 1 - l = (r - l) + 1 := by omega
  have e2 : l + (r - l) = r := by omega
  simp [mergeOver, e, foldIdx, e2]

theorem mergeOver_single (op : T → T → T) (d : T) (a : List T) (p : Nat) :
    mergeOver op d a p (p + 1) = op d (a.getD p d) := by
  rw [mergeOver_succ op d a p p (Nat.le_refl _), mergeOver_self]

theorem foldIdx_add (op : T → T → T) (d : T) (a : List T)
    (hassoc : ∀ x y z, op (op x y) z = op x (op y z)) (hidr : ∀ x, op x d = x)
    (l n1 n2 : Nat) :
    foldIdx op d a l (n1 + n2) = op (foldIdx op d a l n1) (foldIdx op d a (l + n1) n2) := by
  induction n2 with
  | zero => simp [foldIdx, hidr]
  | succ n ih =>
    rw [← Nat.add_assoc]
    simp only [foldIdx]
    rw [ih, hassoc, Nat.add_assoc]

/-- Adjacent blocks merge to their union. -/
theorem mergeOver_split (op : T → T → T) (d : T) (a : List T)
    (hassoc : ∀ x y z, op (op x y) z = op x (op y z)) (hidr : ∀ x, op x d = x)
    (l m r : Nat) (h1 : l ≤ m) (h2 : m ≤ r) :
    op (mergeOver op d a l m) (mergeOver op d a m r) = mergeOver op d a l r := by
  unfold mergeOver
  have e : r - l = (m - l) + (r - m) := by omega
  have e2 : l + (m - l) = m := by omega
  rw [e, foldIdx_add op d a hassoc hidr, e2]

theorem foldIdx_congr (op : T → T → T) (d : T) (a b : List T) (l n : Nat)
    (h : ∀ k, l ≤ k → k < l + n → a.getD k d = b.getD k d) :
    foldIdx op d a l n = foldIdx op d b l n := by
  induction n with
  | zero => rfl
  | succ n ih =>
    simp only [foldIdx]
    rw [ih (fun k hk1 hk2 => h k hk1 (by omega)), h (l + n) (by omega) (by omega)]

/-- A block that does not contain `pos` is not affected by the assignment `a[pos] = v`. -/
theorem mergeOver_set_of_not_mem (op : T → T → T) (d : T) (a : List T) (pos : Nat) (v : T)
    (l r : Nat) (h : pos < l ∨ r ≤ pos) :
    mergeOver op d (a.set pos v) l r = mergeOver op d a l r := by
  unfold mergeOver
  apply foldIdx_congr
  intro k hk1 hk2
  have hne : pos ≠ k := by omega
  simp [List.getD_eq_getElem?_getD, List.getElem?_set, hne]

theorem getD_set_self (a : List T) (pos : Nat) (v d : T) (h : pos < a.length) :
    (a.set pos v).getD pos d = v := by
  simp [List.getD_eq_getElem?_getD, List.getElem?_set, h]

theorem foldIdx_eq_foldl (op : T → T → T) (d : T) (a : List T) (l n : Nat)
    (h : l + n ≤ a.length) :
    foldIdx op d a l n = ((a.drop l).take n).foldl op d := by
  induction n with
  | zero => simp [foldIdx]
  | succ n ih =>
    have hlt : n < (a.drop l).length := by simp; omega
    have e : (a.drop l).take (n + 1) = (a.drop l).take n ++ [(a.drop l)[n]] := by
      rw [List.take_succ]
      simp [List.getElem?_eq_getElem hlt]
    have e2 : (a.drop l)[n] = a.getD (l + n) d := by
      simp [List.getD_eq_getElem?_getD]
      rw [List.getElem?_eq_getElem (by omega)]; rfl
    simp only [foldIdx]
    rw [ih (by omega), e, List.foldl_append, e2]
    rfl

/-- With a left identity, the fold `a[l] ⊕ .. ⊕ a[r]` is the merge of the block `[l, r + 1)`. -/
theorem rangeFold_eq_mergeOver (op : T → T → T) (d : T) (a : List T)
    (hidl : ∀ x, op d x = x) (l r : Nat) (hlr : l ≤ r) (hr : r < a.length) :
    rangeFold op d a l r = mergeOver op d a l (r + 1) := by
  unfold rangeFold mergeOver
  rw [foldIdx_eq_foldl op d a l (r + 1 - l) (by omega)]
  cases h : (a.drop l).take (r + 1 - l) with
  | nil => rfl
  | cons x xs => simp [List.foldl, hidl]

/-- Loop rule for the `left == 0` loop of the range query. -/
theorem queryLoop0_rule (junk : T) (st : GeneralizedBIT T) (P : Nat → T → Prop)
    (hstep : ∀ R res, 0 < R → P R res →
      P (clearLow R) (st.mergeOp res (rd junk st.tree R))) :
    ∀ fuel R res, R < fuel → P R res →
      ∃ x, queryLoop0 junk st fuel R res = some x ∧ P 0 x := by
  intro fuel
  induction fuel with
  | zero => intro R res h; omega
  | succ fuel ih =>
    intro R res hf hP
    unfold queryLoop0
    by_cases hR : 0 < R
    · rw [if_pos hR]
      have := clearLow_lt R hR
      exact ih _ _ (by omega) (hstep R res hR hP)
    · rw [if_neg hR]
      have : R = 0 := by omega
      subst this
      exact ⟨res, rfl, hP⟩

/-- Loop rule for the first loop of the `left > 0` branch. -/
theorem queryLoopR_rule (junk : T) (st : GeneralizedBIT T) (left : Nat) (hl : 0 < left)
    (P : Nat → T → Prop)
    (hstep : ∀ R res, left ≤ clearLow R → P R res →
      P (clearLow R) (st.mergeOp res (rd junk st.tree R))) :
    ∀ fuel R res, clearLow R < fuel → P R res →
      ∃ R1 x, queryLoopR junk st left fuel R (clearLow R) res = some (R1, x) ∧ P R1 x ∧
        clearLow R1 < left := by
  intro fuel
  induction fuel with
  | zero => intro R res h; omega
  | succ fuel ih =>
    intro R res hf hP
    unfold queryLoopR
    by_cases hc : left ≤ clearLow R
    · rw [if_pos hc]
      have := clearLow_lt (clearLow R) (by omega)
      exact ih _ _ (by omega) (hstep R res hc hP)
    · rw [if_neg hc]
      exact ⟨R, res, rfl, hP, by omega⟩

/-- Loop rule for the second loop of the `left > 0` branch. -/
theorem queryLoopL_rule (junk : T) (st : GeneralizedBIT T) (R : Nat) (P : Nat → T → Prop)
    (hstep : ∀ L res, L < R → P L res →
      L < L + lowbit L ∧ P (L + lowbit L) (st.mergeOp res (rd junk st.treeR L))) :
    ∀ fuel L res, 0 < fuel → R < L + fuel → P L res →
      ∃ x L1, queryLoopL junk st R fuel L res = some x ∧ R ≤ L1 ∧ P L1 x := by
  intro fuel
  induction fuel with
  | zero =>
    intro L res h0 h hP
    omega
  | succ fuel ih =>
    intro L res _ hf hP
    unfold queryLoopL
    by_cases hc : L < R
    · rw [if_pos hc]
      obtain ⟨h1, h2⟩ := hstep L res hc hP
      exact ih _ _ (by omega) (by omega) h2
    · rw [if_neg hc]
      exact ⟨res, L, rfl, by omega, hP⟩

/-- The range query run with an invariant: `P0` for the `left == 0` loop, `PR` for the
first and `PL` for the second loop of the other branch. -/
theorem queryRange_rule (junk : T) (st : GeneralizedBIT T) (left right : Nat)
    (hr : right < st.N) (Q : T → Prop)
    (h0 : left = 0 → ∃ P : Nat → T → Prop, P (right + 1) st.defaultValue ∧
      (∀ R res, 0 < R → P R res → P (clearLow R) (st.mergeOp res (rd junk st.tree R))) ∧
      (∀ x, P 0 x → Q x))
    (h1 : 0 < left → ∃ PR : Nat → T → Prop, ∃ PL : Nat → Nat → T → Prop,
      PR (right + 1) st.defaultValue ∧
      (∀ R res, left ≤ clearLow R → PR R res →
        PR (clearLow R) (st.mergeOp res (rd junk st.tree R))) ∧
      (∀ R res, PR R res → clearLow R < left → R ≤ st.N ∧ PL R left res) ∧
      (∀ R L res, L < R → PL R L res →
        L < L + lowbit L ∧ PL R (L + lowbit L) (st.mergeOp res (rd junk st.treeR L))) ∧
      (∀ R L x, R ≤ L → PL R L x → Q x)) :
    ∃ x, queryRange junk st left right = some x ∧ Q x := by
  unfold queryRange
  by_cases hl : left = 0
  · rw [if_pos hl]
    obtain ⟨P, hinit, hstep, hfin⟩ := h0 hl
    obtain ⟨x, hx, hP⟩ := queryLoop0_rule junk st P hstep (st.N + 2) (right + 1) _ (by omega) hinit
    exact ⟨x, hx, hfin x hP⟩
  · rw [if_neg hl]
    obtain ⟨PR, PL, hinit, hstepR, hmid, hstepL, hfin⟩ := h1 (by omega)
    have hcl := clearLow_le (right + 1)
    obtain ⟨R1, x1, hx1, hP1, hc1⟩ :=
      queryLoopR_rule junk st left (by omega) PR hstepR (st.N + 2) (right + 1) _ (by omega) hinit
    rw [hx1]
    obtain ⟨hR1, hPL⟩ := hmid R1 x1 hP1 hc1
    obtain ⟨x, L1, hx, hL1, hP⟩ :=
      queryLoopL_rule junk st R1 (PL R1) (hstepL R1) (st.N + 2) left x1 (by omega) (by omega) hPL
    exact ⟨x, hx, hfin R1 L1 x hL1 hP⟩

/-- The range query terminates on every store, whatever the slots hold. -/
theorem queryRange_terminates (junk : T) (st : GeneralizedBIT T) (left right : Nat)
    (hlr : left ≤ right) (hr : right < st.N) (hN : st.N < 2 ^ 32) :
    ∃ x, queryRange junk st left right = some x := by
  obtain ⟨x, hx, -⟩ := queryRange_rule junk st left right hr (fun _ => True)
    (fun _ => ⟨fun _ _ => True, trivial, fun _ _ _ _ => trivial, fun _ _ => trivial⟩)
    (fun hl => ⟨fun R _ => left ≤ R ∧ R ≤ right + 1,
      fun R L _ => 0 < L ∧ clearLow R < L ∧ L ≤ R ∧ R ≤ st.N,
      ⟨by omega, Nat.le_refl _⟩,
      fun R res hc h => ⟨hc, Nat.le_trans (clearLow_le R) h.2⟩,
      fun R res h hc => ⟨by omega, hl, hc, h.1, by omega⟩,
      fun R L res hLR h => by
        have h1 := lowbit_step_le L R h.1 hLR h.2.1 (by omega)
        have h2 := lowbit_pos L h.1 (by omega)
        exact ⟨by omega, by omega, by omega, h1, h.2.2.2⟩,
      fun _ _ _ _ _ => trivial⟩)
  exact ⟨x, hx⟩

/-- On a store that represents `a`, the range query is the merge of the block
`[left, right + 1)`. -/
theorem queryRange_of_valid (junk : T) (st : GeneralizedBIT T) (a : List T)
    (hv : Valid st a)
    (hassoc : ∀ x y z, st.mergeOp (st.mergeOp x y) z = st.mergeOp x (st.mergeOp y z))
    (hcomm : ∀ x y, st.mergeOp x y = st.mergeOp y x)
    (hidl : ∀ x, st.mergeOp st.defaultValue x = x)
    (hN : a.length < 2 ^ 32) (left right : Nat) (hlr : left ≤ right) (hr : right < a.length) :
    queryRange junk st left right
      = some (mergeOver st.mergeOp st.defaultValue a left (right + 1)) := by
  have hidr : ∀ x, st.mergeOp x st.defaultValue = x := fun x => by rw [hcomm, hidl]
  have hsplit := mergeOver_split st.mergeOp st.defaultValue a hassoc hidr
  have hsz := hv.size
  obtain ⟨x, hx, hQ⟩ := queryRange_rule junk st left right (by omega)
    (fun x => x = mergeOver st.mergeOp st.defaultValue a left (right + 1))
    (fun hl => ⟨fun R res => R ≤ right + 1 ∧
        res = mergeOver st.mergeOp st.defaultValue a R (right + 1),
      ⟨Nat.le_refl _, by rw [mergeOver_self]⟩,
      fun R res hR h => by
        refine ⟨Nat.le_trans (clearLow_le R) h.1, ?_⟩
        rw [rd_of_getElem? junk _ _ _ (hv.tree_ok R hR (by omega)), h.2, hcomm,
          hsplit _ _ _ (clearLow_le R) h.1],
      fun x h => by rw [h.2, hl]⟩)
    (fun hl => ⟨fun R res => left ≤ R ∧ R ≤ right + 1 ∧
        res = mergeOver st.mergeOp st.defaultValue a R (right + 1),
      fun R L res => 0 < L ∧ clearLow R < L ∧ L ≤ R ∧ R ≤ right + 1 ∧ left ≤ L ∧
        res = st.mergeOp (mergeOver st.mergeOp st.defaultValue a R (right + 1))
          (mergeOver st.mergeOp st.defaultValue a left L),
      ⟨by omega, Nat.le_refl _, by rw [mergeOver_self]⟩,
      fun R res hc h => by
        refine ⟨hc, Nat.le_trans (clearLow_le R) h.2.1, ?_⟩
        rw [rd_of_getElem? junk _ _ _ (hv.tree_ok R (by omega) (by omega)), h.2.2, hcomm,
          hsplit _ _ _ (clearLow_le R) h.2.1],
      fun R res h hc => ⟨by omega, hl, hc, h.1, h.2.1, Nat.le_refl _, by
        rw [mergeOver_self, hidr]; exact h.2.2⟩,
      fun R L res hLR h => by
        obtain ⟨h1, h2, h3, h4, h5, h6⟩ := h
        have hs := lowbit_step_le L R h1 hLR h2 (by omega)
        have hp := lowbit_pos L h1 (by omega)
        refine ⟨by omega, by omega, by omega, hs, h4, by omega, ?_⟩
        rw [rd_of_getElem? junk _ _ _ (hv.treeR_ok L h1 (by omega)), h6, hassoc,
          hsplit _ _ _ h5 (by omega)],
      fun R L x hRL h => by
        obtain ⟨h1, h2, h3, h4, h5, h6⟩ := h
        have : L = R := by omega
        subst this
        rw [h6, hcomm, hsplit _ _ _ h5 h4]⟩)
  rw [hx, hQ]

theorem getElem?_eq_some_rd (junk : T) (xs : List T) (i : Nat) (h : i < xs.length) :
    xs[i]? = some (rd junk xs i) := by
  simp [rd, List.getD_eq_getElem?_getD, List.getElem?_eq_getElem h]

/-- What the first loop of `initUpdate` does: it merges `val` into exactly the `tree` slots
from `i` on that cover `p`. -/
theorem initUpdateTree_spec (junk val : T) (N p : Nat) (hN : N < 2 ^ 30) :
    ∀ fuel (st : GeneralizedBIT T) (i : Nat), st.N = N → st.tree.length = N + 1 →
      0 < i → clearLow i ≤ p → p < i → 0 < fuel → N + 1 < i + fuel →
      ∃ st1, initUpdateTree junk val fuel st i = some st1 ∧ st1.N = N ∧
        st1.treeR = st.treeR ∧ st1.mergeOp = st.mergeOp ∧
        st1.defaultValue = st.defaultValue ∧ st1.tree.length = N + 1 ∧
        ∀ n, 0 < n → n ≤ N →
          st1.tree[n]? = if i ≤ n ∧ clearLow n ≤ p ∧ p < n
            then some (st.mergeOp (rd junk st.tree n) val) else st.tree[n]? := by
  intro fuel
  induction fuel with
  | zero => intro st i _ _ _ _ _ h; omega
  | succ fuel ih =>
    intro st i hsN hlen hi0 hc hp _ hf
    unfold initUpdateTree
    by_cases hiN : i ≤ st.N
    · rw [if_pos hiN]
      have hlb := lowbit_pos i hi0 (by omega)
      have hle := lowbit_le i hi0 (by omega)
      have hup := up_contains i p hi0 (by omega) hc hp
      obtain ⟨st1, h1, h2, h3, h4, h5, h6, h7⟩ :=
        ih { st with tree := st.tree.set i (st.mergeOp (rd junk st.tree i) val) }
          (i + lowbit i) hsN (by simp [hlen]) (by omega) hup.1 hup.2 (by omega) (by omega)
      refine ⟨st1, h1, h2, h3, h4, h5, h6, ?_⟩
      intro n hn0 hnN
      rw [h7 n hn0 hnN]
      by_cases hni : n = i
      · subst hni
        rw [if_neg (by omega), if_pos ⟨Nat.le_refl _, hc, hp⟩]
        exact getElem?_set_self _ _ _ (by omega)
      · simp only [getElem?_set_other _ _ _ _ (Ne.symm hni)]
        by_cases hcn : clearLow n ≤ p ∧ p < n
        · by_cases hin : i ≤ n
          · have := up_no_skip i n p hi0 (by omega) hn0 hc hp hcn.1 hcn.2 (by omega)
            rw [if_pos ⟨this, hcn⟩, if_pos ⟨hin, hcn⟩]
            simp only [rd, List.getD_eq_getElem?_getD, getElem?_set_other _ _ _ _ (Ne.symm hni)]
          · rw [if_neg (by omega), if_neg (by omega)]
        · rw [if_neg (fun h => hcn h.2), if_neg (fun h => hcn h.2)]
    · rw [if_neg hiN]
      refine ⟨st, rfl, hsN, rfl, rfl, rfl, hlen, ?_⟩
      intro n hn0 hnN
      rw [if_neg (by omega)]

/-- What the second loop of `initUpdate` does: it merges `val` into exactly the `treeR`
slots up to `i` that cover `p`. -/
theorem initUpdateTreeR_spec (junk val : T) (N p : Nat) (hp : p < N) (hN : N < 2 ^ 30) :
    ∀ fuel (st : GeneralizedBIT T) (i : Nat), st.N = N → st.treeR.length = N →
      (i = 0 ∨ (i ≤ p ∧ p < i + lowbit i)) → i < fuel →
      ∃ st1, initUpdateTreeR junk val fuel st i = some st1 ∧ st1.N = N ∧
        st1.tree = st.tree ∧ st1.mergeOp = st.mergeOp ∧
        st1.defaultValue = st.defaultValue ∧ st1.treeR.length = N ∧
        ∀ n, 0 < n → n < N →
          st1.treeR[n]? = if n ≤ i ∧ n ≤ p ∧ p < n + lowbit n
            then some (st.mergeOp (rd junk st.treeR n) val) else st.treeR[n]? := by
  intro fuel
  induction fuel with
  | zero => intro st i _ _ _ h; omega
  | succ fuel ih =>
    intro st i hsN hlen hinv hf
    unfold initUpdateTreeR
    by_cases hi0 : 0 < i
    · rw [if_pos hi0]
      have hinv2 : i ≤ p ∧ p < i + lowbit i := by
        rcases hinv with h | h
        · omega
        · exact h
      have hcl := clearLow_lt i hi0
      have hnext : clearLow i = 0 ∨ (clearLow i ≤ p ∧ p < clearLow i + lowbit (clearLow i)) := by
        by_cases hc0 : 0 < clearLow i
        · exact Or.inr (down_contains i p hi0 (by omega) hinv2.1 hinv2.2 hc0)
        · exact Or.inl (by omega)
      obtain ⟨st1, h1, h2, h3, h4, h5, h6, h7⟩ :=
        ih { st with treeR := st.treeR.set i (st.mergeOp (rd junk st.treeR i) val) }
          (clearLow i) hsN (by simp [hlen]) hnext (by omega)
      refine ⟨st1, h1, h2, h3, h4, h5, h6, ?_⟩
      intro n hn0 hnN
      rw [h7 n hn0 hnN]
      by_cases hni : n = i
      · subst hni
        rw [if_neg (by omega), if_pos ⟨Nat.le_refl _, hinv2⟩]
        exact getElem?_set_self _ _ _ (by omega)
      · simp only [getElem?_set_other _ _ _ _ (Ne.symm hni)]
        by_cases hcn : n ≤ p ∧ p < n + lowbit n
        · by_cases hin : n ≤ i
          · have := down_no_skip i n p hi0 (by omega) hn0 hinv2.1 hinv2.2 hcn.1 hcn.2 (by omega)
            rw [if_pos ⟨this, hcn⟩, if_pos ⟨hin, hcn⟩]
            simp only [rd, List.getD_eq_getElem?_getD, getElem?_set_other _ _ _ _ (Ne.symm hni)]
          · rw [if_neg (by omega), if_neg (by omega)]
        · rw [if_neg (fun h => hcn h.2), if_neg (fun h => hcn h.2)]
    · rw [if_neg hi0]
      refine ⟨st, rfl, hsN, rfl, rfl, rfl, hlen, ?_⟩
      intro n hn0 hnN
      rw [if_neg (by omega)]

theorem initUpdate_step (junk : T) (op : T → T → T) (d : T) (a : List T) (p : Nat)
    (st : GeneralizedBIT T) (hN : a.length < 2 ^ 30) (hp : p < a.length)
    (hb : BuiltUpTo op d a p st) :
    ∃ st1, initUpdate junk st p (a.getD p d) = some st1 ∧ BuiltUpTo op d a (p + 1) st1 := by
  unfold initUpdate
  have hcl : clearLow (p + 1) ≤ p := by
    have := clearLow_lt (p + 1) (by omega); omega
  obtain ⟨st1, h1, h2, h3, h4, h5, h6, h7⟩ :=
    initUpdateTree_spec junk (a.getD p d) a.length p hN (st.N + 1) st (p + 1) hb.size
      hb.tree_len (by omega) hcl (by omega) (by omega) (by rw [hb.size]; omega)
  rw [h1]
  have hinv : p = 0 ∨ (p ≤ p ∧ p < p + lowbit p) := by
    by_cases h0 : 0 < p
    · have := lowbit_pos p h0 (by omega)
      exact Or.inr ⟨Nat.le_refl _, by omega⟩
    · exact Or.inl (by omega)
  obtain ⟨st2, g1, g2, g3, g4, g5, g6, g7⟩ :=
    initUpdateTreeR_spec junk (a.getD p d) a.length p hp hN (st.N + 1) st1 p h2
      (by rw [h3]; exact hb.treeR_len) hinv (by rw [hb.size]; omega)
  refine ⟨st2, g1, ⟨g2, by rw [g4, h4]; exact hb.op_eq, by rw [g5, h5]; exact hb.dflt_eq,
    by rw [g3]; exact h6, g6, ?_, ?_⟩⟩
  · intro n hn0 hnN
    rw [g3, h7 n hn0 hnN, hb.op_eq]
    by_cases hc : clearLow n ≤ p ∧ p < n
    · rw [if_pos ⟨by omega, hc⟩, rd_of_getElem? junk _ _ _ (hb.tree_val n hn0 hnN)]
      have e1 : min n (p + 1) = p + 1 := by omega
      have e2 : min n p = p := by omega
      rw [e1, e2, mergeOver_succ op d a _ _ hc.1]
    · rw [if_neg (fun h => hc h.2), hb.tree_val n hn0 hnN]
      by_cases hlt : p < clearLow n
      · rw [mergeOver_of_le op d a _ _ (by omega), mergeOver_of_le op d a _ _ (by omega)]
      · have e1 : min n (p + 1) = n := by omega
        have e2 : min n p = n := by omega
        rw [e1, e2]
  · intro n hn0 hnN
    rw [g7 n hn0 hnN, h4, hb.op_eq, h3]
    by_cases hc : n ≤ p ∧ p < n + lowbit n
    · rw [if_pos ⟨hc.1, hc⟩, rd_of_getElem? junk _ _ _ (hb.treeR_val n hn0 hnN)]
      have e1 : min (n + lowbit n) (p + 1) = p + 1 := by omega
      have e2 : min (n + lowbit n) p = p := by omega
      rw [e1, e2, mergeOver_succ op d a _ _ hc.1]
    · rw [if_neg (fun h => hc h.2), hb.treeR_val n hn0 hnN]
      by_cases hlt : p < n
      · rw [mergeOver_of_le op d a _ _ (by omega), mergeOver_of_le op d a _ _ (by omega)]
      · have e1 : min (n + lowbit n) (p + 1) = n + lowbit n := by omega
        have e2 : min (n + lowbit n) p = n + lowbit n := by omega
        rw [e1, e2]

theorem buildLoop_spec (junk : T) (op : T → T → T) (d : T) (a : List T)
    (hN : a.length < 2 ^ 30) :
    ∀ (rest : List T) (p : Nat) (st : GeneralizedBIT T), a.drop p = rest → p ≤ a.length →
      BuiltUpTo op d a p st →
      ∃ st1, buildLoop junk st p rest = some st1 ∧ BuiltUpTo op d a a.length st1 := by
  intro rest
  induction rest with
  | nil =>
    intro p st hdrop hple hb
    have hp : p = a.length := by
      have := congrArg List.length hdrop
      simp at this; omega
    subst hp
    exact ⟨st, rfl, hb⟩
  | cons x xs ih =>
    intro p st hdrop _ hb
    have hp : p < a.length := by
      have := congrArg List.length hdrop
      simp at this; omega
    have hx : a.getD p d = x := by
      have h1 : (a.drop p)[0]? = some x := by rw [hdrop]; simp
      rw [List.getElem?_drop, Nat.add_zero] at h1
      simp [List.getD_eq_getElem?_getD, h1]
    have hxs : a.drop (p + 1) = xs := by
      have : a.drop (p + 1) = (a.drop p).drop 1 := by rw [List.drop_drop, Nat.add_comm]
      rw [this, hdrop]; rfl
    obtain ⟨st1, h1, h2⟩ := initUpdate_step junk op d a p st hN hp hb
    unfold buildLoop
    rw [← hx, h1]
    exact ih (p + 1) st1 hxs hp h2

/-- The method `build` terminates and leaves every slot holding the merge of its block. -/
theorem build_spec (junk : T) (st0 : GeneralizedBIT T) (a : List T) (hN : a.length < 2 ^ 30) :
    ∃ st, build junk st0 a = some st ∧
      BuiltUpTo st0.mergeOp st0.defaultValue a a.length st := by
  unfold build
  apply buildLoop_spec junk st0.mergeOp st0.defaultValue a hN a 0 _ (by simp) (Nat.zero_le _)
  refine ⟨rfl, rfl, rfl, by simp [init], by simp [init], ?_, ?_⟩
  · intro n hn0 hnN
    rw [mergeOver_of_le _ _ _ _ _ (by omega)]
    simp only [init, List.getElem?_replicate]
    rw [if_pos (by omega)]
  · intro n hn0 hnN
    rw [mergeOver_of_le _ _ _ _ _ (by omega)]
    simp only [init, List.getElem?_replicate]
    rw [if_pos (by omega)]

theorem BuiltUpTo.valid {op : T → T → T} {d : T} {a : List T} {st : GeneralizedBIT T}
    (hb : BuiltUpTo op d a a.length st) (hN : a.length < 2 ^ 30) : Valid st a := by
  refine ⟨hb.size, hb.tree_len, hb.treeR_len, ?_, ?_⟩
  · intro n hn0 hnN
    rw [hb.tree_val n hn0 hnN, hb.op_eq, hb.dflt_eq, Nat.min_eq_left hnN]
  · intro n hn0 hnN
    have := lowbit_pos n hn0 (by omega)
    rw [hb.treeR_val n hn0 (by omega), hb.op_eq, hb.dflt_eq, Nat.min_eq_left hnN]

theorem node_pos (pos j : Nat) : 0 < node pos j := by
  unfold node; positivity

theorem pow_le_node (pos j : Nat) : 2 ^ j ≤ node pos j := by
  unfold node
  exact Nat.le_mul_of_pos_right _ (by omega)

theorem clearLow_node (pos j : Nat) : clearLow (node pos j) = 2 ^ j * (2 * (pos / 2 ^ (j + 1))) :=
  clearLow_level j _

theorem lowbit_node (pos j : Nat) (h : node pos j < 2 ^ 32) : lowbit (node pos j) = 2 ^ j :=
  lowbit_level j _ h

theorem node_le_blockEnd (pos j : Nat) : node pos j ≤ 2 ^ j * (pos / 2 ^ j + 1) := by
  unfold node
  rw [div_pow_succ]
  apply Nat.mul_le_mul_left
  omega

theorem node_succ_of_even (pos j : Nat) (h : pos / 2 ^ (j + 1) % 2 = 0) :
    node pos (j + 1) = node pos j + 2 ^ j ∧
      clearLow (node pos (j + 1)) = clearLow (node pos j) := by
  rw [clearLow_node, clearLow_node]
  unfold node
  rw [div_pow_succ pos (j + 1)]
  generalize pos / 2 ^ (j + 1) = x at h
  obtain ⟨y, rfl⟩ : ∃ y, x = 2 * y := ⟨x / 2, by omega⟩
  have e : 2 * y / 2 = y := by omega
  rw [e, pow_succ]
  constructor <;> ring

theorem node_succ_of_odd (pos j : Nat) (h : pos / 2 ^ (j + 1) % 2 = 1) :
    node pos (j + 1) = clearLow (node pos j) ∧
      node pos (j + 1) + 2 ^ (j + 1) = node pos j + 2 ^ j ∧ node pos (j + 1) ≤ pos := by
  have hle : 2 ^ (j + 1) * (pos / 2 ^ (j + 1)) ≤ pos := Nat.mul_div_le pos (2 ^ (j + 1))
  rw [clearLow_node]
  unfold node
  rw [div_pow_succ pos (j + 1)]
  generalize pos / 2 ^ (j + 1) = x at h hle
  obtain ⟨y, rfl⟩ : ∃ y, x = 2 * y + 1 := ⟨x / 2, by omega⟩
  have e : (2 * y + 1) / 2 = y := by omega
  rw [e]
  refine ⟨by rw [pow_succ]; ring, by rw [pow_succ]; ring, ?_⟩
  calc 2 ^ (j + 1) * (2 * y + 1) ≤ pos := hle

/-- A `tree` slot of level `j + 1` that covers `pos` is the slot `node pos (j + 1)`, and
bit `j + 1` of `pos` is clear. -/
theorem tree_node_level (pos n j m : Nat) (hn : n = 2 ^ (j + 1) * (2 * m + 1))
    (h1 : clearLow n ≤ pos) (h2 : pos < n) :
    pos / 2 ^ (j + 1) % 2 = 0 ∧ n = node pos (j + 1) := by
  have hc : clearLow n = 2 ^ (j + 1) * (2 * m) := by rw [hn]; exact clearLow_level _ _
  obtain ⟨hd, -⟩ := tree_node_eq_blockEnd n pos (j + 1) m hn (hc ▸ h1) h2
  refine ⟨by omega, ?_⟩
  unfold node
  rw [div_pow_succ pos (j + 1), hd, hn]
  have : 2 * m / 2 = m := by omega
  rw [this]

/-- A `treeR` slot of level `j + 1` that covers `pos` is the slot `node pos (j + 1)`, and
bit `j + 1` of `pos` is set. -/
theorem treeR_node_level (pos n j m : Nat) (hn : n = 2 ^ (j + 1) * (2 * m + 1))
    (h1 : n ≤ pos) (h2 : pos < n + 2 ^ (j + 1)) :
    pos / 2 ^ (j + 1) % 2 = 1 ∧ n = node pos (j + 1) := by
  obtain ⟨hd, -⟩ := treeR_node_eq_blockStart n pos (j + 1) m hn h1 h2
  refine ⟨by omega, ?_⟩
  unfold node
  rw [div_pow_succ pos (j + 1), hd, hn]
  have : (2 * m + 1) / 2 = m := by omega
  rw [this]

theorem pow_exponent_eq (l i : Nat) (h1 : ¬ 2 ^ l < 2 ^ (i + 1)) (h2 : 2 ^ l < 2 ^ (i + 2)) :
    l = i + 1 := by
  by_contra hne
  rcases Nat.lt_or_gt_of_ne hne with h | h
  · exact h1 (Nat.pow_lt_pow_right (by norm_num) h)
  · have := Nat.pow_le_pow_right (show 0 < 2 by norm_num) (show i + 2 ≤ l by omega)
    omega

/-- A `tree` slot at or above level `j` that covers `pos` is not below `node pos j`. -/
theorem node_le_tree_node (pos n j : Nat) (hn0 : 0 < n) (hn : n < 2 ^ 32)
    (h1 : clearLow n ≤ pos) (h2 : pos < n) (hl : ¬ lowbit n < 2 ^ j) : node pos j ≤ n := by
  obtain ⟨l, m, hne, hnl, hnc⟩ := level_view n hn0 hn
  have hjl : j ≤ l := by
    by_contra hcon
    exact hl (hnl ▸ Nat.pow_lt_pow_right (by norm_num) (by omega))
  obtain ⟨-, he⟩ := tree_node_eq_blockEnd n pos l m hne (hnc ▸ h1) h2
  calc node pos j ≤ 2 ^ j * (pos / 2 ^ j + 1) := node_le_blockEnd pos j
    _ ≤ 2 ^ l * (pos / 2 ^ l + 1) := blockEnd_mono pos j l hjl
    _ = n := he.symm

/-- The block of a `treeR` slot at or above level `j` that covers `pos` ends at or after
`node pos j`. -/
theorem node_le_treeR_end (pos n j : Nat) (hn0 : 0 < n) (hn : n < 2 ^ 32)
    (h1 : n ≤ pos) (h2 : pos < n + lowbit n) (hl : ¬ lowbit n < 2 ^ j) :
    node pos j ≤ n + lowbit n := by
  obtain ⟨l, m, hne, hnl, hnc⟩ := level_view n hn0 hn
  have hjl : j ≤ l := by
    by_contra hcon
    exact hl (hnl ▸ Nat.pow_lt_pow_right (by norm_num) (by omega))
  obtain ⟨hd, -⟩ := treeR_node_eq_blockStart n pos l m hne h1 (hnl ▸ h2)
  calc node pos j ≤ 2 ^ j * (pos / 2 ^ j + 1) := node_le_blockEnd pos j
    _ ≤ 2 ^ l * (pos / 2 ^ l + 1) := blockEnd_mono pos j l hjl
    _ = n + lowbit n := by rw [hd, hnl, hne]; ring

/-- The index arithmetic of one round of the loop of `update`. -/
theorem update_next_curr (pos j : Nat) :
    clearLow (node pos (j + 1)) ||| (2 ^ (j + 1) <<< 1) = node pos (j + 2) := by
  rw [clearLow_node, Nat.shiftLeft_eq]
  have e1 : 2 ^ (j + 1) * (2 * (pos / 2 ^ (j + 1 + 1))) = 2 ^ (j + 2) * (pos / 2 ^ (j + 2)) := by
    rw [pow_succ 2 (j + 1)]; ring
  have e2 : 2 ^ (j + 1) * 2 ^ 1 = 2 ^ (j + 2) := by rw [pow_succ 2 (j + 1)]; ring
  rw [e1, e2, or_pow_level]
  unfold node
  rw [div_pow_succ pos (j + 2)]

theorem update_test (pos j : Nat) :
    node pos j &&& 2 ^ (j + 1) ≠ 0 ↔ pos / 2 ^ (j + 1) % 2 = 1 := by
  unfold node
  rw [and_pow_level]
  have hp : 0 < 2 ^ (j + 1) := by positivity
  constructor
  · intro h
    by_contra hc
    have : pos / 2 ^ (j + 1) % 2 = 0 := by omega
    rw [this] at h; simp at h
  · intro h; rw [h]; omega

theorem update_init_index (pos : Nat) (h : pos < 2 ^ 32) :
    pos ||| 1 = node pos 0 ∧ (pos &&& (2 ^ 32 - 2)) ||| 2 = node pos 1 := by
  constructor
  · rw [or_one_eq]; simp [node]
  · rw [and_not_one pos h]
    have := or_pow_level 1 (pos / 2)
    simp only [pow_one] at this
    rw [this]
    unfold node
    rw [div_pow_succ pos 1]; simp

theorem updateLoop_spec (junk : T) (op : T → T → T) (d : T) (b : List T) (pos : Nat)
    (hN : b.length < 2 ^ 30)
    (hassoc : ∀ x y z, op (op x y) z = op x (op y z)) (hidr : ∀ x, op x d = x) :
    ∀ fuel i (st : GeneralizedBIT T), UpdInv op d b pos i st → node pos i ≤ b.length →
      0 < fuel → b.length + 2 ≤ fuel + 2 ^ (i + 1) →
      ∃ st1, updateLoop junk fuel st (node pos i) (node pos (i + 1)) (2 ^ (i + 1)) = some st1 ∧
        Valid st1 b ∧ st1.mergeOp = op ∧ st1.defaultValue = d := by
  intro fuel
  induction fuel with
  | zero => intro i st _ _ h _; omega
  | succ fuel ih =>
    intro i st hinv hprev _ hf
    have hsplit := mergeOver_split op d b hassoc hidr
    unfold updateLoop
    by_cases hc : node pos (i + 1) ≤ st.N
    · rw [if_pos hc]
      have hcN : node pos (i + 1) ≤ b.length := hinv.size ▸ hc
      have hpw := pow_le_node pos (i + 1)
      have hpw2 : 2 ^ (i + 1 + 1) = 2 * 2 ^ (i + 1) := by rw [pow_succ]; ring
      have hpi : 2 ^ i < 2 ^ (i + 1) := Nat.pow_lt_pow_right (by norm_num) (by omega)
      have hlbp : lowbit (node pos i) = 2 ^ i := lowbit_node pos i (by omega)
      have hlbc : lowbit (node pos (i + 1)) = 2 ^ (i + 1) := lowbit_node pos (i + 1) (by omega)
      have htp : rd junk st.tree (node pos i)
          = mergeOver op d b (clearLow (node pos i)) (node pos i) :=
        rd_of_getElem? junk _ _ _
          (hinv.tree_val _ (node_pos pos i) hprev (Or.inl (by rw [hlbp]; exact hpi)))
      have hmask : 2 ^ (i + 1) <<< 1 = 2 ^ (i + 1 + 1) := by
        rw [Nat.shiftLeft_eq, pow_succ 2 (i + 1)]
      simp only [update_next_curr]
      rw [hmask]
      apply ih (i + 1) _ _ hcN (by omega) (by omega)
      by_cases hq : pos / 2 ^ (i + 1) % 2 = 1
      · -- bit `i + 1` of `pos` is set: the round writes `treeR[curr]`
        rw [if_pos ((update_test pos i).2 hq)]
        obtain ⟨e1, e2, e3⟩ := node_succ_of_odd pos i hq
        refine ⟨hinv.size, hinv.op_eq, hinv.dflt_eq, hinv.tree_len, ?_, ?_, ?_⟩
        · simpa using hinv.treeR_len
        · intro n hn0 hnN hcond
          show st.tree[n]? = _
          by_cases hold : lowbit n < 2 ^ (i + 1) ∨ ¬ (clearLow n ≤ pos ∧ pos < n)
          · exact hinv.tree_val n hn0 hnN hold
          · exfalso
            have h1 : ¬ lowbit n < 2 ^ (i + 1) := fun h => hold (Or.inl h)
            have h2 : clearLow n ≤ pos ∧ pos < n := by
              by_contra h; exact hold (Or.inr h)
            have h3 : lowbit n < 2 ^ (i + 1 + 1) := by
              rcases hcond with h | h
              · exact h
              · exact absurd h2 h
            obtain ⟨l, m, hne, hnl, -⟩ := level_view n hn0 (by omega)
            rw [hnl] at h1 h3
            have hl := pow_exponent_eq l i h1 h3
            subst hl
            have := (tree_node_level pos n i m hne h2.1 h2.2).1
            omega
        · intro n hn0 hfull hcond
          show (st.treeR.set _ _)[n]? = _
          by_cases hnc : n = node pos (i + 1)
          · subst hnc
            rw [getElem?_set_self _ _ _ (by rw [hinv.treeR_len]; omega)]
            have hfull2 : node pos i + lowbit (node pos i) ≤ b.length := by
              rw [hlbp]; rw [hlbc] at hfull; omega
            have htr : rd junk st.treeR (node pos i)
                = mergeOver op d b (node pos i) (node pos i + lowbit (node pos i)) :=
              rd_of_getElem? junk _ _ _
                (hinv.treeR_val _ (node_pos pos i) hfull2 (Or.inl (by rw [hlbp]; exact hpi)))
            rw [hinv.op_eq, htp, htr, hsplit _ _ _ (clearLow_le _) (Nat.le_add_right _ _)]
            have e4 : node pos (i + 1) + lowbit (node pos (i + 1))
                = node pos i + lowbit (node pos i) := by rw [hlbc, hlbp]; exact e2
            rw [e4, ← e1]
          · rw [getElem?_set_other _ _ _ _ (Ne.symm hnc)]
            by_cases hold : lowbit n < 2 ^ (i + 1) ∨ ¬ (n ≤ pos ∧ pos < n + lowbit n)
            · exact hinv.treeR_val n hn0 hfull hold
            · exfalso
              have h1 : ¬ lowbit n < 2 ^ (i + 1) := fun h => hold (Or.inl h)
              have h2 : n ≤ pos ∧ pos < n + lowbit n := by
                by_contra h; exact hold (Or.inr h)
              have h3 : lowbit n < 2 ^ (i + 1 + 1) := by
                rcases hcond with h | h
                · exact h
                · exact absurd h2 h
              obtain ⟨l, m, hne, hnl, -⟩ := level_view n hn0 (by omega)
              rw [hnl] at h1 h3
              have hl := pow_exponent_eq l i h1 h3
              subst hl
              exact hnc (treeR_node_level pos n i m hne h2.1 (hnl ▸ h2.2)).2
      · -- bit `i + 1` of `pos` is clear: the round writes `tree[curr]`
        have hq0 : pos / 2 ^ (i + 1) % 2 = 0 := by omega
        rw [if_neg (fun h => hq ((update_test pos i).1 h))]
        obtain ⟨e1, e2⟩ := node_succ_of_even pos i hq0
        refine ⟨hinv.size, hinv.op_eq, hinv.dflt_eq, ?_, hinv.treeR_len, ?_, ?_⟩
        · simpa using hinv.tree_len
        · intro n hn0 hnN hcond
          show (st.tree.set _ _)[n]? = _
          by_cases hnc : n = node pos (i + 1)
          · subst hnc
            rw [getElem?_set_self _ _ _ (by rw [hinv.tree_len]; omega)]
            have hfull2 : node pos i + lowbit (node pos i) ≤ b.length := by
              rw [hlbp]; omega
            have htr : rd junk st.treeR (node pos i)
                = mergeOver op d b (node pos i) (node pos i + lowbit (node pos i)) :=
              rd_of_getElem? junk _ _ _
                (hinv.treeR_val _ (node_pos pos i) hfull2 (Or.inl (by rw [hlbp]; exact hpi)))
            rw [hinv.op_eq, htp, htr, hsplit _ _ _ (clearLow_le _) (Nat.le_add_right _ _)]
            rw [e2, hlbp, ← e1]
          · rw [getElem?_set_other _ _ _ _ (Ne.symm hnc)]
            by_cases hold : lowbit n < 2 ^ (i + 1) ∨ ¬ (clearLow n ≤ pos ∧ pos < n)
            · exact hinv.tree_val n hn0 hnN hold
            · exfalso
              have h1 : ¬ lowbit n < 2 ^ (i + 1) := fun h => hold (Or.inl h)
              have h2 : clearLow n ≤ pos ∧ pos < n := by
                by_contra h; exact hold (Or.inr h)
              have h3 : lowbit n < 2 ^ (i + 1 + 1) := by
                rcases hcond with h | h
                · exact h
                · exact absurd h2 h
              obtain ⟨l, m, hne, hnl, -⟩ := level_view n hn0 (by omega)
              rw [hnl] at h1 h3
              have hl := pow_exponent_eq l i h1 h3
              subst hl
              exact hnc (tree_node_level pos n i m hne h2.1 h2.2).2
        · intro n hn0 hfull hcond
          show st.treeR[n]? = _
          by_cases hold : lowbit n < 2 ^ (i + 1) ∨ ¬ (n ≤ pos ∧ pos < n + lowbit n)
          · exact hinv.treeR_val n hn0 hfull hold
          · exfalso
            have h1 : ¬ lowbit n < 2 ^ (i + 1) := fun h => hold (Or.inl h)
            have h2 : n ≤ pos ∧ pos < n + lowbit n := by
              by_contra h; exact hold (Or.inr h)
            have h3 : lowbit n < 2 ^ (i + 1 + 1) := by
              rcases hcond with h | h
              · exact h
              · exact absurd h2 h
            obtain ⟨l, m, hne, hnl, -⟩ := level_view n hn0 (by omega)
            rw [hnl] at h1 h3
            have hl := pow_exponent_eq l i h1 h3
            subst hl
            have := (treeR_node_level pos n i m hne h2.1 (hnl ▸ h2.2)).1
            omega
    · rw [if_neg hc]
      have hcN : ¬ node pos (i + 1) ≤ b.length := hinv.size ▸ hc
      refine ⟨st, rfl, ⟨hinv.size, hinv.tree_len, hinv.treeR_len, ?_, ?_⟩, hinv.op_eq,
        hinv.dflt_eq⟩
      · intro n hn0 hnN
        rw [hinv.op_eq, hinv.dflt_eq]
        apply hinv.tree_val n hn0 hnN
        by_cases h1 : lowbit n < 2 ^ (i + 1)
        · exact Or.inl h1
        · refine Or.inr (fun h2 => hcN ?_)
          exact Nat.le_trans (node_le_tree_node pos n (i + 1) hn0 (by omega) h2.1 h2.2 h1) hnN
      · intro n hn0 hfull
        rw [hinv.op_eq, hinv.dflt_eq]
        apply hinv.treeR_val n hn0 hfull
        by_cases h1 : lowbit n < 2 ^ (i + 1)
        · exact Or.inl h1
        · refine Or.inr (fun h2 => hcN ?_)
          exact Nat.le_trans (node_le_treeR_end pos n (i + 1) hn0 (by omega) h2.1 h2.2 h1) hfull

theorem lowbit_lt_two (n : Nat) (hn0 : 0 < n) (hn : n < 2 ^ 32) (h : lowbit n < 2 ^ (0 + 1)) :
    lowbit n = 1 ∧ n % 2 = 1 ∧ clearLow n = n - 1 := by
  obtain ⟨l, m, hne, hnl, hnc⟩ := level_view n hn0 hn
  have hl : l = 0 := by
    by_contra hne0
    have := Nat.pow_le_pow_right (show 0 < 2 by norm_num) (show 0 + 1 ≤ l by omega)
    rw [hnl] at h; omega
  subst hl
  simp at hne hnl hnc
  omega

/-- The slot assignment and the loop entry of `update` establish the loop invariant. -/
theorem update_init_inv (st : GeneralizedBIT T) (a : List T) (pos : Nat) (v : T)
    (hv : Valid st a) (hidl : ∀ x, st.mergeOp st.defaultValue x = x)
    (hpos : pos < a.length) (hN : a.length < 2 ^ 30) :
    UpdInv st.mergeOp st.defaultValue (a.set pos v) pos 0
      (if pos &&& 1 ≠ 0 then { st with treeR := st.treeR.set (node pos 0) v }
        else { st with tree := st.tree.set (node pos 0) v }) := by
  have hn0 : node pos 0 = 2 * (pos / 2) + 1 := by simp [node]
  have hsingle : mergeOver st.mergeOp st.defaultValue (a.set pos v) pos (pos + 1) = v := by
    rw [mergeOver_single, getD_set_self a pos v _ hpos, hidl]
  rw [Nat.and_one_is_mod]
  by_cases hodd : pos % 2 = 1
  · rw [if_pos (by omega)]
    have hnp : node pos 0 = pos := by omega
    refine ⟨by simpa using hv.size, rfl, rfl, by simpa using hv.tree_len,
      by simpa using hv.treeR_len, ?_, ?_⟩
    · intro n hn0' hnN hcond
      show st.tree[n]? = _
      rw [List.length_set] at hnN
      have hnot : ¬ (clearLow n ≤ pos ∧ pos < n) := by
        intro hcon
        rcases hcond with h | h
        · have := lowbit_lt_two n hn0' (by omega) h
          omega
        · exact h hcon
      rw [hv.tree_ok n hn0' hnN, mergeOver_set_of_not_mem _ _ _ _ _ _ _ (by omega)]
    · intro n hn0' hfull hcond
      show (st.treeR.set _ _)[n]? = _
      rw [List.length_set] at hfull
      by_cases hcon : n ≤ pos ∧ pos < n + lowbit n
      · have hlt : lowbit n < 2 ^ (0 + 1) := by
          rcases hcond with h | h
          · exact h
          · exact absurd hcon h
        have := lowbit_lt_two n hn0' (by omega) hlt
        have hnp2 : n = pos := by omega
        subst hnp2
        rw [hnp, getElem?_set_self _ _ _ (by rw [hv.treeR_len]; exact hpos), this.1, hsingle]
      · have hne : node pos 0 ≠ n := by
          rw [hnp]; intro h; subst h
          have := lowbit_pos pos hn0' (by omega)
          exact hcon ⟨Nat.le_refl _, by omega⟩
        rw [getElem?_set_other _ _ _ _ hne, hv.treeR_ok n hn0' hfull,
          mergeOver_set_of_not_mem _ _ _ _ _ _ _ (by omega)]
  · rw [if_neg (by omega)]
    have hnp : node pos 0 = pos + 1 := by omega
    refine ⟨by simpa using hv.size, rfl, rfl, by simpa using hv.tree_len,
      by simpa using hv.treeR_len, ?_, ?_⟩
    · intro n hn0' hnN hcond
      show (st.tree.set _ _)[n]? = _
      rw [List.length_set] at hnN
      by_cases hcon : clearLow n ≤ pos ∧ pos < n
      · have hlt : lowbit n < 2 ^ (0 + 1) := by
          rcases hcond with h | h
          · exact h
          · exact absurd hcon h
        have := lowbit_lt_two n hn0' (by omega) hlt
        have hnp2 : n = pos + 1 := by omega
        subst hnp2
        have hcl : clearLow (pos + 1) = pos := by omega
        rw [hnp, getElem?_set_self _ _ _ (by rw [hv.tree_len]; omega), hcl, hsingle]
      · have hne : node pos 0 ≠ n := by
          rw [hnp]; intro h; subst h
          have := clearLow_lt (pos + 1) (by omega)
          exact hcon ⟨by omega, by omega⟩
        rw [getElem?_set_other _ _ _ _ hne, hv.tree_ok n hn0' hnN,
          mergeOver_set_of_not_mem _ _ _ _ _ _ _ (by omega)]
    · intro n hn0' hfull hcond
      show st.treeR[n]? = _
      rw [List.length_set] at hfull
      have hnot : ¬ (n ≤ pos ∧ pos < n + lowbit n) := by
        intro hcon
        rcases hcond with h | h
        · have := lowbit_lt_two n hn0' (by omega) h
          omega
        · exact h hcon
      rw [hv.treeR_ok n hn0' hfull, mergeOver_set_of_not_mem _ _ _ _ _ _ _ (by omega)]

/-- The method `update(pos, v)` terminates and turns a store that represents `a` into one
that represents `a` with `a[pos]` replaced by `v`, whatever the read past the end of
`treeR` yields. -/
theorem update_valid (junk : T) (st : GeneralizedBIT T) (a : List T) (pos : Nat) (v : T)
    (hv : Valid st a)
    (hassoc : ∀ x y z, st.mergeOp (st.mergeOp x y) z = st.mergeOp x (st.mergeOp y z))
    (hidl : ∀ x, st.mergeOp st.defaultValue x = x)
    (hidr : ∀ x, st.mergeOp x st.defaultValue = x)
    (hpos : pos < a.length) (hN : a.length < 2 ^ 30) :
    ∃ st1, update junk st pos v = some st1 ∧ Valid st1 (a.set pos v) ∧
      st1.mergeOp = st.mergeOp ∧ st1.defaultValue = st.defaultValue := by
  have hinit := update_init_inv st a pos v hv hidl hpos hN
  obtain ⟨e1, e2⟩ := update_init_index pos (by omega)
  have hlen : (a.set pos v).length = a.length := List.length_set _ _ _
  have hnode : node pos 0 ≤ (a.set pos v).length := by
    rw [hlen]; simp [node]; omega
  have hfuel : (a.set pos v).length + 2 ≤ (st.N + 1) + 2 ^ (0 + 1) := by
    rw [hlen, hv.size]; norm_num
  obtain ⟨st1, h1, h2, h3, h4⟩ :=
    updateLoop_spec junk st.mergeOp st.defaultValue (a.set pos v) pos (by rw [hlen]; exact hN)
      hassoc hidr (st.N + 1) 0 _ hinit hnode (by omega) hfuel
  refine ⟨st1, ?_, h2, h3, h4⟩
  unfold update
  simp only [e1, e2]
  exact h1

theorem clearLow_odd (n : Nat) (h : n % 2 = 1) : clearLow n = n - 1 := by
  unfold clearLow
  have e1 : n = 2 * (n / 2) + 1 := by omega
  have e2 : n - 1 = 2 * (n / 2) := by omega
  rw [e2]; nth_rewrite 1 [e1]
  rw [and_odd_even, Nat.and_self]

theorem lowbit_odd (n : Nat) (h : n % 2 = 1) (hn : n < 2 ^ 32) : lowbit n = 1 := by
  have e1 : n = 2 ^ 0 * (2 * (n / 2) + 1) := by simp; omega
  have := lowbit_level 0 (n / 2) (by rw [← e1]; exact hn)
  rw [← e1] at this
  simpa using this

theorem clearLow_even (n : Nat) (h0 : 0 < n) (h : n % 2 = 0) : clearLow n + 2 ≤ n := by
  unfold clearLow
  have e1 : n = 2 * (n / 2) := by omega
  have e2 : n - 1 = 2 * (n / 2 - 1) + 1 := by omega
  have h3 : n / 2 &&& (n / 2 - 1) ≤ n / 2 - 1 := Nat.and_le_right
  rw [e2]; nth_rewrite 1 [e1]
  rw [and_even_odd]
  omega

theorem updates_valid (junk : T) (a : List T) (hN : a.length < 2 ^ 30) :
    ∀ (us : List (Nat × T)) (st : GeneralizedBIT T) (b : List T), b.length = a.length →
      Valid st b →
      (∀ x y z, st.mergeOp (st.mergeOp x y) z = st.mergeOp x (st.mergeOp y z)) →
      (∀ x, st.mergeOp st.defaultValue x = x) → (∀ x, st.mergeOp x st.defaultValue = x) →
      (∀ u ∈ us, u.1 < a.length) →
      ∃ st1, updates junk st us = some st1 ∧ Valid st1 (applyUpdates b us) ∧
        st1.mergeOp = st.mergeOp ∧ st1.defaultValue = st.defaultValue ∧
        (applyUpdates b us).length = a.length := by
  intro us
  induction us with
  | nil =>
    intro st b hb hv _ _ _ _
    exact ⟨st, rfl, hv, rfl, rfl, hb⟩
  | cons u us ih =>
    intro st b hb hv hassoc hidl hidr hus
    obtain ⟨st1, h1, h2, h3, h4⟩ :=
      update_valid junk st b u.1 u.2 hv hassoc hidl hidr
        (by rw [hb]; exact hus u (List.mem_cons_self _ _)) (by rw [hb]; exact hN)
    obtain ⟨st2, g1, g2, g3, g4, g5⟩ :=
      ih st1 (b.set u.1 u.2) (by rw [List.length_set]; exact hb) h2
        (by rw [h3]; exact hassoc) (by rw [h3, h4]; exact hidl) (by rw [h3, h4]; exact hidr)
        (fun w hw => hus w (List.mem_cons_of_mem _ hw))
    refine ⟨st2, ?_, g2, by rw [g3, h3], by rw [g4, h4], g5⟩
    unfold updates
    rw [h1]
    exact g1

/-- Termination and frame of the loop of `update`: only slots of even index are written. -/
theorem updateLoop_frame (junk : T) (pos : Nat) :
    ∀ fuel i (st : GeneralizedBIT T), 0 < fuel → st.N + 2 ≤ fuel + 2 ^ (i + 1) →
      ∃ st1, updateLoop junk fuel st (node pos i) (node pos (i + 1)) (2 ^ (i + 1)) = some st1 ∧
        ∀ n, n % 2 = 1 → st1.tree[n]? = st.tree[n]? ∧ st1.treeR[n]? = st.treeR[n]? := by
  intro fuel
  induction fuel with
  | zero => intro i st h _; omega
  | succ fuel ih =>
    intro i st _ hf
    unfold updateLoop
    by_cases hc : node pos (i + 1) ≤ st.N
    · rw [if_pos hc]
      have hpw := pow_le_node pos (i + 1)
      have hpw2 : 2 ^ (i + 1 + 1) = 2 * 2 ^ (i + 1) := by rw [pow_succ]; ring
      have hpw3 : 0 < 2 ^ i := by positivity
      have hmask : 2 ^ (i + 1) <<< 1 = 2 ^ (i + 1 + 1) := by
        rw [Nat.shiftLeft_eq, pow_succ 2 (i + 1)]
      have heven : node pos (i + 1) % 2 = 0 := by
        have : node pos (i + 1) = 2 * (2 ^ i * (2 * (pos / 2 ^ (i + 1 + 1)) + 1)) := by
          unfold node; rw [pow_succ]; ring
        omega
      simp only [update_next_curr]
      rw [hmask]
      generalize st.mergeOp (rd junk st.tree (node pos i)) (rd junk st.treeR (node pos i)) = x
      by_cases ht : node pos i &&& 2 ^ (i + 1) ≠ 0
      · rw [if_pos ht]
        obtain ⟨st1, h1, h2⟩ := ih (i + 1) { st with treeR := st.treeR.set (node pos (i + 1)) x }
          (by omega) (by show st.N + 2 ≤ _; omega)
        refine ⟨st1, h1, fun n hn => ?_⟩
        rw [(h2 n hn).1, (h2 n hn).2]
        exact ⟨rfl, getElem?_set_other _ _ _ _ (by omega)⟩
      · rw [if_neg ht]
        obtain ⟨st1, h1, h2⟩ := ih (i + 1) { st with tree := st.tree.set (node pos (i + 1)) x }
          (by omega) (by show st.N + 2 ≤ _; omega)
        refine ⟨st1, h1, fun n hn => ?_⟩
        rw [(h2 n hn).1, (h2 n hn).2]
        exact ⟨getElem?_set_other _ _ _ _ (by omega), rfl⟩
    · rw [if_neg hc]
      exact ⟨st, rfl, fun n _ => ⟨rfl, rfl⟩⟩

theorem rd_congr (junk : T) (xs ys : List T) (i : Nat) (h : xs[i]? = ys[i]?) :
    rd junk xs i = rd junk ys i := by
  simp [rd, List.getD_eq_getElem?_getD, h]

/-- C1. On the store built from `a` (`build`), with an associative and commutative
`mergeOp` that has `defaultValue` as identity, the range query `query(l, r)` returns, for
all `0 ≤ l ≤ r < N`, the fold `a[l] ⊕ a[l+1] ⊕ .. ⊕ a[r]` (both branches of the query). -/
theorem queryRange_build_eq_rangeFold (junk : T) (st0 : GeneralizedBIT T) (a : List T)
    (hassoc : ∀ x y z, st0.mergeOp (st0.mergeOp x y) z = st0.mergeOp x (st0.mergeOp y z))
    (hcomm : ∀ x y, st0.mergeOp x y = st0.mergeOp y x)
    (hid : ∀ x, st0.mergeOp st0.defaultValue x = x)
    (hN : a.length < 2 ^ 30) :
    ∃ st, build junk st0 a = some st ∧
      ∀ l r, l ≤ r → r < a.length →
        queryRange junk st l r = some (rangeFold st0.mergeOp st0.defaultValue a l r) := by
  obtain ⟨st, hst, hb⟩ := build_spec junk st0 a hN
  refine ⟨st, hst, fun l r hlr hr => ?_⟩
  have hv := hb.valid hN
  rw [queryRange_of_valid junk st a hv (by rw [hb.op_eq]; exact hassoc)
    (by rw [hb.op_eq]; exact hcomm) (by rw [hb.op_eq, hb.dflt_eq]; exact hid) (by omega)
    l r hlr hr, hb.op_eq, hb.dflt_eq, rangeFold_eq_mergeOver _ _ _ hid l r hlr hr]

theorem queryRange_build_eq_rangeFold_witness :
    (∀ x y z : Int, (x + y) + z = x + (y + z)) ∧ (∀ x y : Int, x + y = y + x) ∧
    (∀ x : Int, 0 + x = x) ∧ ([3, 1, 4, 1, 5] : List Int).length < 2 ^ 30 ∧
    ∃ st, build (7 : Int) (empty (fun x y => x + y) 0) [3, 1, 4, 1, 5] = some st ∧
      ∀ l r, l ≤ r → r < ([3, 1, 4, 1, 5] : List Int).length →
        queryRange 7 st l r = some (rangeFold (fun x y => x + y) 0 [3, 1, 4, 1, 5] l r) :=
  ⟨Int.add_assoc, Int.add_comm, Int.zero_add, by decide,
    queryRange_build_eq_rangeFold (7 : Int) (empty (fun x y => x + y) 0) [3, 1, 4, 1, 5]
      Int.add_assoc Int.add_comm Int.zero_add (by decide)⟩

/-- C2. After any finite sequence of calls `update(p_k, v_k)` with `0 ≤ p_k < N` on the
store built from `a` (any `N`, a power of two or not; associative and commutative
`mergeOp` with identity `defaultValue`), `query(l, r)` is the fold of the current point
values on `[l, r]`, the current values being `a` with each `p_k` overwritten by `v_k` in
order. -/
theorem queryRange_after_updates (junk : T) (st0 : GeneralizedBIT T) (a : List T)
    (us : List (Nat × T))
    (hassoc : ∀ x y z, st0.mergeOp (st0.mergeOp x y) z = st0.mergeOp x (st0.mergeOp y z))
    (hcomm : ∀ x y, st0.mergeOp x y = st0.mergeOp y x)
    (hid : ∀ x, st0.mergeOp st0.defaultValue x = x)
    (hN : a.length < 2 ^ 30) (hus : ∀ u ∈ us, u.1 < a.length) :
    ∃ st st1, build junk st0 a = some st ∧ updates junk st us = some st1 ∧
      ∀ l r, l ≤ r → r < a.length →
        queryRange junk st1 l r
          = some (rangeFold st0.mergeOp st0.defaultValue (applyUpdates a us) l r) := by
  obtain ⟨st, hst, hb⟩ := build_spec junk st0 a hN
  have hv := hb.valid hN
  have hidr : ∀ x, st0.mergeOp x st0.defaultValue = x := fun x => by rw [hcomm, hid]
  obtain ⟨st1, h1, h2, h3, h4, h5⟩ := updates_valid junk a hN us st a rfl hv
    (by rw [hb.op_eq]; exact hassoc) (by rw [hb.op_eq, hb.dflt_eq]; exact hid)
    (by rw [hb.op_eq, hb.dflt_eq]; exact hidr) hus
  refine ⟨st, st1, hst, h1, fun l r hlr hr => ?_⟩
  rw [queryRange_of_valid junk st1 _ h2 (by rw [h3, hb.op_eq]; exact hassoc)
    (by rw [h3, hb.op_eq]; exact hcomm) (by rw [h3, h4, hb.op_eq, hb.dflt_eq]; exact hid)
    (by omega) l r hlr (by omega), h3, h4, hb.op_eq, hb.dflt_eq,
    rangeFold_eq_mergeOver _ _ _ hid l r hlr (by omega)]

theorem queryRange_after_updates_witness :
    (∀ x y z : Int, (x + y) + z = x + (y + z)) ∧ (∀ x y : Int, x + y = y + x) ∧
    (∀ x : Int, 0 + x = x) ∧ ([3, 1, 4, 1, 5] : List Int).length < 2 ^ 30 ∧
    (∀ u ∈ ([(4, 9), (2, -6), (4, 2)] : List (Nat × Int)),
      u.1 < ([3, 1, 4, 1, 5] : List Int).length) ∧
    ∃ st st1, build (7 : Int) (empty (fun x y => x + y) 0) [3, 1, 4, 1, 5] = some st ∧
      updates 7 st [(4, 9), (2, -6), (4, 2)] = some st1 ∧
      ∀ l r, l ≤ r → r < ([3, 1, 4, 1, 5] : List Int).length →
        queryRange 7 st1 l r = some (rangeFold (fun x y => x + y) 0
          (applyUpdates [3, 1, 4, 1, 5] [(4, 9), (2, -6), (4, 2)]) l r) :=
  ⟨Int.add_assoc, Int.add_comm, Int.zero_add, by decide, by decide,
    queryRange_after_updates (7 : Int) (empty (fun x y => x + y) 0) [3, 1, 4, 1, 5]
      [(4, 9), (2, -6), (4, 2)] Int.add_assoc Int.add_comm Int.zero_add (by decide)
      (by decide)⟩

/-- The method `update(p, v)` terminates, leaves `v` in the point slot of `p` and does not
touch the point slot of any other position. -/
theorem update_point_frame (junk : T) (st : GeneralizedBIT T) (p : Nat) (v : T)
    (htree : st.tree.length = st.N + 1) (htreeR : st.treeR.length = st.N)
    (hp : p < st.N) (hN : st.N < 2 ^ 30) :
    ∃ st1, update junk st p v = some st1 ∧ query junk st1 p = v ∧
      ∀ q, q < st.N → q ≠ p → query junk st1 q = query junk st q := by
  obtain ⟨e1, e2⟩ := update_init_index p (by omega)
  have hn0 : node p 0 = 2 * (p / 2) + 1 := by simp [node]
  unfold update
  simp only [e1, e2]
  by_cases hodd : p % 2 = 1
  · have hnp : node p 0 = p := by omega
    rw [if_pos (by rw [Nat.and_one_is_mod]; omega)]
    obtain ⟨st1, h1, h2⟩ := updateLoop_frame junk p (st.N + 1) 0
      { st with treeR := st.treeR.set (node p 0) v } (by omega) (by show st.N + 2 ≤ _; omega)
    refine ⟨st1, h1, ?_, ?_⟩
    · unfold query
      rw [if_pos (by rw [Nat.and_one_is_mod]; omega)]
      apply rd_of_getElem?
      rw [(h2 p hodd).2, hnp]
      exact getElem?_set_self _ _ _ (by omega)
    · intro q hq hqp
      unfold query
      rw [Nat.and_one_is_mod]
      by_cases hq2 : q % 2 = 1
      · rw [if_pos (by omega), if_pos (by omega)]
        apply rd_congr
        rw [(h2 q hq2).2, hnp]
        exact getElem?_set_other _ _ _ _ (Ne.symm hqp)
      · rw [if_neg (by omega), if_neg (by omega)]
        apply rd_congr
        rw [(h2 (q + 1) (by omega)).1]
  · have hnp : node p 0 = p + 1 := by omega
    rw [if_neg (by rw [Nat.and_one_is_mod]; omega)]
    obtain ⟨st1, h1, h2⟩ := updateLoop_frame junk p (st.N + 1) 0
      { st with tree := st.tree.set (node p 0) v } (by omega) (by show st.N + 2 ≤ _; omega)
    refine ⟨st1, h1, ?_, ?_⟩
    · unfold query
      rw [if_neg (by rw [Nat.and_one_is_mod]; omega)]
      apply rd_of_getElem?
      rw [(h2 (p + 1) (by omega)).1, hnp]
      exact getElem?_set_self _ _ _ (by omega)
    · intro q hq hqp
      unfold query
      rw [Nat.and_one_is_mod]
      by_cases hq2 : q % 2 = 1
      · rw [if_pos (by omega), if_pos (by omega)]
        apply rd_congr
        rw [(h2 q hq2).2]
      · rw [if_neg (by omega), if_neg (by omega)]
        apply rd_congr
        rw [(h2 (q + 1) (by omega)).1, hnp]
        exact getElem?_set_other _ _ _ _ (by omega)

/-- C3. On a store with `N ≥ 1` slots (`tree` of size `N + 1`, `treeR` of size `N`), for
`0 ≤ p < N`: after `update(p, v)` the point query `query(p)` returns `v`, and for every
other position `q ≠ p` of `[0, N)` the point query `query(q)` returns what it returned
before. -/
theorem query_after_update (junk : T) (st : GeneralizedBIT T) (p : Nat) (v : T)
    (htree : st.tree.length = st.N + 1) (htreeR : st.treeR.length = st.N)
    (hp : p < st.N) (hN : st.N < 2 ^ 30) :
    ∃ st1, update junk st p v = some st1 ∧ query junk st1 p = v ∧
      ∀ q, q < st.N → q ≠ p → query junk st1 q = query junk st q :=
  update_point_frame junk st p v htree htreeR hp hN

theorem query_after_update_witness :
    sampleStore.tree.length = sampleStore.N + 1 ∧ sampleStore.treeR.length = sampleStore.N ∧
    2 < sampleStore.N ∧ sampleStore.N < 2 ^ 30 ∧
    ∃ st1, update (7 : Int) sampleStore 2 99 = some st1 ∧ query 7 st1 2 = 99 ∧
      ∀ q, q < sampleStore.N → q ≠ 2 → query 7 st1 q = query 7 sampleStore q :=
  ⟨by decide, by decide, by decide, by decide,
    query_after_update (7 : Int) sampleStore 2 99 (by decide) (by decide) (by decide)
      (by decide)⟩

/-- C4. Building the store from `a` and reading every position gives back the sequence:
`query(i) == a[i]` for all `0 ≤ i < N`, as soon as `defaultValue` is a left identity of
`mergeOp` (in particular for an associative `mergeOp` with a two-sided identity). -/
theorem query_build_eq (junk : T) (st0 : GeneralizedBIT T) (a : List T)
    (hid : ∀ x, st0.mergeOp st0.defaultValue x = x) (hN : a.length < 2 ^ 30) :
    ∃ st, build junk st0 a = some st ∧ ∀ i (h : i < a.length), query junk st i = a[i] := by
  obtain ⟨st, hst, hb⟩ := build_spec junk st0 a hN
  refine ⟨st, hst, fun i hi => ?_⟩
  have hget : a.getD i st0.defaultValue = a[i] := by
    simp [List.getD_eq_getElem?_getD, List.getElem?_eq_getElem hi]
  unfold query
  rw [Nat.and_one_is_mod]
  by_cases hodd : i % 2 = 1
  · rw [if_pos (by omega)]
    rw [rd_of_getElem? junk _ _ _ (hb.treeR_val i (by omega) hi), lowbit_odd i hodd (by omega),
      Nat.min_eq_left (by omega), mergeOver_single, hid, hget]
  · rw [if_neg (by omega)]
    rw [rd_of_getElem? junk _ _ _ (hb.tree_val (i + 1) (by omega) (by omega)),
      clearLow_odd (i + 1) (by omega), Nat.min_eq_left (by omega), Nat.add_sub_cancel,
      mergeOver_single, hid, hget]

theorem query_build_eq_witness :
    (∀ x : Nat, max 0 x = x) ∧ ([5, 3, 8, 1, 9] : List Nat).length < 2 ^ 30 ∧
    ∃ st, build (7 : Nat) (empty max 0) [5, 3, 8, 1, 9] = some st ∧
      ∀ i (h : i < ([5, 3, 8, 1, 9] : List Nat).length),
        query 7 st i = ([5, 3, 8, 1, 9] : List Nat)[i] :=
  ⟨Nat.zero_max, by decide,
    query_build_eq (7 : Nat) (empty max 0) [5, 3, 8, 1, 9] Nat.zero_max (by decide)⟩

/-- C5. On every store whose `defaultValue` is a left identity of `mergeOp`, whatever
`tree` and `treeR` hold, the point query and the degenerate range query agree for every
`0 ≤ p < N` (`p == 0`, even `p > 0`, odd `p`): `query(p) == query(p, p)`. -/
theorem queryRange_point (junk : T) (st : GeneralizedBIT T) (p : Nat)
    (hid : ∀ x, st.mergeOp st.defaultValue x = x) (hp : p < st.N) (hN : st.N < 2 ^ 31) :
    queryRange junk st p p = some (query junk st p) := by
  unfold queryRange query
  rw [Nat.and_one_is_mod]
  obtain ⟨n, hn⟩ : ∃ n, st.N = n + 1 := ⟨st.N - 1, by omega⟩
  rw [hn]
  by_cases h0 : p = 0
  · subst h0
    have hc : clearLow 1 = 0 := by decide
    simp [queryLoop0, hc, hid]
  · rw [if_neg h0]
    by_cases hodd : p % 2 = 1
    · have hc := clearLow_even (p + 1) (by omega) (by omega)
      have hl := lowbit_odd p hodd (by omega)
      rw [if_pos (by omega)]
      simp only [queryLoopR]
      rw [if_neg (by omega)]
      simp only [queryLoopL]
      rw [if_pos (by omega), hl, if_neg (by omega), hid]
    · have hc := clearLow_odd (p + 1) (by omega)
      have hc2 := clearLow_lt p (by omega)
      rw [if_neg (by omega)]
      simp only [queryLoopR]
      rw [if_pos (by omega), hc, Nat.add_sub_cancel, if_neg (by omega)]
      simp only [queryLoopL]
      rw [if_neg (by omega), hid]

theorem queryRange_point_witness :
    (∀ x : Int, sampleStore.mergeOp sampleStore.defaultValue x = x) ∧ 2 < sampleStore.N ∧
    sampleStore.N < 2 ^ 31 ∧ queryRange 7 sampleStore 2 2 = some (query 7 sampleStore 2) :=
  ⟨Int.zero_add, by decide, by decide,
    queryRange_point 7 sampleStore 2 Int.zero_add (by decide) (by decide)⟩

/-- Binary search over `[l, r]` for the end of the prefix on which `g` holds. -/
theorem searchLoop_spec (test : Int → Option Bool) (g : Nat → Bool) (l r : Nat)
    (htest : ∀ i, l ≤ i → i ≤ r → test (i : Int) = some (g i))
    (hmono : ∀ i j, l ≤ i → i ≤ j → j ≤ r → g j = true → g i = true) :
    ∀ fuel (lo hi1 : Nat), l ≤ lo → lo ≤ hi1 → hi1 ≤ r + 1 → hi1 - lo < fuel →
      (∀ i, l ≤ i → i < lo → g i = true) → (∀ i, hi1 ≤ i → i ≤ r → g i = false) →
      ∃ p : Nat, searchLoop test fuel (lo : Int) ((hi1 : Int) - 1) = some ((p : Int), (p : Int) - 1) ∧
        l ≤ p ∧ p ≤ r + 1 ∧ (∀ i, l ≤ i → i < p → g i = true) ∧
        (∀ i, p ≤ i → i ≤ r → g i = false) := by
  intro fuel
  induction fuel with
  | zero => intro lo hi1 _ _ _ h; omega
  | succ fuel ih =>
    intro lo hi1 hl hlh hh hf hlo hhi
    unfold searchLoop
    by_cases hc : (lo : Int) ≤ (hi1 : Int) - 1
    · rw [if_pos hc]
      have hmid : (lo : Int) + ((hi1 : Int) - 1 - lo) / 2
          = ((lo + (hi1 - 1 - lo) / 2 : Nat) : Int) := by omega
      simp only [hmid]
      rw [htest _ (by omega) (by omega)]
      cases hg : g (lo + (hi1 - 1 - lo) / 2) with
      | true =>
        simp only []
        have e : ((lo + (hi1 - 1 - lo) / 2 : Nat) : Int) + 1
            = ((lo + (hi1 - 1 - lo) / 2 + 1 : Nat) : Int) := by omega
        rw [e]
        obtain ⟨p, h1, h2, h3, h4, h5⟩ := ih (lo + (hi1 - 1 - lo) / 2 + 1) hi1 (by omega)
          (by omega) hh (by omega)
          (fun i hi hi2 => hmono i _ hi (by omega) (by omega) hg) hhi
        exact ⟨p, h1, h2, h3, h4, h5⟩
      | false =>
        simp only []
        obtain ⟨p, h1, h2, h3, h4, h5⟩ := ih lo (lo + (hi1 - 1 - lo) / 2) hl (by omega)
          (by omega) (by omega) hlo
          (fun i hi hi2 => by
            by_contra hcon
            have hgi : g i = true := by simpa using hcon
            have := hmono _ i (by omega) hi hi2 hgi
            rw [hg] at this; exact Bool.noConfusion this)
        exact ⟨p, h1, h2, h3, h4, h5⟩
    · rw [if_neg hc]
      have : lo = hi1 := by omega
      subst this
      exact ⟨lo, rfl, hl, hh, hlo, hhi⟩

theorem lowerBoundLoop_eq [LT T] [DecidableRel (fun (x y : T) => x < y)] (junk : T)
    (st : GeneralizedBIT T) (left : Nat) (v : T) :
    ∀ fuel lo hi, lowerBoundLoop junk st left v fuel lo hi
      = (searchLoop (fun mid => (queryRange junk st left mid.toNat).map
          (fun q => decide (q < v))) fuel lo hi).map Prod.fst := by
  intro fuel
  induction fuel with
  | zero => intro lo hi; rfl
  | succ fuel ih =>
    intro lo hi
    unfold lowerBoundLoop searchLoop
    by_cases hc : lo ≤ hi
    · simp only [if_pos hc]
      cases hq : queryRange junk st left (lo + (hi - lo) / 2).toNat with
      | none => rfl
      | some q =>
        by_cases hv : q < v
        · simp [hv, ih]
        · simp [hv, ih]
    · simp only [if_neg hc]; rfl

theorem upperBoundLoop_eq [LE T] [DecidableRel (fun (x y : T) => x ≤ y)] (junk : T)
    (st : GeneralizedBIT T) (left : Nat) (v : T) :
    ∀ fuel lo hi, upperBoundLoop junk st left v fuel lo hi
      = (searchLoop (fun mid => (queryRange junk st left mid.toNat).map
          (fun q => decide (q ≤ v))) fuel lo hi).map Prod.fst := by
  intro fuel
  induction fuel with
  | zero => intro lo hi; rfl
  | succ fuel ih =>
    intro lo hi
    unfold upperBoundLoop searchLoop
    by_cases hc : lo ≤ hi
    · simp only [if_pos hc]
      cases hq : queryRange junk st left (lo + (hi - lo) / 2).toNat with
      | none => rfl
      | some q =>
        by_cases hv : q ≤ v
        · simp [hv, ih]
        · simp [hv, ih]
    · simp only [if_neg hc]; rfl

theorem lowerBoundBackwardLoop_eq [LT T] [DecidableRel (fun (x y : T) => x < y)] (junk : T)
    (st : GeneralizedBIT T) (right : Nat) (v : T) :
    ∀ fuel lo hi, lowerBoundBackwardLoop junk st right v fuel lo hi
      = (searchLoop (fun mid => (queryRange junk st mid.toNat right).map
          (fun q => !decide (q < v))) fuel lo hi).map Prod.snd := by
  intro fuel
  induction fuel with
  | zero => intro lo hi; rfl
  | succ fuel ih =>
    intro lo hi
    unfold lowerBoundBackwardLoop searchLoop
    by_cases hc : lo ≤ hi
    · simp only [if_pos hc]
      cases hq : queryRange junk st (lo + (hi - lo) / 2).toNat right with
      | none => rfl
      | some q =>
        by_cases hv : q < v
        · simp [hv, ih]
        · simp [hv, ih]
    · simp only [if_neg hc]; rfl

theorem upperBoundBackwardLoop_eq [LE T] [DecidableRel (fun (x y : T) => x ≤ y)] (junk : T)
    (st : GeneralizedBIT T) (right : Nat) (v : T) :
    ∀ fuel lo hi, upperBoundBackwardLoop junk st right v fuel lo hi
      = (searchLoop (fun mid => (queryRange junk st mid.toNat right).map
          (fun q => !decide (q ≤ v))) fuel lo hi).map Prod.snd := by
  intro fuel
  induction fuel with
  | zero => intro lo hi; rfl
  | succ fuel ih =>
    intro lo hi
    unfold upperBoundBackwardLoop searchLoop
    by_cases hc : lo ≤ hi
    · simp only [if_pos hc]
      cases hq : queryRange junk st (lo + (hi - lo) / 2).toNat right with
      | none => rfl
      | some q =>
        by_cases hv : q ≤ v
        · simp [hv, ih]
        · simp [hv, ih]
    · simp only [if_neg hc]; rfl

theorem searchLoop_forward (test : Int → Option Bool) (g : Nat → Bool) (l r : Nat)
    (hlr : l ≤ r)
    (htest : ∀ i, l ≤ i → i ≤ r → test (i : Int) = some (g i))
    (hmono : ∀ i j, l ≤ i → i ≤ j → j ≤ r → g j = true → g i = true) :
    ∃ p : Nat, searchLoop test (r + 2 - l) (l : Int) (r : Int) = some ((p : Int), (p : Int) - 1) ∧
      l ≤ p ∧ p ≤ r + 1 ∧ (∀ i, l ≤ i → i < p → g i = true) ∧
      (∀ i, p ≤ i → i ≤ r → g i = false) := by
  have h := searchLoop_spec test g l r htest hmono (r + 2 - l) l (r + 1) (Nat.le_refl _)
    (by omega) (Nat.le_refl _) (by omega) (fun i h1 h2 => by omega) (fun i h1 h2 => by omega)
  have e : ((r + 1 : Nat) : Int) - 1 = (r : Int) := by omega
  rw [e] at h
  exact h

theorem queryRange_eq_queryVal (junk : T) (st : GeneralizedBIT T) (l r : Nat)
    (hlr : l ≤ r) (hr : r < st.N) (hN : st.N < 2 ^ 31) :
    queryRange junk st l r = some (queryVal junk st l r) := by
  obtain ⟨x, hx⟩ := queryRange_terminates junk st l r hlr hr (by omega)
  simp [queryVal, hx]

theorem lowerBound_core [LinearOrder T] (junk : T) (st : GeneralizedBIT T) (l r : Nat) (v : T)
    (hlr : l ≤ r) (hr : r < st.N) (hN : st.N < 2 ^ 31)
    (hmono : ∀ i j, l ≤ i → i ≤ j → j ≤ r → queryVal junk st l i ≤ queryVal junk st l j) :
    ∃ p : Nat, lowerBound junk st l r v = some (p : Int) ∧ l ≤ p ∧ p ≤ r + 1 ∧
      (∀ i, l ≤ i → i < p → queryVal junk st l i < v) ∧
      (∀ i, p ≤ i → i ≤ r → v ≤ queryVal junk st l i) := by
  obtain ⟨p, h1, h2, h3, h4, h5⟩ := searchLoop_forward
    (fun mid => (queryRange junk st l mid.toNat).map (fun q => decide (q < v)))
    (fun i => decide (queryVal junk st l i < v)) l r hlr
    (fun i hi1 hi2 => by
      simp only [Int.toNat_ofNat, queryRange_eq_queryVal junk st l i hi1 (by omega) hN,
        Option.map_some'])
    (fun i j hi hij hj hg => by
      simp only [decide_eq_true_eq] at hg ⊢
      exact lt_of_le_of_lt (hmono i j hi hij hj) hg)
  refine ⟨p, ?_, h2, h3, fun i hi1 hi2 => by simpa using h4 i hi1 hi2,
    fun i hi1 hi2 => by simpa using h5 i hi1 hi2⟩
  unfold lowerBound
  rw [lowerBoundLoop_eq, h1]; rfl

theorem upperBound_core [LinearOrder T] (junk : T) (st : GeneralizedBIT T) (l r : Nat) (v : T)
    (hlr : l ≤ r) (hr : r < st.N) (hN : st.N < 2 ^ 31)
    (hmono : ∀ i j, l ≤ i → i ≤ j → j ≤ r → queryVal junk st l i ≤ queryVal junk st l j) :
    ∃ p : Nat, upperBound junk st l r v = some (p : Int) ∧ l ≤ p ∧ p ≤ r + 1 ∧
      (∀ i, l ≤ i → i < p → queryVal junk st l i ≤ v) ∧
      (∀ i, p ≤ i → i ≤ r → v < queryVal junk st l i) := by
  obtain ⟨p, h1, h2, h3, h4, h5⟩ := searchLoop_forward
    (fun mid => (queryRange junk st l mid.toNat).map (fun q => decide (q ≤ v)))
    (fun i => decide (queryVal junk st l i ≤ v)) l r hlr
    (fun i hi1 hi2 => by
      simp only [Int.toNat_ofNat, queryRange_eq_queryVal junk st l i hi1 (by omega) hN,
        Option.map_some'])
    (fun i j hi hij hj hg => by
      simp only [decide_eq_true_eq] at hg ⊢
      exact le_trans (hmono i j hi hij hj) hg)
  refine ⟨p, ?_, h2, h3, fun i hi1 hi2 => by simpa using h4 i hi1 hi2,
    fun i hi1 hi2 => by simpa using h5 i hi1 hi2⟩
  unfold upperBound
  rw [upperBoundLoop_eq, h1]; rfl

theorem lowerBoundBackward_core [LinearOrder T] (junk : T) (st : GeneralizedBIT T)
    (l r : Nat) (v : T) (hlr : l ≤ r) (hr : r < st.N) (hN : st.N < 2 ^ 31)
    (hmono : ∀ i j, l ≤ i → i ≤ j → j ≤ r → queryVal junk st j r ≤ queryVal junk st i r) :
    ∃ p : Nat, lowerBoundBackward junk st l r v = some ((p : Int) - 1) ∧ l ≤ p ∧ p ≤ r + 1 ∧
      (∀ i, l ≤ i → i < p → v ≤ queryVal junk st i r) ∧
      (∀ i, p ≤ i → i ≤ r → queryVal junk st i r < v) := by
  obtain ⟨p, h1, h2, h3, h4, h5⟩ := searchLoop_forward
    (fun mid => (queryRange junk st mid.toNat r).map (fun q => !decide (q < v)))
    (fun i => !decide (queryVal junk st i r < v)) l r hlr
    (fun i hi1 hi2 => by
      simp only [Int.toNat_ofNat, queryRange_eq_queryVal junk st i r hi2 hr hN,
        Option.map_some'])
    (fun i j hi hij hj hg => by
      simp only [Bool.not_eq_true', decide_eq_false_iff_not, not_lt] at hg ⊢
      exact le_trans hg (hmono i j hi hij hj))
  refine ⟨p, ?_, h2, h3, fun i hi1 hi2 => by simpa using h4 i hi1 hi2,
    fun i hi1 hi2 => by simpa using h5 i hi1 hi2⟩
  unfold lowerBoundBackward
  rw [lowerBoundBackwardLoop_eq, h1]; rfl

theorem upperBoundBackward_core [LinearOrder T] (junk : T) (st : GeneralizedBIT T)
    (l r : Nat) (v : T) (hlr : l ≤ r) (hr : r < st.N) (hN : st.N < 2 ^ 31)
    (hmono : ∀ i j, l ≤ i → i ≤ j → j ≤ r → queryVal junk st j r ≤ queryVal junk st i r) :
    ∃ p : Nat, upperBoundBackward junk st l r v = some ((p : Int) - 1) ∧ l ≤ p ∧ p ≤ r + 1 ∧
      (∀ i, l ≤ i → i < p → v < queryVal junk st i r) ∧
      (∀ i, p ≤ i → i ≤ r → queryVal junk st i r ≤ v) := by
  obtain ⟨p, h1, h2, h3, h4, h5⟩ := searchLoop_forward
    (fun mid => (queryRange junk st mid.toNat r).map (fun q => !decide (q ≤ v)))
    (fun i => !decide (queryVal junk st i r ≤ v)) l r hlr
    (fun i hi1 hi2 => by
      simp only [Int.toNat_ofNat, queryRange_eq_queryVal junk st i r hi2 hr hN,
        Option.map_some'])
    (fun i j hi hij hj hg => by
      simp only [Bool.not_eq_true', decide_eq_false_iff_not, not_le] at hg ⊢
      exact lt_of_lt_of_le hg (hmono i j hi hij hj))
  refine ⟨p, ?_, h2, h3, fun i hi1 hi2 => by simpa using h4 i hi1 hi2,
    fun i hi1 hi2 => by simpa using h5 i hi1 hi2⟩
  unfold upperBoundBackward
  rw [upperBoundBackwardLoop_eq, h1]; rfl

theorem sumStore_built :
    build (7 : Int) (empty (fun x y => x + y) 0) [1, 2, 3, 4, 5] = some sumStore := rfl

theorem queryVal_of_some (junk : T) (st : GeneralizedBIT T) (l r : Nat) (x : T)
    (h : queryRange junk st l r = some x) : queryVal junk st l r = x := by
  simp [queryVal, h]

theorem sumStore_forward_mono : ∀ i j x y, 1 ≤ i → i ≤ j → j ≤ 4 →
    queryRange 7 sumStore 1 i = some x → queryRange 7 sumStore 1 j = some y → x ≤ y := by
  have key : ∀ j, j < 5 → ∀ i, i < 5 → i ≤ j →
      queryVal 7 sumStore 1 i ≤ queryVal 7 sumStore 1 j := by decide
  intro i j x y _ hij hj hx hy
  have := key j (by omega) i (by omega) hij
  rwa [queryVal_of_some _ _ _ _ _ hx, queryVal_of_some _ _ _ _ _ hy] at this

theorem sumStore_backward_mono : ∀ i j x y, 0 ≤ i → i ≤ j → j ≤ 4 →
    queryRange 7 sumStore i 4 = some x → queryRange 7 sumStore j 4 = some y → y ≤ x := by
  have key : ∀ j, j < 5 → ∀ i, i < 5 → i ≤ j →
      queryVal 7 sumStore j 4 ≤ queryVal 7 sumStore i 4 := by decide
  intro i j x y _ hij hj hx hy
  have := key j (by omega) i (by omega) hij
  rwa [queryVal_of_some _ _ _ _ _ hx, queryVal_of_some _ _ _ _ _ hy] at this

/-- C6. On every store and `0 ≤ l ≤ r < N` such that `i ↦ query(l, i)` is non-decreasing
on `[l, r]`, `lowerBound(store, l, r, v)` returns the smallest `p` in `[l, r]` with
`query(l, p) ≥ v`, and `r + 1` if no position of `[l, r]` has `query(l, p) ≥ v`. -/
theorem lowerBound_spec [LinearOrder T] (junk : T) (st : GeneralizedBIT T) (l r : Nat) (v : T)
    (hlr : l ≤ r) (hr : r < st.N) (hN : st.N < 2 ^ 31)
    (hmono : ∀ i j x y, l ≤ i → i ≤ j → j ≤ r → queryRange junk st l i = some x →
      queryRange junk st l j = some y → x ≤ y) :
    ∃ p : Nat, lowerBound junk st l r v = some (p : Int) ∧ l ≤ p ∧ p ≤ r + 1 ∧
      (∀ i, l ≤ i → i < p → ∃ x, queryRange junk st l i = some x ∧ x < v) ∧
      (p ≤ r → ∃ x, queryRange junk st l p = some x ∧ v ≤ x) ∧
      ((∀ i x, l ≤ i → i ≤ r → queryRange junk st l i = some x → x < v) → p = r + 1) := by
  have hq := fun i (h1 : l ≤ i) (h2 : i ≤ r) =>
    queryRange_eq_queryVal junk st l i h1 (by omega) hN
  obtain ⟨p, h1, h2, h3, h4, h5⟩ := lowerBound_core junk st l r v hlr hr hN
    (fun i j hi hij hj => hmono i j _ _ hi hij hj (hq i hi (by omega)) (hq j (by omega) hj))
  refine ⟨p, h1, h2, h3, fun i hi1 hi2 => ⟨_, hq i hi1 (by omega), h4 i hi1 hi2⟩,
    fun hp => ⟨_, hq p h2 hp, h5 p (Nat.le_refl _) hp⟩, fun hall => ?_⟩
  by_contra hne
  have hp : p ≤ r := by omega
  exact absurd (hall p _ h2 hp (hq p h2 hp)) (not_lt.2 (h5 p (Nat.le_refl _) hp))

theorem lowerBound_spec_witness :
    1 ≤ 4 ∧ 4 < sumStore.N ∧ sumStore.N < 2 ^ 31 ∧
    ∃ p : Nat, lowerBound 7 sumStore 1 4 7 = some (p : Int) ∧ 1 ≤ p ∧ p ≤ 4 + 1 ∧
      (∀ i, 1 ≤ i → i < p → ∃ x, queryRange 7 sumStore 1 i = some x ∧ x < 7) ∧
      (p ≤ 4 → ∃ x, queryRange 7 sumStore 1 p = some x ∧ 7 ≤ x) ∧
      ((∀ i x, 1 ≤ i → i ≤ 4 → queryRange 7 sumStore 1 i = some x → x < 7) → p = 4 + 1) :=
  ⟨by decide, by decide, by decide,
    lowerBound_spec 7 sumStore 1 4 7 (by decide) (by decide) (by decide)
      sumStore_forward_mono⟩

/-- C7. On every store and `0 ≤ l ≤ r < N` such that `i ↦ query(l, i)` is non-decreasing
on `[l, r]`, `upperBound(store, l, r, v)` returns the smallest `p` in `[l, r]` with
`query(l, p) > v`, and `r + 1` if no position of `[l, r]` has `query(l, p) > v`;
consequently `lowerBound(store, l, r, v) ≤ upperBound(store, l, r, v)`. -/
theorem upperBound_spec [LinearOrder T] (junk : T) (st : GeneralizedBIT T) (l r : Nat) (v : T)
    (hlr : l ≤ r) (hr : r < st.N) (hN : st.N < 2 ^ 31)
    (hmono : ∀ i j x y, l ≤ i → i ≤ j → j ≤ r → queryRange junk st l i = some x →
      queryRange junk st l j = some y → x ≤ y) :
    ∃ p : Nat, upperBound junk st l r v = some (p : Int) ∧ l ≤ p ∧ p ≤ r + 1 ∧
      (∀ i, l ≤ i → i < p → ∃ x, queryRange junk st l i = some x ∧ x ≤ v) ∧
      (p ≤ r → ∃ x, queryRange junk st l p = some x ∧ v < x) ∧
      ((∀ i x, l ≤ i → i ≤ r → queryRange junk st l i = some x → x ≤ v) → p = r + 1) ∧
      ∃ p0 : Nat, lowerBound junk st l r v = some (p0 : Int) ∧ p0 ≤ p := by
  have hq := fun i (h1 : l ≤ i) (h2 : i ≤ r) =>
    queryRange_eq_queryVal junk st l i h1 (by omega) hN
  have hm : ∀ i j, l ≤ i → i ≤ j → j ≤ r → queryVal junk st l i ≤ queryVal junk st l j :=
    fun i j hi hij hj => hmono i j _ _ hi hij hj (hq i hi (by omega)) (hq j (by omega) hj)
  obtain ⟨p, h1, h2, h3, h4, h5⟩ := upperBound_core junk st l r v hlr hr hN hm
  obtain ⟨p0, g1, g2, g3, g4, g5⟩ := lowerBound_core junk st l r v hlr hr hN hm
  refine ⟨p, h1, h2, h3, fun i hi1 hi2 => ⟨_, hq i hi1 (by omega), h4 i hi1 hi2⟩,
    fun hp => ⟨_, hq p h2 hp, h5 p (Nat.le_refl _) hp⟩, fun hall => ?_, p0, g1, ?_⟩
  · by_contra hne
    have hp : p ≤ r := by omega
    exact absurd (hall p _ h2 hp (hq p h2 hp)) (not_le.2 (h5 p (Nat.le_refl _) hp))
  · by_contra hgt
    have hp : p ≤ r := by omega
    exact absurd (g4 p h2 (by omega)) (not_lt.2 (le_of_lt (h5 p (Nat.le_refl _) hp)))

theorem upperBound_spec_witness :
    1 ≤ 4 ∧ 4 < sumStore.N ∧ sumStore.N < 2 ^ 31 ∧
    ∃ p : Nat, upperBound 7 sumStore 1 4 9 = some (p : Int) ∧ 1 ≤ p ∧ p ≤ 4 + 1 ∧
      (∀ i, 1 ≤ i → i < p → ∃ x, queryRange 7 sumStore 1 i = some x ∧ x ≤ 9) ∧
      (p ≤ 4 → ∃ x, queryRange 7 sumStore 1 p = some x ∧ 9 < x) ∧
      ((∀ i x, 1 ≤ i → i ≤ 4 → queryRange 7 sumStore 1 i = some x → x ≤ 9) → p = 4 + 1) ∧
      ∃ p0 : Nat, lowerBound 7 sumStore 1 4 9 = some (p0 : Int) ∧ p0 ≤ p :=
  ⟨by decide, by decide, by decide,
    upperBound_spec 7 sumStore 1 4 9 (by decide) (by decide) (by decide)
      sumStore_forward_mono⟩

/-- C8. On every store and `0 ≤ l ≤ r < N` such that `p ↦ query(p, r)` is non-increasing
in `p` on `[l, r]`, `lowerBoundBackward(store, l, r, v)` returns the largest `p` in
`[l, r]` with `query(p, r) ≥ v`, and the sentinel `l - 1` if no position of `[l, r]` has
`query(p, r) ≥ v`. -/
theorem lowerBoundBackward_spec [LinearOrder T] (junk : T) (st : GeneralizedBIT T)
    (l r : Nat) (v : T) (hlr : l ≤ r) (hr : r < st.N) (hN : st.N < 2 ^ 31)
    (hmono : ∀ i j x y, l ≤ i → i ≤ j → j ≤ r → queryRange junk st i r = some x →
      queryRange junk st j r = some y → y ≤ x) :
    ∃ res : Int, lowerBoundBackward junk st l r v = some res ∧ (l : Int) - 1 ≤ res ∧
      res ≤ (r : Int) ∧
      ((l : Int) ≤ res → ∃ x, queryRange junk st res.toNat r = some x ∧ v ≤ x) ∧
      (∀ i : Nat, res < (i : Int) → i ≤ r → ∃ x, queryRange junk st i r = some x ∧ x < v) ∧
      ((∀ i x, l ≤ i → i ≤ r → queryRange junk st i r = some x → x < v) →
        res = (l : Int) - 1) := by
  have hq := fun i (h1 : l ≤ i) (h2 : i ≤ r) =>
    queryRange_eq_queryVal junk st i r h2 hr hN
  obtain ⟨p, h1, h2, h3, h4, h5⟩ := lowerBoundBackward_core junk st l r v hlr hr hN
    (fun i j hi hij hj => hmono i j _ _ hi hij hj (hq i hi (by omega)) (hq j (by omega) hj))
  have hres : l < p → v ≤ queryVal junk st ((p : Int) - 1).toNat r := by
    intro hlp
    have e : ((p : Int) - 1).toNat = p - 1 := by omega
    rw [e]; exact h4 (p - 1) (by omega) (by omega)
  refine ⟨(p : Int) - 1, h1, by omega, by omega, fun hl => ?_, fun i hi1 hi2 => ?_,
    fun hall => ?_⟩
  · have e : ((p : Int) - 1).toNat = p - 1 := by omega
    exact ⟨_, hq _ (by omega) (by omega), hres (by omega)⟩
  · exact ⟨_, hq i (by omega) hi2, h5 i (by omega) hi2⟩
  · by_contra hne
    have hlp : l < p := by omega
    have e : ((p : Int) - 1).toNat = p - 1 := by omega
    have := hall (p - 1) _ (by omega) (by omega) (hq (p - 1) (by omega) (by omega))
    rw [e] at hres
    exact absurd this (not_lt.2 (hres hlp))

theorem lowerBoundBackward_spec_witness :
    0 ≤ 4 ∧ 4 < sumStore.N ∧ sumStore.N < 2 ^ 31 ∧
    ∃ res : Int, lowerBoundBackward 7 sumStore 0 4 9 = some res ∧ ((0 : Nat) : Int) - 1 ≤ res ∧
      res ≤ ((4 : Nat) : Int) ∧
      (((0 : Nat) : Int) ≤ res → ∃ x, queryRange 7 sumStore res.toNat 4 = some x ∧ 9 ≤ x) ∧
      (∀ i : Nat, res < (i : Int) → i ≤ 4 →
        ∃ x, queryRange 7 sumStore i 4 = some x ∧ x < 9) ∧
      ((∀ i x, 0 ≤ i → i ≤ 4 → queryRange 7 sumStore i 4 = some x → x < 9) →
        res = ((0 : Nat) : Int) - 1) :=
  ⟨by decide, by decide, by decide,
    lowerBoundBackward_spec 7 sumStore 0 4 9 (by decide) (by decide) (by decide)
      sumStore_backward_mono⟩

/-- C9. On every store and `0 ≤ l ≤ r < N` such that `p ↦ query(p, r)` is non-increasing
in `p` on `[l, r]`, `upperBoundBackward(store, l, r, v)` returns the largest `p` in
`[l, r]` with `query(p, r) > v` (strict, anchored at the right endpoint), and `l - 1` if
no position of `[l, r]` has `query(p, r) > v`. -/
theorem upperBoundBackward_spec [LinearOrder T] (junk : T) (st : GeneralizedBIT T)
    (l r : Nat) (v : T) (hlr : l ≤ r) (hr : r < st.N) (hN : st.N < 2 ^ 31)
    (hmono : ∀ i j x y, l ≤ i → i ≤ j → j ≤ r → queryRange junk st i r = some x →
      queryRange junk st j r = some y → y ≤ x) :
    ∃ res : Int, upperBoundBackward junk st l r v = some res ∧ (l : Int) - 1 ≤ res ∧
      res ≤ (r : Int) ∧
      ((l : Int) ≤ res → ∃ x, queryRange junk st res.toNat r = some x ∧ v < x) ∧
      (∀ i : Nat, res < (i : Int) → i ≤ r → ∃ x, queryRange junk st i r = some x ∧ x ≤ v) ∧
      ((∀ i x, l ≤ i → i ≤ r → queryRange junk st i r = some x → x ≤ v) →
        res = (l : Int) - 1) := by
  have hq := fun i (h1 : l ≤ i) (h2 : i ≤ r) =>
    queryRange_eq_queryVal junk st i r h2 hr hN
  obtain ⟨p, h1, h2, h3, h4, h5⟩ := upperBoundBackward_core junk st l r v hlr hr hN
    (fun i j hi hij hj => hmono i j _ _ hi hij hj (hq i hi (by omega)) (hq j (by omega) hj))
  have hres : l < p → v < queryVal junk st ((p : Int) - 1).toNat r := by
    intro hlp
    have e : ((p : Int) - 1).toNat = p - 1 := by omega
    rw [e]; exact h4 (p - 1) (by omega) (by omega)
  refine ⟨(p : Int) - 1, h1, by omega, by omega, fun hl => ?_, fun i hi1 hi2 => ?_,
    fun hall => ?_⟩
  · have e : ((p : Int) - 1).toNat = p - 1 := by omega
    exact ⟨_, hq _ (by omega) (by omega), hres (by omega)⟩
  · exact ⟨_, hq i (by omega) hi2, h5 i (by omega) hi2⟩
  · by_contra hne
    have hlp : l < p := by omega
    have e : ((p : Int) - 1).toNat = p - 1 := by omega
    have := hall (p - 1) _ (by omega) (by omega) (hq (p - 1) (by omega) (by omega))
    rw [e] at hres
    exact absurd this (not_le.2 (hres hlp))

theorem upperBoundBackward_spec_witness :
    0 ≤ 4 ∧ 4 < sumStore.N ∧ sumStore.N < 2 ^ 31 ∧
    ∃ res : Int, upperBoundBackward 7 sumStore 0 4 9 = some res ∧ ((0 : Nat) : Int) - 1 ≤ res ∧
      res ≤ ((4 : Nat) : Int) ∧
      (((0 : Nat) : Int) ≤ res → ∃ x, queryRange 7 sumStore res.toNat 4 = some x ∧ 9 < x) ∧
      (∀ i : Nat, res < (i : Int) → i ≤ 4 →
        ∃ x, queryRange 7 sumStore i 4 = some x ∧ x ≤ 9) ∧
      ((∀ i x, 0 ≤ i → i ≤ 4 → queryRange 7 sumStore i 4 = some x → x ≤ 9) →
        res = ((0 : Nat) : Int) - 1) :=
  ⟨by decide, by decide, by decide,
    upperBoundBackward_spec 7 sumStore 0 4 9 (by decide) (by decide) (by decide)
      sumStore_backward_mono⟩

theorem IsFirst.unique {f : T → Bool} {d : T} {a : List T} {s : Nat} {r1 r2 : Int}
    (h1 : IsFirst f d a s r1) (h2 : IsFirst f d a s r2) : r1 = r2 := by
  rcases h1 with ⟨e1, n1⟩ | ⟨p1, e1, s1, l1, t1, n1⟩ <;>
    rcases h2 with ⟨e2, n2⟩ | ⟨p2, e2, s2, l2, t2, n2⟩
  · rw [e1, e2]
  · rw [n1 p2 s2 l2] at t2; exact Bool.noConfusion t2
  · rw [n2 p1 s1 l1] at t1; exact Bool.noConfusion t1
  · have : p1 = p2 := by
      rcases Nat.lt_trichotomy p1 p2 with h | h | h
      · rw [n2 p1 s1 h] at t1; exact Bool.noConfusion t1
      · exact h
      · rw [n1 p2 s2 h] at t2; exact Bool.noConfusion t2
    rw [e1, e2, this]

/-- A predicate that holds of a merge exactly when it holds of one of the parts fails on
the merge of a non-empty block exactly when it fails on every element of the block. -/
theorem f_mergeOver_false (op : T → T → T) (d : T) (a : List T) (f : T → Bool)
    (hid : ∀ x, op d x = x) (hf : ∀ x y, f (op x y) = (f x || f y)) (l : Nat) :
    ∀ n, f (mergeOver op d a l (l + n + 1)) = false ↔
      ∀ j, l ≤ j → j < l + n + 1 → f (a.getD j d) = false := by
  intro n
  induction n with
  | zero =>
    rw [Nat.add_zero, mergeOver_single, hid]
    constructor
    · intro h j hj1 hj2
      have : j = l := by omega
      rw [this]; exact h
    · intro h; exact h l (Nat.le_refl _) (by omega)
  | succ n ih =>
    rw [mergeOver_succ op d a l (l + (n + 1)) (by omega), hf, Bool.or_eq_false_iff]
    have e : l + (n + 1) = l + n + 1 := by omega
    rw [e, ih]
    constructor
    · intro h j hj1 hj2
      by_cases hj : j < l + n + 1
      · exact h.1 j hj1 hj
      · have : j = l + n + 1 := by omega
        rw [this]; exact h.2
    · intro h
      exact ⟨fun j hj1 hj2 => h j hj1 (by omega), h _ (by omega) (by omega)⟩

theorem f_mergeOver_false_iff (op : T → T → T) (d : T) (a : List T) (f : T → Bool)
    (hid : ∀ x, op d x = x) (hf : ∀ x y, f (op x y) = (f x || f y)) (l r : Nat) (hlr : l < r) :
    f (mergeOver op d a l r) = false ↔ ∀ j, l ≤ j → j < r → f (a.getD j d) = false := by
  have e : r = l + (r - l - 1) + 1 := by omega
  rw [e]
  exact f_mergeOver_false op d a f hid hf l (r - l - 1)

theorem built_tree_point (junk : T) (op : T → T → T) (d : T) (a : List T)
    (st : GeneralizedBIT T) (hb : BuiltUpTo op d a a.length st) (hid : ∀ x, op d x = x)
    (i : Nat) (hi : i < a.length) (heven : i % 2 = 0) :
    rd junk st.tree (i + 1) = a.getD i d := by
  rw [rd_of_getElem? junk _ _ _ (hb.tree_val (i + 1) (by omega) (by omega)),
    clearLow_odd (i + 1) (by omega), Nat.min_eq_left (by omega), Nat.add_sub_cancel,
    mergeOver_single, hid]

theorem built_treeR_point (junk : T) (op : T → T → T) (d : T) (a : List T)
    (st : GeneralizedBIT T) (hb : BuiltUpTo op d a a.length st) (hid : ∀ x, op d x = x)
    (hN : a.length < 2 ^ 30) (i : Nat) (hi : i < a.length) (hodd : i % 2 = 1) :
    rd junk st.treeR i = a.getD i d := by
  rw [rd_of_getElem? junk _ _ _ (hb.treeR_val i (by omega) hi), lowbit_odd i hodd (by omega),
    Nat.min_eq_left (by omega), mergeOver_single, hid]

/-- The inner loop of `findNext` on a freshly built store: it skips blocks without a hit. -/
theorem findNextSkip_spec (junk : T) (op : T → T → T) (d : T) (a : List T)
    (st : GeneralizedBIT T) (f : T → Bool) (s : Nat)
    (hb : BuiltUpTo op d a a.length st) (hid : ∀ x, op d x = x)
    (hf : ∀ x y, f (op x y) = (f x || f y)) (hN : a.length < 2 ^ 30) :
    ∀ fuel pos, 0 < pos → 0 < fuel → a.length < pos + fuel →
      (∀ j, s ≤ j → j < pos → j < a.length → f (a.getD j d) = false) →
      ∃ pos2, findNextSkip junk st f fuel pos = some pos2 ∧ pos ≤ pos2 ∧
        (pos < a.length → f (rd junk st.treeR pos) = false → pos < pos2) ∧
        (∀ j, s ≤ j → j < pos2 → j < a.length → f (a.getD j d) = false) ∧
        (pos2 < a.length → f (rd junk st.treeR pos2) = true) := by
  intro fuel
  induction fuel with
  | zero => intro pos _ h; omega
  | succ fuel ih =>
    intro pos hp0 _ hfuel hinv
    unfold findNextSkip
    by_cases hc : pos < st.N ∧ f (rd junk st.treeR pos) = false
    · rw [if_pos hc]
      have hpN : pos < a.length := hb.size ▸ hc.1
      have hlb := lowbit_pos pos hp0 (by omega)
      have hblock := hc.2
      rw [rd_of_getElem? junk _ _ _ (hb.treeR_val pos hp0 hpN),
        f_mergeOver_false_iff op d a f hid hf _ _ (by omega)] at hblock
      obtain ⟨pos2, h1, h2, -, h4, h5⟩ := ih (pos + lowbit pos) (by omega) (by omega) (by omega)
        (fun j hj1 hj2 hj3 => by
          by_cases hj : j < pos
          · exact hinv j hj1 hj hj3
          · exact hblock j (by omega) (by omega))
      exact ⟨pos2, h1, by omega, fun _ _ => by omega, h4, h5⟩
    · rw [if_neg hc]
      refine ⟨pos, rfl, Nat.le_refl _, fun h1 h2 => ?_, hinv, fun h1 => ?_⟩
      · exact absurd ⟨hb.size ▸ h1, h2⟩ hc
      · by_contra h2
        exact hc ⟨hb.size ▸ h1, by simpa using h2⟩

/-- The walk `findNext` on a freshly built store finds the first position from `s` on
whose point value satisfies `f`. -/
theorem findNextLoop_spec (junk : T) (op : T → T → T) (d : T) (a : List T)
    (st : GeneralizedBIT T) (f : T → Bool) (s : Nat)
    (hb : BuiltUpTo op d a a.length st) (hid : ∀ x, op d x = x)
    (hf : ∀ x y, f (op x y) = (f x || f y)) (hN : a.length < 2 ^ 30) :
    ∀ fuel pos, s ≤ pos → 0 < fuel → a.length < pos + fuel →
      (∀ j, s ≤ j → j < pos → j < a.length → f (a.getD j d) = false) →
      ∃ res, findNextLoop junk st f fuel pos = some res ∧ IsFirst f d a s res := by
  intro fuel
  induction fuel with
  | zero => intro pos _ h; omega
  | succ fuel ih =>
    intro pos hsp _ hfuel hinv
    unfold findNextLoop
    by_cases hc : pos < st.N
    · rw [if_pos hc]
      have hpN : pos < a.length := hb.size ▸ hc
      simp only [Nat.and_one_is_mod]
      by_cases heven : pos % 2 = 0
      · simp only [heven, if_true, true_and]
        rw [built_tree_point junk op d a st hb hid pos hpN heven]
        by_cases h1 : f (a.getD pos d) = true
        · rw [if_pos h1]
          refine ⟨_, rfl, Or.inr ⟨pos, by push_cast; omega, hsp, hpN, h1, ?_⟩⟩
          exact fun j hj1 hj2 => hinv j hj1 hj2 (by omega)
        · rw [if_neg h1]
          have h1f : f (a.getD pos d) = false := by simpa using h1
          have hinv1 : ∀ j, s ≤ j → j < pos + 1 → j < a.length → f (a.getD j d) = false := by
            intro j hj1 hj2 hj3
            by_cases hj : j < pos
            · exact hinv j hj1 hj hj3
            · have : j = pos := by omega
              rw [this]; exact h1f
          by_cases h2 : pos + 1 < st.N ∧ f (rd junk st.treeR (pos + 1)) = true
          · rw [if_pos h2]
            have hp1 : pos + 1 < a.length := hb.size ▸ h2.1
            have h2' := h2.2
            rw [built_treeR_point junk op d a st hb hid hN (pos + 1) hp1 (by omega)] at h2'
            exact ⟨_, rfl, Or.inr ⟨pos + 1, rfl, by omega, hp1, h2',
              fun j hj1 hj2 => hinv1 j hj1 hj2 (by omega)⟩⟩
          · rw [if_neg h2]
            obtain ⟨pos2, g1, g2, -, g4, -⟩ := findNextSkip_spec junk op d a st f s hb hid hf hN
              (st.N + 1) (pos + 1) (by omega) (by omega) (by rw [hb.size]; omega) hinv1
            rw [g1]
            exact ih pos2 (by omega) (by omega) (by omega) g4
      · have hodd : pos % 2 = 1 := by omega
        simp only [heven, if_false, false_and]
        by_cases h2 : pos < st.N ∧ f (rd junk st.treeR pos) = true
        · rw [if_pos h2]
          have h2' := h2.2
          rw [built_treeR_point junk op d a st hb hid hN pos hpN hodd] at h2'
          exact ⟨_, rfl, Or.inr ⟨pos, rfl, hsp, hpN, h2',
            fun j hj1 hj2 => hinv j hj1 hj2 (by omega)⟩⟩
        · rw [if_neg h2]
          have h2f : f (rd junk st.treeR pos) = false := by
            by_contra hcon
            exact h2 ⟨hc, by simpa using hcon⟩
          obtain ⟨pos2, g1, g2, g3, g4, -⟩ := findNextSkip_spec junk op d a st f s hb hid hf hN
            (st.N + 1) pos (by omega) (by omega) (by rw [hb.size]; omega) hinv
          have := g3 hpN h2f
          rw [g1]
          exact ih pos2 (by omega) (by omega) (by omega) g4
    · rw [if_neg hc]
      have hpN : a.length ≤ pos := by rw [← hb.size]; omega
      exact ⟨_, rfl, Or.inl ⟨rfl, fun j hj1 hj2 => hinv j hj1 (by omega) hj2⟩⟩

/-- The linear scan of `f(query(s, i))` on a store that represents `a`: with a predicate
that holds of a merge exactly when it holds of one of the parts, it stops at the first
position whose point value satisfies `f`. -/
theorem linearScanFrom_spec (junk : T) (st : GeneralizedBIT T) (a : List T) (f : T → Bool)
    (s : Nat) (hv : Valid st a)
    (hassoc : ∀ x y z, st.mergeOp (st.mergeOp x y) z = st.mergeOp x (st.mergeOp y z))
    (hcomm : ∀ x y, st.mergeOp x y = st.mergeOp y x)
    (hid : ∀ x, st.mergeOp st.defaultValue x = x)
    (hf : ∀ x y, f (st.mergeOp x y) = (f x || f y)) (hN : a.length < 2 ^ 30) :
    ∀ n i, s ≤ i → i + n = a.length →
      (∀ j, s ≤ j → j < i → f (a.getD j st.defaultValue) = false) →
      ∃ res, linearScanFrom junk st s f n i = some res ∧ IsFirst f st.defaultValue a s res := by
  intro n
  induction n with
  | zero =>
    intro i _ hi hinv
    exact ⟨_, rfl, Or.inl ⟨rfl, fun j hj1 hj2 => hinv j hj1 (by omega)⟩⟩
  | succ n ih =>
    intro i hsi hi hinv
    unfold linearScanFrom
    rw [queryRange_of_valid junk st a hv hassoc hcomm hid (by omega) s i hsi (by omega)]
    simp only []
    have hiff := f_mergeOver_false_iff st.mergeOp st.defaultValue a f hid hf s (i + 1) (by omega)
    by_cases hx : f (mergeOver st.mergeOp st.defaultValue a s (i + 1)) = true
    · rw [if_pos hx]
      refine ⟨_, rfl, Or.inr ⟨i, rfl, hsi, by omega, ?_, hinv⟩⟩
      by_contra hcon
      have hfi : f (a.getD i st.defaultValue) = false := by simpa using hcon
      have : f (mergeOver st.mergeOp st.defaultValue a s (i + 1)) = false :=
        hiff.2 (fun j hj1 hj2 => by
          by_cases hj : j < i
          · exact hinv j hj1 hj
          · have : j = i := by omega
            rw [this]; exact hfi)
      rw [this] at hx; exact Bool.noConfusion hx
    · rw [if_neg hx]
      have hxf : f (mergeOver st.mergeOp st.defaultValue a s (i + 1)) = false := by
        simpa using hx
      exact ih (i + 1) (by omega) (by omega) (hiff.1 hxf)

theorem decide_le_max (c x y : Nat) :
    decide (c ≤ max x y) = (decide (c ≤ x) || decide (c ≤ y)) := by
  simp [le_max_iff]

/-- C10, as amended. On the store built from `a` (associative and commutative `mergeOp`
with identity `defaultValue`), for every start `s` in `[0, N)` and every predicate `f`
that holds of a merge exactly when it holds of one of the merged parts, `findNext(store,
s, f)` returns the same position as the linear scan for the first `i ≥ s`, `i < N`, with
`f(query(s, i))` true, and `-1` when the scan finds none. -/
theorem findNext_eq_linearScan (junk : T) (st0 : GeneralizedBIT T) (a : List T)
    (f : T → Bool) (s : Nat)
    (hassoc : ∀ x y z, st0.mergeOp (st0.mergeOp x y) z = st0.mergeOp x (st0.mergeOp y z))
    (hcomm : ∀ x y, st0.mergeOp x y = st0.mergeOp y x)
    (hid : ∀ x, st0.mergeOp st0.defaultValue x = x)
    (hf : ∀ x y, f (st0.mergeOp x y) = (f x || f y))
    (hN : a.length < 2 ^ 30) (hs : s < a.length) :
    ∃ st res, build junk st0 a = some st ∧ findNext junk st s f = some res ∧
      linearScan junk st s f = some res := by
  obtain ⟨st, hst, hb⟩ := build_spec junk st0 a hN
  have hv := hb.valid hN
  obtain ⟨res, h1, h2⟩ := findNextLoop_spec junk st0.mergeOp st0.defaultValue a st f s hb hid hf
    hN (st.N + 1) s (Nat.le_refl _) (by omega) (by rw [hb.size]; omega)
    (fun j hj1 hj2 _ => by omega)
  obtain ⟨res2, g1, g2⟩ := linearScanFrom_spec junk st a f s hv
    (by rw [hb.op_eq]; exact hassoc) (by rw [hb.op_eq]; exact hcomm)
    (by rw [hb.op_eq, hb.dflt_eq]; exact hid) (by rw [hb.op_eq]; exact hf) hN
    (st.N - s) s (Nat.le_refl _) (by rw [hb.size]; omega) (fun j hj1 hj2 => by omega)
  rw [hb.dflt_eq] at g2
  refine ⟨st, res, hst, h1, ?_⟩
  unfold linearScan
  rw [g1, g2.unique h2]

theorem findNext_eq_linearScan_witness :
    (∀ x y z : Nat, max (max x y) z = max x (max y z)) ∧ (∀ x y : Nat, max x y = max y x) ∧
    (∀ x : Nat, max 0 x = x) ∧
    (∀ x y : Nat, decide (5 ≤ max x y) = (decide (5 ≤ x) || decide (5 ≤ y))) ∧
    ([2, 0, 3, 9, 1, 6] : List Nat).length < 2 ^ 30 ∧ 1 < ([2, 0, 3, 9, 1, 6] : List Nat).length ∧
    ∃ st res, build (7 : Nat) (empty max 0) [2, 0, 3, 9, 1, 6] = some st ∧
      findNext 7 st 1 (fun x => decide (5 ≤ x)) = some res ∧
      linearScan 7 st 1 (fun x => decide (5 ≤ x)) = some res :=
  ⟨max_assoc, max_comm, Nat.zero_max, decide_le_max 5, by decide, by decide,
    findNext_eq_linearScan (7 : Nat) (empty max 0) [2, 0, 3, 9, 1, 6]
      (fun x => decide (5 ≤ x)) 1 max_assoc max_comm Nat.zero_max (decide_le_max 5)
      (by decide) (by decide)⟩

/-- C10, as stated, fails: for the sum of the non-negative values `[1, 1, 1, 1]` and the
monotonic predicate `f(x) = (x ≥ 2)`, the linear scan of `f(query(0, i))` stops at
position `1`, while `findNext(store, 0, f)` returns `-1`. -/
theorem findNext_linearScan_counterexample :
    (∀ v ∈ ([1, 1, 1, 1] : List Int), 0 ≤ v) ∧
    (∀ x y : Int, 0 ≤ y → x ≤ x + y) ∧
    (∀ x y : Int, x ≤ y → decide (2 ≤ x) = true → decide (2 ≤ y) = true) ∧
    build (7 : Int) (empty (fun x y => x + y) 0) [1, 1, 1, 1] = some onesStore ∧
    findNext 7 onesStore 0 (fun x => decide (2 ≤ x)) = some (-1) ∧
    linearScan 7 onesStore 0 (fun x => decide (2 ≤ x)) = some 1 ∧
    findNext 7 onesStore 0 (fun x => decide (2 ≤ x))
      ≠ linearScan 7 onesStore 0 (fun x => decide (2 ≤ x)) := by
  refine ⟨by decide, fun x y h => by omega, fun x y h1 h2 => ?_, rfl, by decide, by decide,
    by decide⟩
  simp only [decide_eq_true_eq] at h2 ⊢
  omega

/-- C11. On the store built from `a` (`mergeOp` with identity `defaultValue`), for every
start `s` in `[0, N)` and every predicate `f` that holds of a merge exactly when it holds
of one of the merged parts, `findNext(store, s, f)` returns the smallest position `p` with
`s ≤ p < N` and `f(a[p])` true, and returns `-1` exactly when no position of `[s, N)`
satisfies `f`. -/
theorem findNext_first_position (junk : T) (st0 : GeneralizedBIT T) (a : List T)
    (f : T → Bool) (s : Nat)
    (hid : ∀ x, st0.mergeOp st0.defaultValue x = x)
    (hf : ∀ x y, f (st0.mergeOp x y) = (f x || f y))
    (hN : a.length < 2 ^ 30) (_hs : s < a.length) :
    ∃ st res, build junk st0 a = some st ∧ findNext junk st s f = some res ∧
      (res = -1 ∨ ∃ p : Nat, res = (p : Int)) ∧
      (∀ p : Nat, res = (p : Int) → s ≤ p ∧ p < a.length ∧
        f (a.getD p st0.defaultValue) = true ∧
        ∀ j, s ≤ j → j < p → f (a.getD j st0.defaultValue) = false) ∧
      (res = -1 ↔ ∀ j, s ≤ j → j < a.length → f (a.getD j st0.defaultValue) = false) := by
  obtain ⟨st, hst, hb⟩ := build_spec junk st0 a hN
  obtain ⟨res, h1, h2⟩ := findNextLoop_spec junk st0.mergeOp st0.defaultValue a st f s hb hid hf
    hN (st.N + 1) s (Nat.le_refl _) (by omega) (by rw [hb.size]; omega)
    (fun j hj1 hj2 _ => by omega)
  refine ⟨st, res, hst, h1, ?_, ?_, ?_⟩
  · rcases h2 with ⟨e, -⟩ | ⟨p, e, -⟩
    · exact Or.inl e
    · exact Or.inr ⟨p, e⟩
  · intro p hp
    rcases h2 with ⟨e, -⟩ | ⟨q, e, g1, g2, g3, g4⟩
    · rw [e] at hp; omega
    · have : q = p := by rw [e] at hp; exact_mod_cast hp
      subst this
      exact ⟨g1, g2, g3, g4⟩
  · constructor
    · intro hres
      rcases h2 with ⟨-, g⟩ | ⟨q, e, -⟩
      · exact g
      · rw [e] at hres; omega
    · intro hall
      rcases h2 with ⟨e, -⟩ | ⟨q, e, g1, g2, g3, g4⟩
      · exact e
      · rw [hall q g1 g2] at g3; exact Bool.noConfusion g3

theorem findNext_first_position_witness :
    (∀ x : Nat, max 0 x = x) ∧
    (∀ x y : Nat, decide (5 ≤ max x y) = (decide (5 ≤ x) || decide (5 ≤ y))) ∧
    ([2, 0, 3, 9, 1, 6] : List Nat).length < 2 ^ 30 ∧ 1 < ([2, 0, 3, 9, 1, 6] : List Nat).length ∧
    ∃ st res, build (7 : Nat) (empty max 0) [2, 0, 3, 9, 1, 6] = some st ∧
      findNext 7 st 1 (fun x => decide (5 ≤ x)) = some res ∧
      (res = -1 ∨ ∃ p : Nat, res = (p : Int)) ∧
      (∀ p : Nat, res = (p : Int) → 1 ≤ p ∧ p < ([2, 0, 3, 9, 1, 6] : List Nat).length ∧
        decide (5 ≤ ([2, 0, 3, 9, 1, 6] : List Nat).getD p 0) = true ∧
        ∀ j, 1 ≤ j → j < p → decide (5 ≤ ([2, 0, 3, 9, 1, 6] : List Nat).getD j 0) = false) ∧
      (res = -1 ↔ ∀ j, 1 ≤ j → j < ([2, 0, 3, 9, 1, 6] : List Nat).length →
        decide (5 ≤ ([2, 0, 3, 9, 1, 6] : List Nat).getD j 0) = false) :=
  ⟨Nat.zero_max, decide_le_max 5, by decide, by decide,
    findNext_first_position (7 : Nat) (empty max 0) [2, 0, 3, 9, 1, 6]
      (fun x => decide (5 ≤ x)) 1 Nat.zero_max (decide_le_max 5) (by decide) (by decide)⟩

theorem isLast_unique {f : T → Bool} {d : T} {a : List T} {s : Nat} {r1 r2 : Int}
    (h1 : IsLast f d a s r1) (h2 : IsLast f d a s r2) : r1 = r2 := by
  rcases h1 with ⟨e1, n1⟩ | ⟨p1, e1, s1, t1, n1⟩ <;>
    rcases h2 with ⟨e2, n2⟩ | ⟨p2, e2, s2, t2, n2⟩
  · rw [e1, e2]
  · rw [n1 p2 s2] at t2; exact Bool.noConfusion t2
  · rw [n2 p1 s1] at t1; exact Bool.noConfusion t1
  · have : p1 = p2 := by
      rcases Nat.lt_trichotomy p1 p2 with h | h | h
      · rw [n1 p2 h s2] at t2; exact Bool.noConfusion t2
      · exact h
      · rw [n2 p1 h s1] at t1; exact Bool.noConfusion t1
    rw [e1, e2, this]

theorem valid_tree_point (junk : T) (st : GeneralizedBIT T) (a : List T) (hv : Valid st a)
    (hid : ∀ x, st.mergeOp st.defaultValue x = x) (q : Nat) (hq : q ≤ a.length)
    (hodd : q % 2 = 1) : rd junk st.tree q = a.getD (q - 1) st.defaultValue := by
  rw [rd_of_getElem? junk _ _ _ (hv.tree_ok q (by omega) hq), clearLow_odd q hodd]
  have e : mergeOver st.mergeOp st.defaultValue a (q - 1) q
      = mergeOver st.mergeOp st.defaultValue a (q - 1) (q - 1 + 1) := by
    congr 1; omega
  rw [e, mergeOver_single, hid]

theorem valid_treeR_point (junk : T) (st : GeneralizedBIT T) (a : List T) (hv : Valid st a)
    (hid : ∀ x, st.mergeOp st.defaultValue x = x) (hN : a.length < 2 ^ 30) (q : Nat)
    (hq : q < a.length) (hodd : q % 2 = 1) :
    rd junk st.treeR q = a.getD q st.defaultValue := by
  have hl := lowbit_odd q hodd (by omega)
  rw [rd_of_getElem? junk _ _ _ (hv.treeR_ok q (by omega) (by rw [hl]; omega)), hl,
    mergeOver_single, hid]

/-- The inner loop of `findPrev` on a store that represents `a`: it skips blocks without
a hit. -/
theorem findPrevSkip_spec (junk : T) (st : GeneralizedBIT T) (a : List T) (f : T → Bool)
    (s : Nat) (hv : Valid st a) (hid : ∀ x, st.mergeOp st.defaultValue x = x)
    (hf : ∀ x y, f (st.mergeOp x y) = (f x || f y)) :
    ∀ fuel pos, pos ≤ a.length → pos < fuel →
      (∀ j, pos ≤ j → j ≤ s → f (a.getD j st.defaultValue) = false) →
      ∃ pos2, findPrevSkip junk st f fuel pos = some pos2 ∧ pos2 ≤ pos ∧
        (0 < pos → f (rd junk st.tree pos) = false → pos2 < pos) ∧
        (∀ j, pos2 ≤ j → j ≤ s → f (a.getD j st.defaultValue) = false) := by
  intro fuel
  induction fuel with
  | zero => intro pos _ h; omega
  | succ fuel ih =>
    intro pos hpN hfuel hinv
    unfold findPrevSkip
    by_cases hc : 0 < pos ∧ f (rd junk st.tree pos) = false
    · rw [if_pos hc]
      have hcl := clearLow_lt pos hc.1
      have hblock := hc.2
      rw [rd_of_getElem? junk _ _ _ (hv.tree_ok pos hc.1 hpN),
        f_mergeOver_false_iff st.mergeOp st.defaultValue a f hid hf _ _ hcl] at hblock
      obtain ⟨pos2, h1, h2, -, h4⟩ := ih (clearLow pos) (by omega) (by omega)
        (fun j hj1 hj2 => by
          by_cases hj : j < pos
          · exact hblock j hj1 hj
          · exact hinv j (by omega) hj2)
      exact ⟨pos2, h1, by omega, fun _ _ => by omega, h4⟩
    · rw [if_neg hc]
      exact ⟨pos, rfl, Nat.le_refl _, fun h1 h2 => absurd ⟨h1, h2⟩ hc, hinv⟩

/-- The walk `findPrev` on a store that represents `a` finds the last position up to `s`
whose point value satisfies `f`. -/
theorem findPrevLoop_spec (junk : T) (st : GeneralizedBIT T) (a : List T) (f : T → Bool)
    (s : Nat) (hv : Valid st a) (hid : ∀ x, st.mergeOp st.defaultValue x = x)
    (hf : ∀ x y, f (st.mergeOp x y) = (f x || f y)) (hN : a.length < 2 ^ 30)
    (hs : s < a.length) :
    ∀ fuel pos, pos ≤ s + 1 → pos < fuel →
      (∀ j, pos ≤ j → j ≤ s → f (a.getD j st.defaultValue) = false) →
      ∃ res, findPrevLoop junk st f fuel pos = some res ∧ IsLast f st.defaultValue a s res := by
  intro fuel
  induction fuel with
  | zero => intro pos _ h; omega
  | succ fuel ih =>
    intro pos hps hfuel hinv
    unfold findPrevLoop
    by_cases hc : 0 < pos
    · rw [if_pos hc]
      simp only [Nat.and_one_is_mod]
      by_cases heven : pos % 2 = 0
      · simp only [heven, if_true, true_and]
        rw [valid_treeR_point junk st a hv hid hN (pos - 1) (by omega) (by omega)]
        by_cases h1 : f (a.getD (pos - 1) st.defaultValue) = true
        · rw [if_pos h1]
          refine ⟨_, rfl, Or.inr ⟨pos - 1, rfl, by omega, h1, ?_⟩⟩
          exact fun j hj1 hj2 => hinv j (by omega) hj2
        · rw [if_neg h1]
          have h1f : f (a.getD (pos - 1) st.defaultValue) = false := by simpa using h1
          have hinv1 : ∀ j, pos - 1 ≤ j → j ≤ s → f (a.getD j st.defaultValue) = false := by
            intro j hj1 hj2
            by_cases hj : pos ≤ j
            · exact hinv j hj hj2
            · have : j = pos - 1 := by omega
              rw [this]; exact h1f
          rw [valid_tree_point junk st a hv hid (pos - 1) (by omega) (by omega)]
          by_cases h2 : 0 < pos - 1 ∧ f (a.getD (pos - 1 - 1) st.defaultValue) = true
          · rw [if_pos h2]
            refine ⟨_, rfl, Or.inr ⟨pos - 1 - 1, by omega, by omega, h2.2, ?_⟩⟩
            exact fun j hj1 hj2 => hinv1 j (by omega) hj2
          · rw [if_neg h2]
            obtain ⟨pos2, g1, g2, -, g4⟩ := findPrevSkip_spec junk st a f s hv hid hf
              (st.N + 2) (pos - 1) (by omega) (by rw [hv.size]; omega) hinv1
            rw [g1]
            exact ih pos2 (by omega) (by omega) g4
      · have hodd : pos % 2 = 1 := by omega
        simp only [heven, if_false, false_and]
        rw [valid_tree_point junk st a hv hid pos (by omega) hodd]
        by_cases h2 : 0 < pos ∧ f (a.getD (pos - 1) st.defaultValue) = true
        · rw [if_pos h2]
          refine ⟨_, rfl, Or.inr ⟨pos - 1, by omega, by omega, h2.2, ?_⟩⟩
          exact fun j hj1 hj2 => hinv j (by omega) hj2
        · rw [if_neg h2]
          have h2f : f (rd junk st.tree pos) = false := by
            rw [valid_tree_point junk st a hv hid pos (by omega) hodd]
            by_contra hcon
            exact h2 ⟨hc, by simpa using hcon⟩
          obtain ⟨pos2, g1, g2, g3, g4⟩ := findPrevSkip_spec junk st a f s hv hid hf
            (st.N + 2) pos (by omega) (by rw [hv.size]; omega) hinv
          have := g3 hc h2f
          rw [g1]
          exact ih pos2 (by omega) (by omega) g4
    · rw [if_neg hc]
      exact ⟨_, rfl, Or.inl ⟨rfl, fun j hj => hinv j (by omega) hj⟩⟩

/-- On a store that represents `a`, a predicate that holds of a merge exactly when it
holds of one of the parts fails on `query(l, r)` exactly when it fails on every point value
of `[l, r]`; no commutativity is needed. -/
theorem f_queryRange (junk : T) (st : GeneralizedBIT T) (a : List T) (f : T → Bool)
    (hv : Valid st a) (hid : ∀ x, st.mergeOp st.defaultValue x = x)
    (hf : ∀ x y, f (st.mergeOp x y) = (f x || f y)) (hN : a.length < 2 ^ 30)
    (l r : Nat) (hlr : l ≤ r) (hr : r < a.length) :
    ∃ x, queryRange junk st l r = some x ∧
      (f x = false ↔ ∀ j, l ≤ j → j ≤ r → f (a.getD j st.defaultValue) = false) := by
  have hsz := hv.size
  have hblk := f_mergeOver_false_iff st.mergeOp st.defaultValue a f hid hf
  -- `f` of the neutral element is below `f` of everything
  have hd : ∀ x, f x = false → f st.defaultValue = false := by
    intro x hx
    have := hf st.defaultValue x
    rw [hid, hx] at this
    simpa using this.symm
  obtain ⟨x, hx, hQ⟩ := queryRange_rule junk st l r (by omega)
    (fun x => f x = false ↔ (f st.defaultValue = false ∧
      ∀ j, l ≤ j → j ≤ r → f (a.getD j st.defaultValue) = false))
    (fun hl => ⟨fun R res => R ≤ r + 1 ∧ (f res = false ↔ (f st.defaultValue = false ∧
        ∀ j, R ≤ j → j < r + 1 → f (a.getD j st.defaultValue) = false)),
      ⟨Nat.le_refl _, by
        constructor
        · intro h; exact ⟨h, fun j h1 h2 => by omega⟩
        · intro h; exact h.1⟩,
      fun R res hR h => by
        have hcl := clearLow_lt R hR
        refine ⟨by omega, ?_⟩
        rw [hf, Bool.or_eq_false_iff, h.2, rd_of_getElem? junk _ _ _ (hv.tree_ok R hR (by omega)),
          hblk _ _ hcl]
        constructor
        · rintro ⟨⟨h1, h2⟩, h3⟩
          refine ⟨h1, fun j hj1 hj2 => ?_⟩
          by_cases hj : j < R
          · exact h3 j hj1 hj
          · exact h2 j (by omega) hj2
        · rintro ⟨h1, h2⟩
          exact ⟨⟨h1, fun j hj1 hj2 => h2 j (by omega) hj2⟩, fun j hj1 hj2 => h2 j hj1 (by omega)⟩,
      fun x h => by
        show f x = false ↔ _
        rw [h.2, hl]
        constructor
        · rintro ⟨h1, h2⟩; exact ⟨h1, fun j hj1 hj2 => h2 j hj1 (by omega)⟩
        · rintro ⟨h1, h2⟩; exact ⟨h1, fun j hj1 hj2 => h2 j (by omega) (by omega)⟩⟩)
    (fun hl => ⟨fun R res => l ≤ R ∧ R ≤ r + 1 ∧ (f res = false ↔ (f st.defaultValue = false ∧
        ∀ j, R ≤ j → j < r + 1 → f (a.getD j st.defaultValue) = false)),
      fun R L res => 0 < L ∧ clearLow R < L ∧ L ≤ R ∧ R ≤ r + 1 ∧ l ≤ L ∧
        (f res = false ↔ (f st.defaultValue = false ∧
          (∀ j, R ≤ j → j < r + 1 → f (a.getD j st.defaultValue) = false) ∧
          ∀ j, l ≤ j → j < L → f (a.getD j st.defaultValue) = false)),
      ⟨by omega, Nat.le_refl _, by
        constructor
        · intro h; exact ⟨h, fun j h1 h2 => by omega⟩
        · intro h; exact h.1⟩,
      fun R res hc h => by
        have hR : 0 < R := by
          rcases Nat.eq_zero_or_pos R with h0 | h0
          · rw [h0] at hc; have : clearLow 0 = 0 := by decide
            omega
          · exact h0
        have hcl := clearLow_lt R hR
        refine ⟨hc, by omega, ?_⟩
        rw [hf, Bool.or_eq_false_iff, h.2.2,
          rd_of_getElem? junk _ _ _ (hv.tree_ok R hR (by omega)), hblk _ _ hcl]
        constructor
        · rintro ⟨⟨h1, h2⟩, h3⟩
          refine ⟨h1, fun j hj1 hj2 => ?_⟩
          by_cases hj : j < R
          · exact h3 j hj1 hj
          · exact h2 j (by omega) hj2
        · rintro ⟨h1, h2⟩
          exact ⟨⟨h1, fun j hj1 hj2 => h2 j (by omega) hj2⟩, fun j hj1 hj2 => h2 j hj1 (by omega)⟩,
      fun R res h hc => ⟨by omega, hl, hc, h.1, h.2.1, Nat.le_refl _, by
        rw [h.2.2]
        constructor
        · rintro ⟨h1, h2⟩; exact ⟨h1, h2, fun j hj1 hj2 => by omega⟩
        · rintro ⟨h1, h2, -⟩; exact ⟨h1, h2⟩⟩,
      fun R L res hLR h => by
        obtain ⟨h1, h2, h3, h4, h5, h6⟩ := h
        have hs := lowbit_step_le L R h1 hLR h2 (by omega)
        have hp := lowbit_pos L h1 (by omega)
        refine ⟨by omega, by omega, by omega, hs, h4, by omega, ?_⟩
        rw [hf, Bool.or_eq_false_iff, h6,
          rd_of_getElem? junk _ _ _ (hv.treeR_ok L h1 (by omega)), hblk _ _ (by omega)]
        constructor
        · rintro ⟨⟨g1, g2, g3⟩, g4⟩
          refine ⟨g1, g2, fun j hj1 hj2 => ?_⟩
          by_cases hj : j < L
          · exact g3 j hj1 hj
          · exact g4 j (by omega) hj2
        · rintro ⟨g1, g2, g3⟩
          exact ⟨⟨g1, g2, fun j hj1 hj2 => g3 j hj1 (by omega)⟩,
            fun j hj1 hj2 => g3 j (by omega) hj2⟩,
      fun R L x hRL h => by
        obtain ⟨h1, h2, h3, h4, h5, h6⟩ := h
        have : L = R := by omega
        subst this
        show f x = false ↔ _
        rw [h6]
        constructor
        · rintro ⟨g1, g2, g3⟩
          refine ⟨g1, fun j hj1 hj2 => ?_⟩
          by_cases hj : j < L
          · exact g3 j hj1 hj
          · exact g2 j (by omega) (by omega)
        · rintro ⟨g1, g2⟩
          exact ⟨g1, fun j hj1 hj2 => g2 j (by omega) (by omega),
            fun j hj1 hj2 => g2 j hj1 (by omega)⟩⟩)
  refine ⟨x, hx, ?_⟩
  rw [hQ]
  constructor
  · exact fun h => h.2
  · intro h
    refine ⟨hd _ (h l (Nat.le_refl _) hlr), h⟩

/-- The backward linear scan of `f(query(i, s))` on a store that represents `a` stops at
the last position up to `s` whose point value satisfies `f`. -/
theorem backwardScanFrom_spec (junk : T) (st : GeneralizedBIT T) (a : List T) (f : T → Bool)
    (s : Nat) (hv : Valid st a) (hid : ∀ x, st.mergeOp st.defaultValue x = x)
    (hf : ∀ x y, f (st.mergeOp x y) = (f x || f y)) (hN : a.length < 2 ^ 30)
    (hs : s < a.length) :
    ∀ n, n ≤ s + 1 → (∀ j, n ≤ j → j ≤ s → f (a.getD j st.defaultValue) = false) →
      ∃ res, backwardScanFrom junk st s f n = some res ∧ IsLast f st.defaultValue a s res := by
  intro n
  induction n with
  | zero =>
    intro _ hinv
    exact ⟨_, rfl, Or.inl ⟨rfl, fun j hj => hinv j (Nat.zero_le _) hj⟩⟩
  | succ i ih =>
    intro hi hinv
    unfold backwardScanFrom
    obtain ⟨x, hx, hiff⟩ := f_queryRange junk st a f hv hid hf hN i s (by omega) hs
    rw [hx]
    simp only []
    by_cases hfx : f x = true
    · rw [if_pos hfx]
      refine ⟨_, rfl, Or.inr ⟨i, rfl, by omega, ?_, fun j hj1 hj2 => hinv j (by omega) hj2⟩⟩
      by_contra hcon
      have hfi : f (a.getD i st.defaultValue) = false := by simpa using hcon
      have : f x = false := hiff.2 (fun j hj1 hj2 => by
        by_cases hj : i + 1 ≤ j
        · exact hinv j hj hj2
        · have : j = i := by omega
          rw [this]; exact hfi)
      rw [this] at hfx; exact Bool.noConfusion hfx
    · rw [if_neg hfx]
      have hxf : f x = false := by simpa using hfx
      exact ih (by omega) (fun j hj1 hj2 => hiff.1 hxf j hj1 hj2)

/-- C12. On the store built from `a` and then modified by any finite sequence of valid
`update` calls (associative `mergeOp` with identity `defaultValue`), for every start `s`
in `[0, N)` and every predicate `f` that holds of a merge exactly when it holds of one of
the merged parts, `findPrev(store, s, f)` returns the largest position `p` with
`0 ≤ p ≤ s` whose current point value satisfies `f`, which is also the first hit of the
backward linear scan of `f(query(i, s))` for `i = s` down to `0`, and returns `-1` if no
position of `[0, s]` satisfies `f`. -/
theorem findPrev_last_position (junk : T) (st0 : GeneralizedBIT T) (a : List T)
    (us : List (Nat × T)) (f : T → Bool) (s : Nat)
    (hassoc : ∀ x y z, st0.mergeOp (st0.mergeOp x y) z = st0.mergeOp x (st0.mergeOp y z))
    (hidl : ∀ x, st0.mergeOp st0.defaultValue x = x)
    (hidr : ∀ x, st0.mergeOp x st0.defaultValue = x)
    (hf : ∀ x y, f (st0.mergeOp x y) = (f x || f y))
    (hN : a.length < 2 ^ 30) (hus : ∀ u ∈ us, u.1 < a.length) (hs : s < a.length) :
    ∃ st st1 res, build junk st0 a = some st ∧ updates junk st us = some st1 ∧
      findPrev junk st1 s f = some res ∧
      (res = -1 ∨ ∃ p : Nat, res = (p : Int)) ∧
      (∀ p : Nat, res = (p : Int) → p ≤ s ∧
        f ((applyUpdates a us).getD p st0.defaultValue) = true ∧
        ∀ j, p < j → j ≤ s → f ((applyUpdates a us).getD j st0.defaultValue) = false) ∧
      ((∀ j, j ≤ s → f ((applyUpdates a us).getD j st0.defaultValue) = false) → res = -1) ∧
      backwardScan junk st1 s f = some res := by
  obtain ⟨st, hst, hb⟩ := build_spec junk st0 a hN
  have hv := hb.valid hN
  obtain ⟨st1, h1, h2, h3, h4, h5⟩ := updates_valid junk a hN us st a rfl hv
    (by rw [hb.op_eq]; exact hassoc) (by rw [hb.op_eq, hb.dflt_eq]; exact hidl)
    (by rw [hb.op_eq, hb.dflt_eq]; exact hidr) hus
  have hop : st1.mergeOp = st0.mergeOp := by rw [h3, hb.op_eq]
  have hdf : st1.defaultValue = st0.defaultValue := by rw [h4, hb.dflt_eq]
  have hid1 : ∀ x, st1.mergeOp st1.defaultValue x = x := by rw [hop, hdf]; exact hidl
  have hf1 : ∀ x y, f (st1.mergeOp x y) = (f x || f y) := by rw [hop]; exact hf
  obtain ⟨res, g1, g2⟩ := findPrevLoop_spec junk st1 (applyUpdates a us) f s h2 hid1 hf1
    (by omega) (by omega) (st1.N + 2) (s + 1) (Nat.le_refl _) (by rw [h2.size]; omega)
    (fun j hj1 hj2 => by omega)
  obtain ⟨res2, k1, k2⟩ := backwardScanFrom_spec junk st1 (applyUpdates a us) f s h2 hid1 hf1
    (by omega) (by omega) (s + 1) (Nat.le_refl _) (fun j hj1 hj2 => by omega)
  have hres : res2 = res := isLast_unique k2 g2
  rw [hdf] at g2
  refine ⟨st, st1, res, hst, h1, g1, ?_, ?_, ?_, ?_⟩
  · rcases g2 with ⟨e, -⟩ | ⟨p, e, -⟩
    · exact Or.inl e
    · exact Or.inr ⟨p, e⟩
  · intro p hp
    rcases g2 with ⟨e, -⟩ | ⟨q, e, q1, q2, q3⟩
    · rw [e] at hp; omega
    · have : q = p := by rw [e] at hp; exact_mod_cast hp
      subst this
      exact ⟨q1, q2, q3⟩
  · intro hall
    rcases g2 with ⟨e, -⟩ | ⟨q, e, q1, q2, q3⟩
    · exact e
    · rw [hall q q1] at q2; exact Bool.noConfusion q2
  · unfold backwardScan
    rw [k1, hres]

theorem findPrev_last_position_witness :
    (∀ x y z : Nat, max (max x y) z = max x (max y z)) ∧ (∀ x : Nat, max 0 x = x) ∧
    (∀ x : Nat, max x 0 = x) ∧
    (∀ x y : Nat, decide (5 ≤ max x y) = (decide (5 ≤ x) || decide (5 ≤ y))) ∧
    ([2, 0, 3, 9, 1, 6] : List Nat).length < 2 ^ 30 ∧
    (∀ u ∈ ([(3, 0), (1, 8)] : List (Nat × Nat)), u.1 < ([2, 0, 3, 9, 1, 6] : List Nat).length) ∧
    4 < ([2, 0, 3, 9, 1, 6] : List Nat).length ∧
    ∃ st st1 res, build (7 : Nat) (empty max 0) [2, 0, 3, 9, 1, 6] = some st ∧
      updates 7 st [(3, 0), (1, 8)] = some st1 ∧
      findPrev 7 st1 4 (fun x => decide (5 ≤ x)) = some res ∧
      (res = -1 ∨ ∃ p : Nat, res = (p : Int)) ∧
      (∀ p : Nat, res = (p : Int) → p ≤ 4 ∧
        decide (5 ≤ (applyUpdates [2, 0, 3, 9, 1, 6] [(3, 0), (1, 8)]).getD p 0) = true ∧
        ∀ j, p < j → j ≤ 4 →
          decide (5 ≤ (applyUpdates [2, 0, 3, 9, 1, 6] [(3, 0), (1, 8)]).getD j 0) = false) ∧
      ((∀ j, j ≤ 4 →
          decide (5 ≤ (applyUpdates [2, 0, 3, 9, 1, 6] [(3, 0), (1, 8)]).getD j 0) = false) →
        res = -1) ∧
      backwardScan 7 st1 4 (fun x => decide (5 ≤ x)) = some res :=
  ⟨max_assoc, Nat.zero_max, Nat.max_zero, decide_le_max 5, by decide, by decide, by decide,
    findPrev_last_position (7 : Nat) (empty max 0) [2, 0, 3, 9, 1, 6] [(3, 0), (1, 8)]
      (fun x => decide (5 ≤ x)) 4 max_assoc Nat.zero_max Nat.max_zero (decide_le_max 5)
      (by decide) (by decide) (by decide)⟩

theorem minStore_built :
    build (7 : Int) (empty (fun x y => min x y) 2147483647) [5, 3, 8, 1, 9] = some minStore :=
  rfl

/-- C13, as amended. On every store, for `0 ≤ pos < N` and every `delta`, `add(pos,
delta)` has the same effect as `update(pos, query(pos) + delta)` with the addition of the
element type: the new point value at `pos` is the old one plus `delta`, the other point
values are unchanged; it is `update(pos, mergeOp(query(pos), delta))` when `mergeOp` is
that addition. -/
theorem add_eq_update_plus [Add T] (junk : T) (st : GeneralizedBIT T) (pos : Nat) (delta : T)
    (htree : st.tree.length = st.N + 1) (htreeR : st.treeR.length = st.N)
    (hp : pos < st.N) (hN : st.N < 2 ^ 30) :
    ∃ st1, add junk st pos delta = some st1 ∧
      update junk st pos (query junk st pos + delta) = some st1 ∧
      query junk st1 pos = query junk st pos + delta ∧
      (∀ q, q < st.N → q ≠ pos → query junk st1 q = query junk st q) ∧
      ((∀ x y, st.mergeOp x y = x + y) →
        update junk st pos (st.mergeOp (query junk st pos) delta) = some st1) := by
  obtain ⟨st1, h1, h2, h3⟩ :=
    update_point_frame junk st pos (query junk st pos + delta) htree htreeR hp hN
  exact ⟨st1, h1, h1, h2, h3, fun hop => by rw [hop]; exact h1⟩

theorem add_eq_update_plus_witness :
    minStore.tree.length = minStore.N + 1 ∧ minStore.treeR.length = minStore.N ∧
    1 < minStore.N ∧ minStore.N < 2 ^ 30 ∧
    ∃ st1, add 7 minStore 1 7 = some st1 ∧
      update 7 minStore 1 (query 7 minStore 1 + 7) = some st1 ∧
      query 7 st1 1 = query 7 minStore 1 + 7 ∧
      (∀ q, q < minStore.N → q ≠ 1 → query 7 st1 q = query 7 minStore q) ∧
      ((∀ x y, minStore.mergeOp x y = x + y) →
        update 7 minStore 1 (minStore.mergeOp (query 7 minStore 1) 7) = some st1) :=
  ⟨by decide, by decide, by decide, by decide,
    add_eq_update_plus 7 minStore 1 7 (by decide) (by decide) (by decide) (by decide)⟩

/-- C13, as stated, fails: on the `min` store built from `[5, 3, 8, 1, 9]`, `add(1, 7)`
leaves `3 + 7 = 10` at position `1`, while `update(1, mergeOp(query(1), 7))` leaves
`min(3, 7) = 3`. -/
theorem add_mergeOp_counterexample :
    query 7 minStore 1 = 3 ∧
    (add 7 minStore 1 7).map (fun st => query 7 st 1) = some 10 ∧
    (update 7 minStore 1 (minStore.mergeOp (query 7 minStore 1) 7)).map
      (fun st => query 7 st 1) = some 3 ∧
    (add 7 minStore 1 7).map (fun st => query 7 st 1)
      ≠ some (minStore.mergeOp (query 7 minStore 1) 7) ∧
    (add 7 minStore 1 7).map (fun st => (st.tree, st.treeR))
      ≠ (update 7 minStore 1 (minStore.mergeOp (query 7 minStore 1) 7)).map
        (fun st => (st.tree, st.treeR)) := by
  refine ⟨by decide, by decide, by decide, by decide, by decide⟩

theorem buildLoop_step (junk : T) (st : GeneralizedBIT T) (i : Nat) (x : T) (xs : List T)
    (st1 : GeneralizedBIT T) (r : Option (GeneralizedBIT T))
    (h1 : initUpdate junk st i x = some st1) (h2 : buildLoop junk st1 (i + 1) xs = r) :
    buildLoop junk st i (x :: xs) = r := by
  rw [buildLoop, h1]
  exact h2

/-- The ten calls of `initUpdate` that `build` makes on `[0, 1, .., 9]`, one by one. -/
theorem tenStore_built (junk : Int) :
    build junk (empty (fun x y => x + y) 0) [0, 1, 2, 3, 4, 5, 6, 7, 8, 9] = some tenStore := by
  unfold build
  refine buildLoop_step junk _ _ _ _ (sumStoreOf [0, 0, 0, 0, 0, 0, 0, 0, 0, 0, 0]
    [0, 0, 0, 0, 0, 0, 0, 0, 0, 0]) _ ?_ ?_
  · rfl
  refine buildLoop_step junk _ _ _ _ (sumStoreOf [0, 0, 1, 0, 1, 0, 0, 0, 1, 0, 0]
    [0, 1, 0, 0, 0, 0, 0, 0, 0, 0]) _ ?_ ?_
  · rfl
  refine buildLoop_step junk _ _ _ _ (sumStoreOf [0, 0, 1, 2, 3, 0, 0, 0, 3, 0, 0]
    [0, 1, 2, 0, 0, 0, 0, 0, 0, 0]) _ ?_ ?_
  · rfl
  refine buildLoop_step junk _ _ _ _ (sumStoreOf [0, 0, 1, 2, 6, 0, 0, 0, 6, 0, 0]
    [0, 1, 5, 3, 0, 0, 0, 0, 0, 0]) _ ?_ ?_
  · rfl
  refine buildLoop_step junk _ _ _ _ (sumStoreOf [0, 0, 1, 2, 6, 4, 4, 0, 10, 0, 0]
    [0, 1, 5, 3, 4, 0, 0, 0, 0, 0]) _ ?_ ?_
  · rfl
  refine buildLoop_step junk _ _ _ _ (sumStoreOf [0, 0, 1, 2, 6, 4, 9, 0, 15, 0, 0]
    [0, 1, 5, 3, 9, 5, 0, 0, 0, 0]) _ ?_ ?_
  · rfl
  refine buildLoop_step junk _ _ _ _ (sumStoreOf [0, 0, 1, 2, 6, 4, 9, 6, 21, 0, 0]
    [0, 1, 5, 3, 15, 5, 6, 0, 0, 0]) _ ?_ ?_
  · rfl
  refine buildLoop_step junk _ _ _ _ (sumStoreOf [0, 0, 1, 2, 6, 4, 9, 6, 28, 0, 0]
    [0, 1, 5, 3, 22, 5, 13, 7, 0, 0]) _ ?_ ?_
  · rfl
  refine buildLoop_step junk _ _ _ _ (sumStoreOf [0, 0, 1, 2, 6, 4, 9, 6, 28, 8, 8]
    [0, 1, 5, 3, 22, 5, 13, 7, 8, 0]) _ ?_ ?_
  · rfl
  refine buildLoop_step junk _ _ _ _ (sumStoreOf [0, 0, 1, 2, 6, 4, 9, 6, 28, 8, 17]
    [0, 1, 5, 3, 22, 5, 13, 7, 17, 9]) _ ?_ ?_
  · rfl
  rfl

/-- C14. Sum scenario: with `mergeOp` the integer addition, `defaultValue` `0` and the
store built from `[0, 1, .., 9]`: `query(0, 9) == 45`; after `update(3, 100)`,
`query(0, 9) == 142` and `query(3) == 100`; and `lowerBound(store, 0, 9, 50)` then returns
`3`, the smallest prefix-end index whose cumulative sum is `≥ 50` (`query(0, 2) = 3 < 50`
and `query(0, 3) = 103`). -/
theorem sum_scenario (junk : Int) :
    build junk (empty (fun x y => x + y) 0) [0, 1, 2, 3, 4, 5, 6, 7, 8, 9] = some tenStore ∧
    queryRange junk tenStore 0 9 = some 45 ∧
    update junk tenStore 3 100 = some tenStoreUpdated ∧
    queryRange junk tenStoreUpdated 0 9 = some 142 ∧ query junk tenStoreUpdated 3 = 100 ∧
    lowerBound junk tenStoreUpdated 0 9 50 = some 3 ∧
    queryRange junk tenStoreUpdated 0 2 = some 3 ∧
    queryRange junk tenStoreUpdated 0 3 = some 103 :=
  ⟨tenStore_built junk, rfl, rfl, rfl, rfl, rfl, rfl, rfl⟩

/-- C15. Min scenario: with `mergeOp` `min`, `defaultValue` the largest `int` and the
store built from `[5, 3, 8, 1, 9]` (`N = 5`): `query(0, 4) == 1` and `query(1, 2) == 3`;
after `update(3, 0)`, `query(0, 4) == 0`. -/
theorem min_scenario (junk : Int) :
    build junk (empty (fun x y => min x y) 2147483647) [5, 3, 8, 1, 9] = some minStore ∧
    queryRange junk minStore 0 4 = some 1 ∧ queryRange junk minStore 1 2 = some 3 ∧
    update junk minStore 3 0 = some minStoreUpdated ∧
    queryRange junk minStoreUpdated 0 4 = some 0 :=
  ⟨rfl, rfl, rfl, rfl, rfl⟩

/-- The method `build` establishes the representation invariant. -/
theorem build_repInv (junk : T) (st0 : GeneralizedBIT T) (a : List T) (hN : a.length < 2 ^ 30) :
    ∃ st, build junk st0 a = some st ∧ RepInv st a := by
  obtain ⟨st, hst, hb⟩ := build_spec junk st0 a hN
  refine ⟨st, hst, ?_, ?_⟩
  · intro i hi1 hi2
    have := clearLow_add_lowbit i hi1 (by omega)
    have e : i - lowbit i = clearLow i := by omega
    rw [hb.tree_val i hi1 hi2, hb.op_eq, hb.dflt_eq, e, Nat.min_eq_left hi2]
  · intro i hi1 hi2
    rw [hb.treeR_val i hi1 hi2, hb.op_eq, hb.dflt_eq]

/-- The method `update` keeps the part of the representation invariant that the queries
rely on: every `tree` slot, and every `treeR` slot whose block lies inside `[0, N)`. -/
theorem update_repInv_inner (junk : T) (st : GeneralizedBIT T) (a : List T) (pos : Nat) (v : T)
    (hv : Valid st a)
    (hassoc : ∀ x y z, st.mergeOp (st.mergeOp x y) z = st.mergeOp x (st.mergeOp y z))
    (hidl : ∀ x, st.mergeOp st.defaultValue x = x)
    (hidr : ∀ x, st.mergeOp x st.defaultValue = x)
    (hpos : pos < a.length) (hN : a.length < 2 ^ 30) :
    ∃ st1, update junk st pos v = some st1 ∧
      (∀ i, 1 ≤ i → i ≤ a.length → st1.tree[i]?
        = some (mergeOver st.mergeOp st.defaultValue (a.set pos v) (i - lowbit i) i)) ∧
      (∀ i, 1 ≤ i → i + lowbit i ≤ a.length → st1.treeR[i]?
        = some (mergeOver st.mergeOp st.defaultValue (a.set pos v) i (i + lowbit i))) := by
  obtain ⟨st1, h1, h2, h3, h4⟩ := update_valid junk st a pos v hv hassoc hidl hidr hpos hN
  refine ⟨st1, h1, ?_, ?_⟩
  · intro i hi1 hi2
    have := clearLow_add_lowbit i hi1 (by omega)
    have e : i - lowbit i = clearLow i := by omega
    rw [h2.tree_ok i hi1 (by rw [List.length_set]; exact hi2), h3, h4, e]
  · intro i hi1 hi2
    rw [h2.treeR_ok i hi1 (by rw [List.length_set]; exact hi2), h3, h4]

/-- C16 at `N = 5`, `max`, `a = [0, 0, 0, 0, 0]`, `update(4, 10)`: `build` gives a store
that satisfies the representation invariant for `a`, but after `update(4, 10)` the slot
`treeR[4]` still holds `0` although the merge of the new `a[4 .. 4]` is `10`, so the
invariant fails for the updated sequence: the loop of `update` stops at `curr = 6 > N`
before it reaches `treeR[4]`. -/
theorem update_breaks_repInv (junk : Nat) :
    build junk (empty max 0) [0, 0, 0, 0, 0]
      = some (maxStoreOf [0, 0, 0, 0, 0, 0] [0, 0, 0, 0, 0]) ∧
    RepInv (maxStoreOf [0, 0, 0, 0, 0, 0] [0, 0, 0, 0, 0]) [0, 0, 0, 0, 0] ∧
    update junk (maxStoreOf [0, 0, 0, 0, 0, 0] [0, 0, 0, 0, 0]) 4 10
      = some (maxStoreOf [0, 0, 0, 0, 0, 10] [0, 0, 0, 0, 0]) ∧
    (maxStoreOf [0, 0, 0, 0, 0, 10] [0, 0, 0, 0, 0]).treeR[4]? = some 0 ∧
    mergeOver max 0 (([0, 0, 0, 0, 0] : List Nat).set 4 10) 4 (min (4 + lowbit 4) 5) = 10 ∧
    ¬ RepInv (maxStoreOf [0, 0, 0, 0, 0, 10] [0, 0, 0, 0, 0])
      (([0, 0, 0, 0, 0] : List Nat).set 4 10) := by
  have hb : build junk (empty max 0) [0, 0, 0, 0, 0]
      = some (maxStoreOf [0, 0, 0, 0, 0, 0] [0, 0, 0, 0, 0]) := rfl
  refine ⟨hb, ?_, rfl, rfl, by decide, ?_⟩
  · obtain ⟨st, h1, h2⟩ := build_repInv junk (empty max 0) ([0, 0, 0, 0, 0] : List Nat)
      (by decide)
    rw [hb] at h1
    cases h1
    exact h2
  · intro h
    have h4 := h.2 4 (by decide) (by decide)
    revert h4
    decide

/-- C17 at the input `max`, `N = 5`, `a = [0, 0, 0, 0, 0]`, `update(4, 10)`, `s = 3`,
`f(x) = (x ≥ 5)`: on the store obtained by `build` and `update`, `findNext` returns `-1`;
on the store freshly built from `[0, 0, 0, 0, 10]` it returns `4`. -/
theorem findNext_update_vs_rebuild (junk : Nat) :
    build junk (empty max 0) [0, 0, 0, 0, 0]
      = some (maxStoreOf [0, 0, 0, 0, 0, 0] [0, 0, 0, 0, 0]) ∧
    update junk (maxStoreOf [0, 0, 0, 0, 0, 0] [0, 0, 0, 0, 0]) 4 10
      = some (maxStoreOf [0, 0, 0, 0, 0, 10] [0, 0, 0, 0, 0]) ∧
    findNext junk (maxStoreOf [0, 0, 0, 0, 0, 10] [0, 0, 0, 0, 0]) 3 (fun x => decide (5 ≤ x))
      = some (-1) ∧
    build junk (empty max 0) (([0, 0, 0, 0, 0] : List Nat).set 4 10)
      = some (maxStoreOf [0, 0, 0, 0, 0, 10] [0, 0, 0, 0, 10]) ∧
    findNext junk (maxStoreOf [0, 0, 0, 0, 0, 10] [0, 0, 0, 0, 10]) 3 (fun x => decide (5 ≤ x))
      = some 4 :=
  ⟨rfl, rfl, rfl, rfl, rfl⟩

/-- The recording loop computes the same store as the loop of `update`. -/
theorem updateLoopLog_fst (junk : T) :
    ∀ fuel (st : GeneralizedBIT T) prev curr mask log,
      (updateLoopLog junk fuel st prev curr mask log).map Prod.fst
        = updateLoop junk fuel st prev curr mask := by
  intro fuel
  induction fuel with
  | zero => intro st prev curr mask log; rfl
  | succ fuel ih =>
    intro st prev curr mask log
    unfold updateLoopLog updateLoop
    by_cases hc : curr ≤ st.N
    · rw [if_pos hc, if_pos hc]
      exact ih _ _ _ _ _
    · rw [if_neg hc, if_neg hc]
      rfl

/-- The recording `update` computes the same store as `update`. -/
theorem updateLog_fst (junk : T) (st : GeneralizedBIT T) (pos : Nat) (val : T) :
    (updateLog junk st pos val).map Prod.fst = update junk st pos val :=
  updateLoopLog_fst junk _ _ _ _ _ _

theorem updateLoopLog_bounds (junk : T) (pos : Nat) :
    ∀ fuel i (st : GeneralizedBIT T) (log : AccessLog), 0 < fuel →
      st.N + 2 ≤ fuel + 2 ^ (i + 1) → node pos i ≤ st.N → AlmostInRange st.N log →
      ∃ st1 log1, updateLoopLog junk fuel st (node pos i) (node pos (i + 1)) (2 ^ (i + 1)) log
          = some (st1, log1) ∧ AlmostInRange st.N log1 := by
  intro fuel
  induction fuel with
  | zero => intro i st log h _; omega
  | succ fuel ih =>
    intro i st log _ hf hprev hlog
    unfold updateLoopLog
    by_cases hc : node pos (i + 1) ≤ st.N
    · rw [if_pos hc]
      have hpw := pow_le_node pos (i + 1)
      have hpw2 : 2 ^ (i + 1 + 1) = 2 * 2 ^ (i + 1) := by rw [pow_succ]; ring
      have hmask : 2 ^ (i + 1) <<< 1 = 2 ^ (i + 1 + 1) := by
        rw [Nat.shiftLeft_eq, pow_succ 2 (i + 1)]
      have hpw3 : 0 < 2 ^ i := by positivity
      have hp0 := node_pos pos i
      have hp1 := node_pos pos (i + 1)
      simp only [update_next_curr]
      rw [hmask]
      generalize st.mergeOp (rd junk st.tree (node pos i)) (rd junk st.treeR (node pos i)) = x
      obtain ⟨l1, l2, l3, l4⟩ := hlog
      by_cases ht : node pos i &&& 2 ^ (i + 1) ≠ 0
      · rw [if_pos ht, if_pos ht]
        have hodd := (update_test pos i).1 ht
        have hlt : node pos (i + 1) < node pos i := by
          rw [(node_succ_of_odd pos i hodd).1]
          exact clearLow_lt _ hp0
        exact ih (i + 1) { st with treeR := st.treeR.set (node pos (i + 1)) x } _
          (by omega) (by show st.N + 2 ≤ _; omega) hc
          ⟨fun n hn => by
              rcases List.mem_append.1 hn with h | h
              · exact l1 n h
              · rw [List.mem_singleton.1 h]; exact ⟨hp0, hprev⟩,
            fun n hn => by
              rcases List.mem_append.1 hn with h | h
              · exact l2 n h
              · rw [List.mem_singleton.1 h]; exact ⟨hp0, hprev⟩,
            l3,
            fun n hn => by
              rcases List.mem_append.1 hn with h | h
              · exact l4 n h
              · rw [List.mem_singleton.1 h]; exact ⟨hp1, by show _ < st.N; omega⟩⟩
      · rw [if_neg ht, if_neg ht]
        exact ih (i + 1) { st with tree := st.tree.set (node pos (i + 1)) x } _
          (by omega) (by show st.N + 2 ≤ _; omega) hc
          ⟨fun n hn => by
              rcases List.mem_append.1 hn with h | h
              · exact l1 n h
              · rw [List.mem_singleton.1 h]; exact ⟨hp0, hprev⟩,
            fun n hn => by
              rcases List.mem_append.1 hn with h | h
              · exact l2 n h
              · rw [List.mem_singleton.1 h]; exact ⟨hp0, hprev⟩,
            fun n hn => by
              rcases List.mem_append.1 hn with h | h
              · exact l3 n h
              · rw [List.mem_singleton.1 h]; exact ⟨hp1, hc⟩,
            l4⟩
    · rw [if_neg hc]
      exact ⟨st, log, rfl, hlog⟩

/-- What does hold of the accesses of `update`: it returns, every index it reads or writes
in `tree` lies in `[1, N]`, every index it writes in `treeR` lies in `[1, N - 1]`, and every
index it reads in `treeR` lies in `[1, N]`. -/
theorem updateLog_bounds (junk : T) (st : GeneralizedBIT T) (pos : Nat) (val : T)
    (hp : pos < st.N) (hN : st.N < 2 ^ 30) :
    ∃ st1 log, updateLog junk st pos val = some (st1, log) ∧ AlmostInRange st.N log := by
  obtain ⟨h0, h1⟩ := update_init_index pos (by omega)
  have hn0 : node pos 0 ≤ st.N := by
    rw [← h0, or_one_eq]; omega
  unfold updateLog
  simp only [h0, h1]
  by_cases ho : pos &&& 1 ≠ 0
  · rw [if_pos ho, if_pos ho]
    have hodd : pos % 2 = 1 := by
      rw [Nat.and_one_is_mod] at ho; omega
    have hlt : node pos 0 < st.N := by
      rw [← h0, or_one_eq]; omega
    exact updateLoopLog_bounds junk pos (st.N + 1) 0
      { st with treeR := st.treeR.set (node pos 0) val } _ (by omega)
      (by show st.N + 2 ≤ _; omega) hn0
      ⟨by simp, by simp, by simp, fun n hn => by
        rw [List.mem_singleton.1 hn]; exact ⟨node_pos pos 0, hlt⟩⟩
  · rw [if_neg ho, if_neg ho]
    exact updateLoopLog_bounds junk pos (st.N + 1) 0
      { st with tree := st.tree.set (node pos 0) val } _ (by omega)
      (by show st.N + 2 ≤ _; omega) hn0
      ⟨by simp, by simp, fun n hn => by
        rw [List.mem_singleton.1 hn]; exact ⟨node_pos pos 0, hn0⟩, by simp⟩

/-- C18 at `N = 3`, `pos = 2` and at `N = 6`, `pos = 4` (stores of integers under addition
built from all ones): `update` reads `treeR[3]` in the first run and `treeR[6]` in the
second, although `treeR` has only `3` and `6` slots; with `junk` standing for what such a
read yields, the run stores `v + junk` in `treeR[2]` and `v + 1 + junk` in `treeR[4]`. -/
theorem update_reads_treeR_out_of_range (junk v : Int) :
    build junk (empty (fun x y => x + y) 0) [1, 1, 1] = some (sumStoreOf [0, 1, 2, 1] [0, 1, 1]) ∧
    (sumStoreOf [0, 1, 2, 1] [0, 1, 1]).treeR.length = 3 ∧
    updateLog junk (sumStoreOf [0, 1, 2, 1] [0, 1, 1]) 2 v
      = some (sumStoreOf [0, 1, 2, v] [0, 1, v + junk],
          { treeReads := [3], treeRReads := [3], treeWrites := [3], treeRWrites := [2] }) ∧
    update junk (sumStoreOf [0, 1, 2, 1] [0, 1, 1]) 2 v
      = some (sumStoreOf [0, 1, 2, v] [0, 1, v + junk]) ∧
    build junk (empty (fun x y => x + y) 0) [1, 1, 1, 1, 1, 1]
      = some (sumStoreOf [0, 1, 2, 1, 4, 1, 2] [0, 1, 2, 1, 2, 1]) ∧
    (sumStoreOf [0, 1, 2, 1, 4, 1, 2] [0, 1, 2, 1, 2, 1]).treeR.length = 6 ∧
    updateLog junk (sumStoreOf [0, 1, 2, 1, 4, 1, 2] [0, 1, 2, 1, 2, 1]) 4 v
      = some (sumStoreOf [0, 1, 2, 1, 4, v, v + 1] [0, 1, 2, 1, v + 1 + junk, 1],
          { treeReads := [5, 6], treeRReads := [5, 6], treeWrites := [5, 6],
            treeRWrites := [4] }) ∧
    update junk (sumStoreOf [0, 1, 2, 1, 4, 1, 2] [0, 1, 2, 1, 2, 1]) 4 v
      = some (sumStoreOf [0, 1, 2, 1, 4, v, v + 1] [0, 1, 2, 1, v + 1 + junk, 1]) := by
  refine ⟨rfl, rfl, rfl, rfl, ?_, rfl, rfl, rfl⟩
  unfold build
  refine buildLoop_step junk _ _ _ _ (sumStoreOf [0, 1, 1, 0, 1, 0, 0] [0, 0, 0, 0, 0, 0]) _ ?_ ?_
  · rfl
  refine buildLoop_step junk _ _ _ _ (sumStoreOf [0, 1, 2, 0, 2, 0, 0] [0, 1, 0, 0, 0, 0]) _ ?_ ?_
  · rfl
  refine buildLoop_step junk _ _ _ _ (sumStoreOf [0, 1, 2, 1, 3, 0, 0] [0, 1, 1, 0, 0, 0]) _ ?_ ?_
  · rfl
  refine buildLoop_step junk _ _ _ _ (sumStoreOf [0, 1, 2, 1, 4, 0, 0] [0, 1, 2, 1, 0, 0]) _ ?_ ?_
  · rfl
  refine buildLoop_step junk _ _ _ _ (sumStoreOf [0, 1, 2, 1, 4, 1, 1] [0, 1, 2, 1, 1, 0]) _ ?_ ?_
  · rfl
  refine buildLoop_step junk _ _ _ _ (sumStoreOf [0, 1, 2, 1, 4, 1, 2] [0, 1, 2, 1, 2, 1]) _ ?_ ?_
  · rfl
  rfl

theorem tiles_append : ∀ (xs ys : List (Nat × Nat)) (a b c : Nat),
    Tiles a b xs → Tiles b c ys → Tiles a c (xs ++ ys) := by
  intro xs
  induction xs with
  | nil => intro ys a b c h1 h2; simp only [Tiles] at h1; subst h1; simpa using h2
  | cons blk rest ih =>
    intro ys a b c h1 h2
    obtain ⟨e1, e2, e3⟩ := h1
    exact ⟨e1, e2, ih ys _ b c e3 h2⟩

theorem tiles_le : ∀ (bs : List (Nat × Nat)) (a b : Nat), Tiles a b bs → a ≤ b := by
  intro bs
  induction bs with
  | nil => intro a b h; simp only [Tiles] at h; omega
  | cons blk rest ih =>
    intro a b h
    obtain ⟨_, e2, e3⟩ := h
    have := ih _ _ e3
    omega

/-- Blocks that tile `[a, b)` cover exactly the positions of `[a, b)`, each position once:
a position lies in some block iff it lies in `[a, b)`, and two blocks of the list that
share a position stand at the same place of the list. -/
theorem tiles_cover : ∀ (bs : List (Nat × Nat)) (a b : Nat), Tiles a b bs →
    (∀ p, (∃ blk ∈ bs, blk.1 ≤ p ∧ p < blk.2) ↔ (a ≤ p ∧ p < b)) ∧
    (∀ i j p, i < bs.length → j < bs.length →
      (bs.getD i (0, 0)).1 ≤ p → p < (bs.getD i (0, 0)).2 →
      (bs.getD j (0, 0)).1 ≤ p → p < (bs.getD j (0, 0)).2 → i = j) := by
  intro bs
  induction bs with
  | nil =>
    intro a b h
    simp only [Tiles] at h
    subst h
    refine ⟨fun p => ⟨fun ⟨_, hm, _⟩ => by simp at hm, fun h => by omega⟩, ?_⟩
    intro i j p hi
    simp at hi
  | cons blk rest ih =>
    intro a b h
    obtain ⟨e1, e2, e3⟩ := h
    obtain ⟨c1, c2⟩ := ih _ _ e3
    have hle := tiles_le _ _ _ e3
    have hrest : ∀ k p, k < rest.length → (rest.getD k (0, 0)).1 ≤ p → blk.2 ≤ p := by
      intro k p hk hp
      have := (c1 p).1
      by_contra hcon
      have hx : ∃ b1 ∈ rest, b1.1 ≤ (rest.getD k (0, 0)).1 ∧
          (rest.getD k (0, 0)).1 < b1.2 := by
        refine ⟨rest.getD k (0, 0), ?_, Nat.le_refl _, ?_⟩
        · rw [List.getD_eq_getElem _ _ hk]; exact List.getElem_mem _
        · -- the block is non-empty because the rest tiles
          have hk2 : ∀ (ys : List (Nat × Nat)) (u v : Nat), Tiles u v ys → ∀ k, k < ys.length →
              (ys.getD k (0, 0)).1 < (ys.getD k (0, 0)).2 := by
            intro ys
            induction ys with
            | nil => intro u v _ k hk; simp at hk
            | cons y ys ih2 =>
              intro u v hy k hk
              obtain ⟨f1, f2, f3⟩ := hy
              cases k with
              | zero => simp; omega
              | succ k =>
                simp only [List.getD_cons_succ]
                exact ih2 _ _ f3 k (by simpa using hk)
          exact hk2 rest _ _ e3 k hk
      have := (c1 _).1 hx
      omega
    constructor
    · intro p
      constructor
      · rintro ⟨b1, hm, h1, h2⟩
        rcases List.mem_cons.1 hm with h | h
        · subst h; omega
        · have := (c1 p).1 ⟨b1, h, h1, h2⟩
          omega
      · intro hp
        by_cases hlt : p < blk.2
        · exact ⟨blk, List.mem_cons_self _ _, by omega, hlt⟩
        · obtain ⟨b1, hm, h1, h2⟩ := (c1 p).2 ⟨by omega, hp.2⟩
          exact ⟨b1, List.mem_cons_of_mem _ hm, h1, h2⟩
    · intro i j p hi hj
      cases i with
      | zero =>
        cases j with
        | zero => intros; rfl
        | succ j =>
          simp only [List.getD_cons_zero, List.getD_cons_succ]
          intro _ h2 h3 _
          have := hrest j p (by simpa using hj) h3
          omega
      | succ i =>
        cases j with
        | zero =>
          simp only [List.getD_cons_zero, List.getD_cons_succ]
          intro h1 _ _ h4
          have := hrest i p (by simpa using hi) h1
          omega
        | succ j =>
          simp only [List.getD_cons_succ]
          intro h1 h2 h3 h4
          have := c2 i j p (by simpa using hi) (by simpa using hj) h1 h2 h3 h4
          omega

/-- The recording loops compute the same values as the loops of `query(left, right)`. -/
theorem queryLoop0Log_val (junk : T) (st : GeneralizedBIT T) :
    ∀ fuel R res log,
      (queryLoop0Log junk st fuel R res log).map (fun r => r.2.1)
        = queryLoop0 junk st fuel R res := by
  intro fuel
  induction fuel with
  | zero => intro R res log; rfl
  | succ fuel ih =>
    intro R res log
    unfold queryLoop0Log queryLoop0
    by_cases hc : 0 < R
    · rw [if_pos hc, if_pos hc]; exact ih _ _ _
    · rw [if_neg hc, if_neg hc]; rfl

theorem queryLoopRLog_val (junk : T) (st : GeneralizedBIT T) (left : Nat) :
    ∀ fuel R next res log,
      (queryLoopRLog junk st left fuel R next res log).map (fun r => (r.1, r.2.1))
        = queryLoopR junk st left fuel R next res := by
  intro fuel
  induction fuel with
  | zero => intro R next res log; rfl
  | succ fuel ih =>
    intro R next res log
    unfold queryLoopRLog queryLoopR
    by_cases hc : left ≤ next
    · rw [if_pos hc, if_pos hc]; exact ih _ _ _ _
    · rw [if_neg hc, if_neg hc]; rfl

theorem queryLoopLLog_val (junk : T) (st : GeneralizedBIT T) (R : Nat) :
    ∀ fuel L res log,
      (queryLoopLLog junk st R fuel L res log).map (fun r => r.2.1)
        = queryLoopL junk st R fuel L res := by
  intro fuel
  induction fuel with
  | zero => intro L res log; rfl
  | succ fuel ih =>
    intro L res log
    unfold queryLoopLLog queryLoopL
    by_cases hc : L < R
    · rw [if_pos hc, if_pos hc]; exact ih _ _ _
    · rw [if_neg hc, if_neg hc]; rfl

/-- The recording query returns the value of `query(left, right)`. -/
theorem queryRangeLog_value (junk : T) (st : GeneralizedBIT T) (left right : Nat) :
    (queryRangeLog junk st left right).map (fun r => r.value)
      = queryRange junk st left right := by
  unfold queryRangeLog queryRange
  by_cases hl : left = 0
  · rw [if_pos hl, if_pos hl, ← queryLoop0Log_val junk st _ _ _ emptyLog]
    cases queryLoop0Log junk st (st.N + 2) (right + 1) st.defaultValue emptyLog with
    | none => rfl
    | some r => rfl
  · rw [if_neg hl, if_neg hl, ← queryLoopRLog_val junk st left _ _ _ _ emptyLog]
    cases queryLoopRLog junk st left (st.N + 2) (right + 1) (clearLow (right + 1))
        st.defaultValue emptyLog with
    | none => rfl
    | some r =>
      obtain ⟨R, res, log⟩ := r
      show Option.map _ (match queryLoopLLog junk st R (st.N + 2) left res log with
        | none => none
        | some (L, res1, log1) => some _) = queryLoopL junk st R (st.N + 2) left res
      rw [← queryLoopLLog_val junk st R _ _ _ log]
      cases queryLoopLLog junk st R (st.N + 2) left res log with
      | none => rfl
      | some r => rfl

theorem downInv_step (N right R : Nat) (log : AccessLog) (hr : right < N) (hR : 0 < R)
    (h : DownInv N right R log) :
    DownInv N right (clearLow R) { log with treeReads := log.treeReads ++ [R] } := by
  obtain ⟨h1, h2, h3, h4⟩ := h
  have hlt := clearLow_lt R hR
  refine ⟨by omega, h2, ?_, ?_⟩
  · intro n hn
    rcases List.mem_append.1 hn with hm | hm
    · exact h3 n hm
    · rw [List.mem_singleton.1 hm]; omega
  · show Tiles (clearLow R) (right + 1) ((log.treeReads ++ [R]).map treeBlock).reverse
    rw [List.map_append, List.reverse_append]
    exact ⟨rfl, hlt, h4⟩

theorem queryLoop0Log_spec (junk : T) (st : GeneralizedBIT T) (right : Nat) (hr : right < st.N) :
    ∀ fuel R res log, R < fuel → DownInv st.N right R log →
      ∃ x log1, queryLoop0Log junk st fuel R res log = some (0, x, log1) ∧
        DownInv st.N right 0 log1 := by
  intro fuel
  induction fuel with
  | zero => intro R res log h; omega
  | succ fuel ih =>
    intro R res log hf hP
    unfold queryLoop0Log
    by_cases hR : 0 < R
    · rw [if_pos hR]
      have := clearLow_lt R hR
      exact ih _ _ _ (by omega) (downInv_step st.N right R log hr hR hP)
    · rw [if_neg hR]
      have : R = 0 := by omega
      subst this
      exact ⟨res, log, rfl, hP⟩

theorem queryLoopRLog_spec (junk : T) (st : GeneralizedBIT T) (left right : Nat)
    (hl : 0 < left) (hr : right < st.N) :
    ∀ fuel R res log, clearLow R < fuel → left ≤ R → DownInv st.N right R log →
      ∃ R1 x log1, queryLoopRLog junk st left fuel R (clearLow R) res log = some (R1, x, log1) ∧
        DownInv st.N right R1 log1 ∧ clearLow R1 < left ∧ left ≤ R1 := by
  intro fuel
  induction fuel with
  | zero => intro R res log h; omega
  | succ fuel ih =>
    intro R res log hf hlR hP
    unfold queryLoopRLog
    by_cases hc : left ≤ clearLow R
    · rw [if_pos hc]
      have := clearLow_lt (clearLow R) (by omega)
      exact ih _ _ _ (by omega) hc (downInv_step st.N right R log hr (by omega) hP)
    · rw [if_neg hc]
      exact ⟨R, res, log, rfl, hP, by omega, hlR⟩

theorem queryLoopLLog_spec (junk : T) (st : GeneralizedBIT T) (left R : Nat) (tr : List Nat)
    (hR : R ≤ st.N) (hN : st.N < 2 ^ 31) :
    ∀ fuel L res log, 0 < fuel → R < L + fuel → 0 < L → clearLow R < L → L ≤ R →
      log.treeReads = tr → (∀ n ∈ log.treeRReads, 1 ≤ n ∧ n ≤ st.N - 1) →
      Tiles left L (log.treeRReads.map treeRBlock) →
      ∃ x log1, queryLoopLLog junk st R fuel L res log = some (R, x, log1) ∧
        log1.treeReads = tr ∧ (∀ n ∈ log1.treeRReads, 1 ≤ n ∧ n ≤ st.N - 1) ∧
        Tiles left R (log1.treeRReads.map treeRBlock) := by
  intro fuel
  induction fuel with
  | zero => intro L res log h; omega
  | succ fuel ih =>
    intro L res log _ hf hL0 hcl hLR htr hrd htl
    unfold queryLoopLLog
    by_cases hc : L < R
    · rw [if_pos hc]
      have h1 := lowbit_step_le L R hL0 hc hcl (by omega)
      have h2 := lowbit_pos L hL0 (by omega)
      refine ih _ _ _ (by omega) (by omega) (by omega) (by omega) h1 htr ?_ ?_
      · intro n hn
        rcases List.mem_append.1 hn with hm | hm
        · exact hrd n hm
        · rw [List.mem_singleton.1 hm]; omega
      · show Tiles left (L + lowbit L) ((log.treeRReads ++ [L]).map treeRBlock)
        rw [List.map_append]
        exact tiles_append _ _ left L _ htl ⟨rfl, by show L < L + lowbit L; omega, rfl⟩
    · rw [if_neg hc]
      have : L = R := by omega
      subst this
      exact ⟨res, log, rfl, htr, hrd, htl⟩

/-- C19: for `0 <= left <= right < N` the range query `query(left, right)` returns; it
reads `tree` only at indices in `[1, N]` and `treeR` only at indices in `[1, N - 1]`; in the
`left > 0` branch the upward walk `L += lowbit(L)` ends with `L == R`, the value left by
the first loop; and the blocks of the slots read tile `[left, right + 1)`: they cover
`[left, right]` with no overlap and no gap. -/
theorem queryRange_total_in_bounds (junk : T) (st : GeneralizedBIT T) (left right : Nat)
    (hlr : left ≤ right) (hr : right < st.N) (hN : st.N < 2 ^ 31) :
    ∃ run, queryRangeLog junk st left right = some run ∧
      queryRange junk st left right = some run.value ∧
      (∀ n ∈ run.log.treeReads, 1 ≤ n ∧ n ≤ st.N) ∧
      (∀ n ∈ run.log.treeRReads, 1 ≤ n ∧ n ≤ st.N - 1) ∧
      (0 < left → run.finalL = run.finalR) ∧
      Tiles left (right + 1) (blocksRead run.log) ∧
      (∀ p, (∃ blk ∈ blocksRead run.log, blk.1 ≤ p ∧ p < blk.2) ↔ (left ≤ p ∧ p ≤ right)) := by
  have hinit : DownInv st.N right (right + 1) emptyLog :=
    ⟨Nat.le_refl _, rfl, fun n hn => by simp [emptyLog] at hn, rfl⟩
  have hval := queryRangeLog_value junk st left right
  suffices hmain : ∃ run, queryRangeLog junk st left right = some run ∧
      (∀ n ∈ run.log.treeReads, 1 ≤ n ∧ n ≤ st.N) ∧
      (∀ n ∈ run.log.treeRReads, 1 ≤ n ∧ n ≤ st.N - 1) ∧
      (0 < left → run.finalL = run.finalR) ∧
      Tiles left (right + 1) (blocksRead run.log) by
    obtain ⟨run, h1, h2, h3, h4, h5⟩ := hmain
    refine ⟨run, h1, ?_, h2, h3, h4, h5, fun p => ?_⟩
    · rw [← hval, h1]; rfl
    · rw [(tiles_cover _ _ _ h5).1 p]
      constructor <;> intro h <;> omega
  unfold queryRangeLog
  by_cases hl : left = 0
  · rw [if_pos hl]
    obtain ⟨x, log1, h1, h2, h3, h4, h5⟩ :=
      queryLoop0Log_spec junk st right hr (st.N + 2) (right + 1) st.defaultValue emptyLog
        (by omega) hinit
    rw [h1]
    refine ⟨_, rfl, h4, ?_, fun h => by omega, ?_⟩
    · intro n hn
      rw [show log1.treeRReads = [] from h3] at hn
      simp at hn
    · show Tiles left (right + 1) (log1.treeRReads.map treeRBlock
        ++ (log1.treeReads.map treeBlock).reverse)
      rw [h3, hl]
      exact h5
  · rw [if_neg hl]
    have hl0 : 0 < left := by omega
    have hcl := clearLow_lt (right + 1) (by omega)
    obtain ⟨R1, x, log1, h1, ⟨g1, g2, g3, g4⟩, h3, h4⟩ :=
      queryLoopRLog_spec junk st left right hl0 hr (st.N + 2) (right + 1) st.defaultValue
        emptyLog (by omega) (by omega) hinit
    rw [h1]
    obtain ⟨y, log2, k1, k2, k3, k4⟩ :=
      queryLoopLLog_spec junk st left R1 log1.treeReads (by omega) hN (st.N + 2) left x log1
        (by omega) (by omega) hl0 h3 h4 rfl
        (by intro n hn; rw [g2] at hn; simp at hn)
        (by rw [g2]; rfl)
    dsimp only
    rw [k1]
    refine ⟨_, rfl, ?_, k3, fun _ => rfl, ?_⟩
    · intro n hn
      rw [show log2.treeReads = log1.treeReads from k2] at hn
      exact g3 n hn
    · show Tiles left (right + 1) (log2.treeRReads.map treeRBlock
        ++ (log2.treeReads.map treeBlock).reverse)
      rw [k2]
      exact tiles_append _ _ left R1 _ k4 g4

theorem queryRange_total_in_bounds_witness :
    3 ≤ 8 ∧ 8 < tenStore.N ∧ tenStore.N < 2 ^ 31 ∧
    ∃ run, queryRangeLog (0 : Int) tenStore 3 8 = some run ∧
      queryRange 0 tenStore 3 8 = some run.value ∧
      (∀ n ∈ run.log.treeReads, 1 ≤ n ∧ n ≤ tenStore.N) ∧
      (∀ n ∈ run.log.treeRReads, 1 ≤ n ∧ n ≤ tenStore.N - 1) ∧
      (0 < 3 → run.finalL = run.finalR) ∧
      Tiles 3 (8 + 1) (blocksRead run.log) ∧
      (∀ p, (∃ blk ∈ blocksRead run.log, blk.1 ≤ p ∧ p < blk.2) ↔ (3 ≤ p ∧ p ≤ 8)) :=
  ⟨by decide, by decide, by decide,
    queryRange_total_in_bounds (0 : Int) tenStore 3 8 (by decide) (by decide) (by decide)⟩

theorem lowbitW_32 (i : Nat) : lowbitW 32 i = lowbit i := rfl

theorem initUpdateTreeW_32 (junk val : T) :
    ∀ fuel (st : GeneralizedBIT T) i,
      initUpdateTreeW 32 junk val fuel st i = initUpdateTree junk val fuel st i := by
  intro fuel
  induction fuel with
  | zero => intro st i; rfl
  | succ fuel ih =>
    intro st i
    unfold initUpdateTreeW initUpdateTree
    by_cases h : i ≤ st.N
    · rw [if_pos h, if_pos h, lowbitW_32]; exact ih _ _
    · rw [if_neg h, if_neg h]

theorem initUpdateW_32 (junk : T) (st : GeneralizedBIT T) (pos : Nat) (val : T) :
    initUpdateW 32 junk st pos val = initUpdate junk st pos val := by
  unfold initUpdateW
  rw [initUpdateTreeW_32]
  rfl

theorem buildLoopW_32 (junk : T) :
    ∀ (xs : List T) (st : GeneralizedBIT T) i,
      buildLoopW 32 junk st i xs = buildLoop junk st i xs := by
  intro xs
  induction xs with
  | nil => intro st i; rfl
  | cons x xs ih =>
    intro st i
    unfold buildLoopW buildLoop
    rw [initUpdateW_32]
    cases initUpdate junk st i x with
    | none => rfl
    | some st1 => exact ih st1 (i + 1)

/-- At `w = 32` the width-generic `build` is the embedded `build`. -/
theorem buildW_32 (junk : T) (st : GeneralizedBIT T) (v : List T) :
    buildW 32 junk st v = build junk st v :=
  buildLoopW_32 junk v _ 0

theorem findNextSkipCountW_32 (junk : T) (st : GeneralizedBIT T) (f : T → Bool) :
    ∀ fuel pos cnt,
      (findNextSkipCountW 32 junk st f fuel pos cnt).map Prod.fst
        = findNextSkip junk st f fuel pos := by
  intro fuel
  induction fuel with
  | zero => intro pos cnt; rfl
  | succ fuel ih =>
    intro pos cnt
    unfold findNextSkipCountW findNextSkip
    by_cases h1 : pos < st.N
    · by_cases h2 : f (rd junk st.treeR pos) = false
      · rw [if_pos h1, if_pos h2, if_pos ⟨h1, h2⟩, lowbitW_32]; exact ih _ _
      · rw [if_pos h1, if_neg h2, if_neg (fun h => h2 h.2)]; rfl
    · rw [if_neg h1, if_neg (fun h => h1 h.1)]; rfl

theorem findNextLoopCountW_32 (junk : T) (st : GeneralizedBIT T) (f : T → Bool) :
    ∀ fuel pos cnt,
      (findNextLoopCountW 32 junk st f fuel pos cnt).map Prod.fst
        = findNextLoop junk st f fuel pos := by
  intro fuel
  induction fuel with
  | zero => intro pos cnt; rfl
  | succ fuel ih =>
    intro pos cnt
    unfold findNextLoopCountW findNextLoop
    by_cases h1 : pos < st.N
    · rw [if_pos h1, if_pos h1]
      dsimp only
      by_cases h2 : pos &&& 1 = 0 ∧ f (rd junk st.tree (if pos &&& 1 = 0 then pos + 1 else pos)) = true
      · rw [if_pos h2, if_pos h2]; rfl
      · rw [if_neg h2, if_neg h2]
        by_cases h3 : (if pos &&& 1 = 0 then pos + 1 else pos) < st.N ∧
            f (rd junk st.treeR (if pos &&& 1 = 0 then pos + 1 else pos)) = true
        · rw [if_pos h3, if_pos h3]; rfl
        · rw [if_neg h3, if_neg h3, ← findNextSkipCountW_32 junk st f _ _
            (if (if pos &&& 1 = 0 then pos + 1 else pos) < st.N
              then (if pos &&& 1 = 0 then cnt + 1 else cnt) + 1
              else (if pos &&& 1 = 0 then cnt + 1 else cnt))]
          cases findNextSkipCountW 32 junk st f (st.N + 1)
              (if pos &&& 1 = 0 then pos + 1 else pos)
              (if (if pos &&& 1 = 0 then pos + 1 else pos) < st.N
                then (if pos &&& 1 = 0 then cnt + 1 else cnt) + 1
                else (if pos &&& 1 = 0 then cnt + 1 else cnt)) with
          | none => rfl
          | some r => exact ih _ _
    · rw [if_neg h1, if_neg h1]; rfl

/-- At `w = 32` the counting walk returns what the embedded `findNext` returns. -/
theorem findNextCountW_32 (junk : T) (st : GeneralizedBIT T) (start : Nat) (f : T → Bool) :
    (findNextCountW 32 junk st start f).map Prod.fst = findNext junk st start f :=
  findNextLoopCountW_32 junk st f _ _ _

/-- On an odd index the lowest set bit is `1`. -/
theorem lowbitW_odd (w n : Nat) (h : n % 2 = 1) (hn : n < 2 ^ w) : lowbitW w n = 1 := by
  have e1 : n = 2 ^ 0 * (2 * (n / 2) + 1) := by simp; omega
  have := and_neg_level 0 w (n / 2) (by rw [← e1]; exact hn)
  rw [← e1] at this
  simpa [lowbitW] using this

/-- On a positive even index the lowest set bit is even and at least `2`. -/
theorem lowbitW_even (w n : Nat) (h0 : 0 < n) (h : n % 2 = 0) (hn : n < 2 ^ w) :
    2 ≤ lowbitW w n ∧ lowbitW w n % 2 = 0 := by
  obtain ⟨j, m, hjm⟩ := exists_level n h0
  have hl : lowbitW w n = 2 ^ j := by
    unfold lowbitW; rw [hjm]; exact and_neg_level j w m (hjm ▸ hn)
  cases j with
  | zero => rw [hjm] at h; simp at h; omega
  | succ j =>
    rw [hl, pow_succ]
    have : 0 < 2 ^ j := by positivity
    omega

theorem lowbitW_pos (w n : Nat) (h0 : 0 < n) (hn : n < 2 ^ w) : 0 < lowbitW w n := by
  rcases Nat.mod_two_eq_zero_or_one n with h | h
  · have := (lowbitW_even w n h0 h hn).1; omega
  · rw [lowbitW_odd w n h hn]; omega

/-- The inner loop of `findNext` entered at an even position: it stays on even positions,
and every evaluation that answers `false` moves `pos` on by at least two. -/
theorem findNextSkipCountW_even (w : Nat) (junk : T) (st : GeneralizedBIT T) (f : T → Bool)
    (hN : st.N < 2 ^ w) :
    ∀ fuel p cnt, p % 2 = 0 → 0 < p → 0 < fuel → st.N < p + fuel →
      ∃ p2 cnt2, findNextSkipCountW w junk st f fuel p cnt = some (p2, cnt2) ∧
        p2 % 2 = 0 ∧ p ≤ p2 ∧ (st.N ≤ p → p2 = p ∧ cnt2 = cnt) ∧
        (p < st.N → (p2 < st.N ∧ cnt2 + 2 * (st.N - p2) ≤ cnt + 2 * (st.N - p) + 1) ∨
          (st.N ≤ p2 ∧ cnt2 ≤ cnt + 2 * (st.N - p))) := by
  intro fuel
  induction fuel with
  | zero => intro p cnt _ _ h; omega
  | succ fuel ih =>
    intro p cnt hpar hp0 _ hfuel
    unfold findNextSkipCountW
    by_cases h1 : p < st.N
    · rw [if_pos h1]
      by_cases h2 : f (rd junk st.treeR p) = false
      · rw [if_pos h2]
        obtain ⟨l1, l2⟩ := lowbitW_even w p hp0 hpar (by omega)
        obtain ⟨p2, cnt2, e1, e2, e3, e4, e5⟩ :=
          ih (p + lowbitW w p) (cnt + 1) (by omega) (by omega) (by omega) (by omega)
        refine ⟨p2, cnt2, e1, e2, by omega, fun h => by omega, fun _ => ?_⟩
        by_cases h3 : st.N ≤ p + lowbitW w p
        · obtain ⟨g1, g2⟩ := e4 h3
          exact Or.inr ⟨by omega, by omega⟩
        · rcases e5 (by omega) with g | g
          · exact Or.inl ⟨g.1, by omega⟩
          · exact Or.inr ⟨g.1, by omega⟩
      · rw [if_neg h2]
        exact ⟨p, cnt + 1, rfl, hpar, Nat.le_refl _, fun h => by omega,
          fun _ => Or.inl ⟨h1, by omega⟩⟩
    · rw [if_neg h1]
      exact ⟨p, cnt, rfl, hpar, Nat.le_refl _, fun _ => ⟨rfl, rfl⟩, fun h => by omega⟩

/-- The inner loop of `findNext` entered with all its fuel at an odd position `p < N`
whose slot does not satisfy `f`: one evaluation, one step to `p + 1`, and then the loop
from the even position `p + 1`. -/
theorem findNextSkipCountW_odd (w : Nat) (junk : T) (st : GeneralizedBIT T) (f : T → Bool)
    (hN : st.N < 2 ^ w) (p cnt : Nat) (hpar : p % 2 = 1) (hp : p < st.N)
    (hf : f (rd junk st.treeR p) = false) :
    ∃ p2 cnt2, findNextSkipCountW w junk st f (st.N + 1) p cnt = some (p2, cnt2) ∧
      p2 % 2 = 0 ∧ p + 1 ≤ p2 ∧ (st.N ≤ p + 1 → p2 = p + 1 ∧ cnt2 = cnt + 1) ∧
      (p + 1 < st.N →
        (p2 < st.N ∧ cnt2 + 2 * (st.N - p2) ≤ cnt + 2 * (st.N - p)) ∨
        (st.N ≤ p2 ∧ cnt2 + 1 ≤ cnt + 2 * (st.N - p))) := by
  rw [findNextSkipCountW, if_pos hp, if_pos hf, lowbitW_odd w p hpar (by omega)]
  obtain ⟨p2, cnt2, e1, e2, e3, e4, e5⟩ :=
    findNextSkipCountW_even w junk st f hN st.N (p + 1) (cnt + 1) (by omega) (by omega)
      (by omega) (by omega)
  refine ⟨p2, cnt2, e1, e2, e3, e4, fun h => ?_⟩
  rcases e5 h with g | g
  · exact Or.inl ⟨g.1, by omega⟩
  · exact Or.inr ⟨g.1, by omega⟩

/-- The outer loop of `findNext` returns, after at most `2 * (N - pos)` evaluations of `f`
(one fewer from an even `pos`). -/
theorem findNextLoopCountW_le (w : Nat) (junk : T) (st : GeneralizedBIT T) (f : T → Bool)
    (hN : st.N < 2 ^ w) :
    ∀ fuel pos cnt, 0 < fuel → st.N < pos + fuel →
      ∃ res cnt2, findNextLoopCountW w junk st f fuel pos cnt = some (res, cnt2) ∧
        (st.N ≤ pos → cnt2 = cnt) ∧
        (pos < st.N → pos % 2 = 0 → cnt2 + 1 ≤ cnt + 2 * (st.N - pos)) ∧
        (pos < st.N → pos % 2 = 1 → cnt2 ≤ cnt + 2 * (st.N - pos)) := by
  intro fuel
  induction fuel with
  | zero => intro pos cnt h; omega
  | succ fuel ih =>
    intro pos cnt _ hfuel
    unfold findNextLoopCountW
    by_cases h1 : pos < st.N
    · rw [if_pos h1]
      have hfuel0 : 0 < fuel := by omega
      by_cases hpar : pos &&& 1 = 0
      · have hmod : pos % 2 = 0 := by rw [Nat.and_one_is_mod] at hpar; exact hpar
        simp only [if_pos hpar]
        by_cases ht : f (rd junk st.tree (pos + 1)) = true
        · rw [if_pos ⟨hpar, ht⟩]
          exact ⟨_, _, rfl, fun h => by omega, fun _ _ => by omega, fun _ h => by omega⟩
        · rw [if_neg (fun h => ht h.2)]
          by_cases h2 : pos + 1 < st.N
          · simp only [if_pos h2]
            by_cases hr : f (rd junk st.treeR (pos + 1)) = true
            · rw [if_pos ⟨h2, hr⟩]
              exact ⟨_, _, rfl, fun h => by omega, fun _ _ => by omega, fun _ h => by omega⟩
            · rw [if_neg (fun h => hr h.2)]
              obtain ⟨p2, cnt3, e1, e2, e3, e4, e5⟩ :=
                findNextSkipCountW_odd w junk st f hN (pos + 1) (cnt + 1 + 1) (by omega) h2
                  (by simpa using hr)
              rw [e1]
              obtain ⟨res, cnt4, k1, k2, k3, k4⟩ := ih p2 cnt3 hfuel0 (by omega)
              refine ⟨res, cnt4, k1, fun h => by omega, fun _ _ => ?_, fun _ h => by omega⟩
              by_cases h3 : st.N ≤ pos + 1 + 1
              · obtain ⟨g1, g2⟩ := e4 h3
                have := k2 (by omega)
                omega
              · rcases e5 (by omega) with g | g
                · have := k3 g.1 e2
                  omega
                · have := k2 g.1
                  omega
          · simp only [if_neg h2]
            rw [if_neg (fun h => h2 h.1)]
            rw [findNextSkipCountW, if_neg h2]
            obtain ⟨res, cnt4, k1, k2, k3, k4⟩ := ih (pos + 1) (cnt + 1) hfuel0 (by omega)
            refine ⟨res, cnt4, k1, fun h => by omega, fun _ _ => ?_, fun _ h => by omega⟩
            have := k2 (by omega)
            omega
      · have hmod : pos % 2 = 1 := by rw [Nat.and_one_is_mod] at hpar; omega
        simp only [if_neg hpar]
        rw [if_neg (fun h => hpar h.1)]
        simp only [if_pos h1]
        by_cases hr : f (rd junk st.treeR pos) = true
        · rw [if_pos ⟨h1, hr⟩]
          exact ⟨_, _, rfl, fun h => by omega, fun _ h => by omega, fun _ _ => by omega⟩
        · rw [if_neg (fun h => hr h.2)]
          obtain ⟨p2, cnt3, e1, e2, e3, e4, e5⟩ :=
            findNextSkipCountW_odd w junk st f hN pos (cnt + 1) hmod h1 (by simpa using hr)
          rw [e1]
          obtain ⟨res, cnt4, k1, k2, k3, k4⟩ := ih p2 cnt3 hfuel0 (by omega)
          refine ⟨res, cnt4, k1, fun h => by omega, fun _ h => by omega, fun _ _ => ?_⟩
          by_cases h3 : st.N ≤ pos + 1
          · obtain ⟨g1, g2⟩ := e4 h3
            have := k2 (by omega)
            omega
          · rcases e5 (by omega) with g | g
            · have := k3 g.1 e2
              omega
            · have := k2 g.1
              omega
    · rw [if_neg h1]
      exact ⟨_, _, rfl, fun _ => rfl, fun h => by omega, fun h => by omega⟩

theorem rd_set (junk : T) (xs : List T) (i j : Nat) (v : T) :
    rd junk (xs.set i v) j = if i = j ∧ i < xs.length then v else rd junk xs j := by
  by_cases h : i = j
  · subst h
    by_cases hl : i < xs.length
    · rw [if_pos ⟨rfl, hl⟩]
      exact rd_of_getElem? junk _ _ _ (getElem?_set_self xs i v hl)
    · rw [if_neg (fun h => hl h.2)]
      simp only [rd, List.getD_eq_getElem?_getD]
      rw [List.getElem?_eq_none (by simpa using hl), List.getElem?_eq_none (by omega)]
  · rw [if_neg (fun h1 => h h1.1)]
    simp only [rd, List.getD_eq_getElem?_getD, getElem?_set_other xs i j v h]

/-- The first loop of `initUpdate` entered at an even index writes no slot of odd index. -/
theorem initUpdateTreeW_even (w : Nat) (junk val : T) :
    ∀ fuel (st : GeneralizedBIT T) (i : Nat), st.N < 2 ^ w → i % 2 = 0 → 0 < i →
      0 < fuel → st.N + 1 < i + fuel →
      ∃ st1, initUpdateTreeW w junk val fuel st i = some st1 ∧ st1.N = st.N ∧
        st1.treeR = st.treeR ∧ st1.mergeOp = st.mergeOp ∧
        st1.tree.length = st.tree.length ∧
        ∀ j, j % 2 = 1 → rd junk st1.tree j = rd junk st.tree j := by
  intro fuel
  induction fuel with
  | zero => intro st i _ _ _ h; omega
  | succ fuel ih =>
    intro st i hN hpar hi0 _ hf
    unfold initUpdateTreeW
    by_cases hiN : i ≤ st.N
    · rw [if_pos hiN]
      obtain ⟨l1, l2⟩ := lowbitW_even w i hi0 hpar (by omega)
      obtain ⟨st1, h1, h2, h3, h4, h5, h6⟩ :=
        ih { st with tree := st.tree.set i (st.mergeOp (rd junk st.tree i) val) }
          (i + lowbitW w i) hN (by omega) (by omega) (by omega)
          (by show st.N + 1 < _; omega)
      refine ⟨st1, h1, h2, h3, h4, by rw [h5]; simp, fun j hj => ?_⟩
      rw [h6 j hj]
      show rd junk (st.tree.set i _) j = _
      rw [rd_set, if_neg (fun h => by omega)]
    · rw [if_neg hiN]
      exact ⟨st, rfl, rfl, rfl, rfl, rfl, fun _ _ => rfl⟩

/-- The second loop of `initUpdate` with value `1` under addition, entered at an even index
`i`: it writes no slot of odd index, lowers no slot, and raises slot `i`. -/
theorem initUpdateTreeR_even (junk : Nat) :
    ∀ fuel (st : GeneralizedBIT Nat) (i : Nat), (st.mergeOp = fun x y => x + y) →
      i % 2 = 0 → i < fuel →
      ∃ st1, initUpdateTreeR junk 1 fuel st i = some st1 ∧ st1.N = st.N ∧
        st1.tree = st.tree ∧ st1.mergeOp = st.mergeOp ∧
        st1.treeR.length = st.treeR.length ∧
        (∀ j, j % 2 = 1 → rd junk st1.treeR j = rd junk st.treeR j) ∧
        (∀ j, rd junk st.treeR j ≤ rd junk st1.treeR j) ∧
        (0 < i → i < st.treeR.length → rd junk st.treeR i + 1 ≤ rd junk st1.treeR i) := by
  intro fuel
  induction fuel with
  | zero => intro st i _ _ h; omega
  | succ fuel ih =>
    intro st i hop hpar hf
    unfold initUpdateTreeR
    by_cases hi0 : 0 < i
    · rw [if_pos hi0]
      have hlt := clearLow_lt i hi0
      have hce : clearLow i % 2 = 0 := by
        unfold clearLow
        have e1 : i = 2 * (i / 2) := by omega
        have e2 : i - 1 = 2 * (i / 2 - 1) + 1 := by omega
        rw [e2]; nth_rewrite 1 [e1]
        rw [and_even_odd]; omega
      obtain ⟨st1, h1, h2, h3, h4, h5, h6, h7, h8⟩ :=
        ih { st with treeR := st.treeR.set i (st.mergeOp (rd junk st.treeR i) 1) }
          (clearLow i) hop hce (by omega)
      have hval : st.mergeOp (rd junk st.treeR i) 1 = rd junk st.treeR i + 1 := by rw [hop]
      have hstep : ∀ j, rd junk st.treeR j
          ≤ rd junk (st.treeR.set i (st.mergeOp (rd junk st.treeR i) 1)) j := by
        intro j
        rw [rd_set, hval]
        by_cases hc : i = j ∧ i < st.treeR.length
        · rw [if_pos hc, hc.1]; omega
        · rw [if_neg hc]
      refine ⟨st1, h1, h2, h3, h4, by rw [h5]; simp, fun j hj => ?_, fun j => ?_, fun _ hil => ?_⟩
      · rw [h6 j hj]
        show rd junk (st.treeR.set i _) j = _
        rw [rd_set, if_neg (fun h => by omega)]
      · exact Nat.le_trans (hstep j) (h7 j)
      · have := h7 i
        have e : rd junk (st.treeR.set i (st.mergeOp (rd junk st.treeR i) 1)) i
            = rd junk st.treeR i + 1 := by
          rw [rd_set, if_pos ⟨rfl, hil⟩, hval]
        have h9 : rd junk (st.treeR.set i (st.mergeOp (rd junk st.treeR i) 1)) i
            ≤ rd junk st1.treeR i := h7 i
        omega
    · rw [if_neg hi0]
      exact ⟨st, rfl, rfl, rfl, rfl, rfl, fun _ _ => rfl, fun _ => Nat.le_refl _,
        fun h => by omega⟩

/-- The first loop of `initUpdate(p, 1)` under addition, as seen on the slots of odd index:
only `tree[p + 1]` can change, and it grows by one. -/
theorem initUpdateTreeW_odd_slots (w : Nat) (junk : Nat) (st : GeneralizedBIT Nat) (p : Nat)
    (hN : st.N < 2 ^ w) (hop : st.mergeOp = fun x y => x + y)
    (hlen : st.tree.length = st.N + 1) (hp : p < st.N) :
    ∃ st1, initUpdateTreeW w junk 1 (st.N + 1) st (p + 1) = some st1 ∧ st1.N = st.N ∧
      st1.treeR = st.treeR ∧ st1.mergeOp = st.mergeOp ∧ st1.tree.length = st.N + 1 ∧
      ∀ j, j % 2 = 1 →
        rd junk st1.tree j = if j = p + 1 then rd junk st.tree j + 1 else rd junk st.tree j := by
  rcases Nat.mod_two_eq_zero_or_one p with hpar | hpar
  · rw [initUpdateTreeW, if_pos (by omega), lowbitW_odd w (p + 1) (by omega) (by omega)]
    obtain ⟨st1, h1, h2, h3, h4, h5, h6⟩ :=
      initUpdateTreeW_even w junk 1 st.N
        { st with tree := st.tree.set (p + 1) (st.mergeOp (rd junk st.tree (p + 1)) 1) }
        (p + 1 + 1) hN (by omega) (by omega) (by omega) (by show st.N + 1 < _; omega)
    refine ⟨st1, h1, h2, h3, h4, by rw [h5]; simp [hlen], fun j hj => ?_⟩
    rw [h6 j hj]
    show rd junk (st.tree.set (p + 1) _) j = _
    rw [rd_set, hop]
    by_cases hc : j = p + 1
    · subst hc
      rw [if_pos ⟨rfl, by omega⟩, if_pos rfl]
    · rw [if_neg (fun h => hc h.1.symm), if_neg hc]
  · obtain ⟨st1, h1, h2, h3, h4, h5, h6⟩ :=
      initUpdateTreeW_even w junk 1 (st.N + 1) st (p + 1) hN (by omega) (by omega) (by omega)
        (by omega)
    refine ⟨st1, h1, h2, h3, h4, by rw [h5, hlen], fun j hj => ?_⟩
    rw [h6 j hj, if_neg (by omega)]

/-- The second loop of `initUpdate(p, 1)` under addition: among the slots of odd index only
`treeR[p]` can change, and it grows by one; no slot is lowered; the first slot of even
index on the way (`treeR[p]` or `treeR[p - 1]`) grows. -/
theorem initUpdateTreeR_slots (junk : Nat) (st : GeneralizedBIT Nat) (N p : Nat)
    (hop : st.mergeOp = fun x y => x + y) (hlen : st.treeR.length = N) (hp : p < N) :
    ∃ st1, initUpdateTreeR junk 1 (N + 1) st p = some st1 ∧ st1.N = st.N ∧
      st1.tree = st.tree ∧ st1.mergeOp = st.mergeOp ∧ st1.treeR.length = N ∧
      (∀ j, j % 2 = 1 →
        rd junk st1.treeR j = if j = p then rd junk st.treeR j + 1 else rd junk st.treeR j) ∧
      (∀ j, rd junk st.treeR j ≤ rd junk st1.treeR j) ∧
      (p % 2 = 0 → 0 < p → rd junk st.treeR p + 1 ≤ rd junk st1.treeR p) ∧
      (p % 2 = 1 → 1 < p → rd junk st.treeR (p - 1) + 1 ≤ rd junk st1.treeR (p - 1)) := by
  rcases Nat.mod_two_eq_zero_or_one p with hpar | hpar
  · obtain ⟨st1, h1, h2, h3, h4, h5, h6, h7, h8⟩ :=
      initUpdateTreeR_even junk (N + 1) st p hop hpar (by omega)
    refine ⟨st1, h1, h2, h3, h4, by rw [h5, hlen], fun j hj => ?_, h7,
      fun _ h0 => h8 h0 (by omega), fun h => by omega⟩
    rw [h6 j hj, if_neg (by omega)]
  · rw [initUpdateTreeR, if_pos (by omega), clearLow_odd p hpar]
    obtain ⟨st1, h1, h2, h3, h4, h5, h6, h7, h8⟩ :=
      initUpdateTreeR_even junk N
        { st with treeR := st.treeR.set p (st.mergeOp (rd junk st.treeR p) 1) }
        (p - 1) hop (by omega) (by omega)
    have hset : ∀ j, rd junk (st.treeR.set p (st.mergeOp (rd junk st.treeR p) 1)) j
        = if j = p then rd junk st.treeR j + 1 else rd junk st.treeR j := by
      intro j
      rw [rd_set, hop]
      by_cases hc : j = p
      · subst hc
        rw [if_pos ⟨rfl, by omega⟩, if_pos rfl]
      · rw [if_neg (fun h => hc h.1.symm), if_neg hc]
    refine ⟨st1, h1, h2, h3, h4, by rw [h5]; simp [hlen], fun j hj => ?_, fun j => ?_,
      fun h => by omega, fun _ h1p => ?_⟩
    · rw [h6 j hj]
      exact hset j
    · have e1 : rd junk (st.treeR.set p (st.mergeOp (rd junk st.treeR p) 1)) j
          ≤ rd junk st1.treeR j := h7 j
      rw [hset j] at e1
      by_cases hc : j = p
      · rw [if_pos hc] at e1; omega
      · rw [if_neg hc] at e1; exact e1
    · have e1 : rd junk (st.treeR.set p (st.mergeOp (rd junk st.treeR p) 1)) (p - 1) + 1
          ≤ rd junk st1.treeR (p - 1) := h8 (by omega) (by simp [hlen]; omega)
      rw [hset (p - 1), if_neg (by omega)] at e1
      exact e1

/-- One call `initUpdate(p, 1)` of `build` on the all-ones sequence. -/
theorem initUpdateW_ones (w : Nat) (junk : Nat) (N p : Nat) (st : GeneralizedBIT Nat)
    (hN : N < 2 ^ w) (hp : p < N) (h : OnesInv junk N p st) :
    ∃ st1, initUpdateW w junk st p 1 = some st1 ∧ OnesInv junk N (p + 1) st1 := by
  obtain ⟨stA, a1, a2, a3, a4, a5, a6⟩ :=
    initUpdateTreeW_odd_slots w junk st p (h.size ▸ hN) h.op_eq (by rw [h.tree_len, h.size])
      (h.size ▸ hp)
  obtain ⟨stB, b1, b2, b3, b4, b5, b6, b7, b8, b9⟩ :=
    initUpdateTreeR_slots junk stA N p (by rw [a4, h.op_eq]) (by rw [a3, h.treeR_len]) hp
  refine ⟨stB, ?_, ?_⟩
  · unfold initUpdateW
    rw [a1]
    show initUpdateTreeR junk 1 (st.N + 1) stA p = some stB
    rw [h.size]
    exact b1
  · refine ⟨by rw [b2, a2, h.size], by rw [b4, a4, h.op_eq], by rw [b3, a5, h.size], b5,
      fun j hj hjN => ?_, fun j hj hjN => ?_, fun j hj hj0 hjN hjp => ?_,
      fun j hj hj0 hjN hjp => ?_⟩
    · rw [b3, a6 j hj, h.tree_odd j hj hjN]
      by_cases hc : j = p + 1
      · rw [if_pos hc, if_neg (by omega), if_pos (by omega)]
      · rw [if_neg hc]
        by_cases hc2 : j ≤ p
        · rw [if_pos hc2, if_pos (by omega)]
        · rw [if_neg hc2, if_neg (by omega)]
    · rw [b6 j hj, a3, h.treeR_odd j hj hjN]
      by_cases hc : j = p
      · rw [if_pos hc, if_neg (by omega), if_pos (by omega)]
      · rw [if_neg hc]
        by_cases hc2 : j < p
        · rw [if_pos hc2, if_pos (by omega)]
        · rw [if_neg hc2, if_neg (by omega)]
    · have hm := b7 j
      rw [a3] at hm
      by_cases hc : j < p
      · have := h.treeR_even1 j hj hj0 hjN hc
        omega
      · have hjp2 : j = p := by omega
        subst hjp2
        have := b8 hj hj0
        rw [a3] at this
        omega
    · have hm := b7 j
      rw [a3] at hm
      by_cases hc : j + 1 < p
      · have := h.treeR_even2 j hj hj0 hjN hc
        omega
      · have hjp2 : j = p - 1 := by omega
        have hpodd : p % 2 = 1 := by omega
        have h1 := h.treeR_even1 j hj hj0 hjN (by omega)
        have h2 := b9 hpodd (by omega)
        rw [a3, ← hjp2] at h2
        omega

/-- The loop of `build` on the all-ones sequence. -/
theorem buildLoopW_ones (w : Nat) (junk : Nat) (N : Nat) (hN : N < 2 ^ w) :
    ∀ (k p : Nat) (st : GeneralizedBIT Nat), p + k = N → OnesInv junk N p st →
      ∃ st1, buildLoopW w junk st p (List.replicate k 1) = some st1 ∧ OnesInv junk N N st1 := by
  intro k
  induction k with
  | zero =>
    intro p st hpk h
    have : p = N := by omega
    subst this
    exact ⟨st, rfl, h⟩
  | succ k ih =>
    intro p st hpk h
    obtain ⟨st1, h1, h2⟩ := initUpdateW_ones w junk N p st hN (by omega) h
    obtain ⟨st2, h3, h4⟩ := ih (p + 1) st1 (by omega) h2
    refine ⟨st2, ?_, h4⟩
    rw [List.replicate_succ, buildLoopW, h1]
    exact h3

/-- The store that `build` makes of the all-ones sequence of length `N` under addition:
every `tree` and `treeR` slot of odd index holds `1`, every `treeR` slot of even index
`j >= 2` with `j + 1 < N` holds at least `2`. -/
theorem buildW_ones (w : Nat) (junk : Nat) (N : Nat) (hN : N < 2 ^ w) :
    ∃ st, buildW w junk (empty (fun x y => x + y) 0) (List.replicate N 1) = some st ∧
      OnesInv junk N N st := by
  unfold buildW
  rw [List.length_replicate]
  refine buildLoopW_ones w junk N hN N 0 _ (by omega) ⟨rfl, rfl, by simp [init], by simp [init],
    fun j hj hjN => ?_, fun j hj hjN => ?_, fun j _ _ _ h => by omega,
    fun j _ _ _ h => by omega⟩
  · rw [if_neg (by omega)]
    simp only [init, empty, rd, List.getD_eq_getElem?_getD]
    rw [List.getElem?_replicate, if_pos (by omega)]
    rfl
  · rw [if_neg (by omega)]
    simp only [init, empty, rd, List.getD_eq_getElem?_getD]
    rw [List.getElem?_replicate, if_pos (by omega)]
    rfl

theorem findNextSkipCountW_stop (w : Nat) (junk : T) (st : GeneralizedBIT T) (f : T → Bool)
    (fuel p cnt : Nat) (h0 : 0 < fuel) (hp : p < st.N) (hf : f (rd junk st.treeR p) = true) :
    findNextSkipCountW w junk st f fuel p cnt = some (p, cnt + 1) := by
  obtain ⟨m, rfl⟩ : ∃ m, fuel = m + 1 := ⟨fuel - 1, by omega⟩
  rw [findNextSkipCountW, if_pos hp, if_neg (by rw [hf]; exact Bool.noConfusion)]

theorem findNextSkipCountW_end (w : Nat) (junk : T) (st : GeneralizedBIT T) (f : T → Bool)
    (fuel p cnt : Nat) (h0 : 0 < fuel) (hp : st.N ≤ p) :
    findNextSkipCountW w junk st f fuel p cnt = some (p, cnt) := by
  obtain ⟨m, rfl⟩ : ∃ m, fuel = m + 1 := ⟨fuel - 1, by omega⟩
  rw [findNextSkipCountW, if_neg (by omega)]

theorem findNextLoopCountW_end (w : Nat) (junk : T) (st : GeneralizedBIT T) (f : T → Bool)
    (fuel p cnt : Nat) (h0 : 0 < fuel) (hp : st.N ≤ p) :
    findNextLoopCountW w junk st f fuel p cnt = some (-1, cnt) := by
  obtain ⟨m, rfl⟩ : ∃ m, fuel = m + 1 := ⟨fuel - 1, by omega⟩
  rw [findNextLoopCountW, if_neg (by omega)]

/-- The walk `findNext` with `f(x) = (x >= 2)` on the store built from the all-ones sequence
of even length `N` under addition: from an even `pos < N` it evaluates `f` on `tree[pos + 1]`,
on `treeR[pos + 1]` twice and, when `pos + 2 < N`, on `treeR[pos + 2]`, moves to `pos + 2`,
and so on to the end, `2 * (N - pos) - 1` evaluations in all. -/
theorem findNextLoopCountW_ones (w : Nat) (junk : Nat) (N : Nat) (st : GeneralizedBIT Nat)
    (hN : N < 2 ^ w) (hNe : N % 2 = 0) (hinv : OnesInv junk N N st) :
    ∀ fuel pos cnt, pos % 2 = 0 → pos < N → N < pos + 2 * fuel →
      findNextLoopCountW w junk st (fun x => decide (2 ≤ x)) fuel pos cnt
        = some (-1, cnt + 2 * (N - pos) - 1) := by
  intro fuel
  induction fuel with
  | zero => intro pos cnt _ h1 h2; omega
  | succ fuel ih =>
    intro pos cnt hpar hpos hfuel
    have hsz := hinv.size
    have hpand : pos &&& 1 = 0 := by rw [Nat.and_one_is_mod]; exact hpar
    have h1N : pos + 1 < N := by omega
    have ht : rd junk st.tree (pos + 1) = 1 := by
      rw [hinv.tree_odd (pos + 1) (by omega) (by omega), if_pos (by omega)]
    have hr : rd junk st.treeR (pos + 1) = 1 := by
      rw [hinv.treeR_odd (pos + 1) (by omega) h1N, if_pos h1N]
    rw [findNextLoopCountW, if_pos (by omega)]
    simp only [if_pos hpand]
    rw [if_neg (by rw [ht]; simp), if_neg (by rw [hr]; simp)]
    simp only [if_pos (show pos + 1 < st.N by omega)]
    rw [findNextSkipCountW, if_pos (by omega), if_pos (by rw [hr]; simp),
      lowbitW_odd w (pos + 1) (by omega) (by omega)]
    by_cases h2 : pos + 1 + 1 < N
    · have hr2 : 2 ≤ rd junk st.treeR (pos + 1 + 1) :=
        hinv.treeR_even2 (pos + 1 + 1) (by omega) (by omega) h2 (by omega)
      rw [findNextSkipCountW_stop w junk st _ st.N (pos + 1 + 1) _ (by omega) (by omega)
        (by simpa using hr2)]
      show findNextLoopCountW w junk st (fun x => decide (2 ≤ x)) fuel (pos + 1 + 1)
        (cnt + 1 + 1 + 1 + 1) = _
      rw [ih (pos + 1 + 1) _ (by omega) h2 (by omega)]
      congr 2
      omega
    · rw [findNextSkipCountW_end w junk st _ st.N (pos + 1 + 1) _ (by omega) (by omega)]
      show findNextLoopCountW w junk st (fun x => decide (2 ≤ x)) fuel (pos + 1 + 1)
        (cnt + 1 + 1 + 1) = _
      rw [findNextLoopCountW_end w junk st _ fuel (pos + 1 + 1) _ (by omega) (by omega)]
      congr 2
      omega

/-- A family on which `findNext` is linear: on the store built from the all-ones sequence
of length `2 * n` under addition, `findNext(store, 0, x >= 2)` returns `-1` after exactly
`4 * n - 1` evaluations of `f`. -/
theorem findNextCountW_ones (w : Nat) (junk : Nat) (n : Nat) (hn : 1 ≤ n) (hw : 2 * n < 2 ^ w) :
    ∃ st, buildW w junk (empty (fun x y => x + y) 0) (List.replicate (2 * n) 1) = some st ∧
      st.N = 2 * n ∧
      findNextCountW w junk st 0 (fun x => decide (2 ≤ x)) = some (-1, 4 * n - 1) := by
  obtain ⟨st, h1, h2⟩ := buildW_ones w junk (2 * n) hw
  refine ⟨st, h1, h2.size, ?_⟩
  unfold findNextCountW
  rw [findNextLoopCountW_ones w junk (2 * n) st hw (by omega) h2 (st.N + 1) 0 0 (by omega)
    (by omega) (by rw [h2.size]; omega)]
  congr 2
  omega

theorem linear_beats_log (c : Nat) : c * (4 * c + 4) + 1 < 2 ^ (4 * c + 4) := by
  have h1 : 2 * c + 2 < 2 ^ (2 * c + 2) := Nat.lt_two_pow _
  have h2 : (2 : Nat) ^ (4 * c + 4) = 2 ^ (2 * c + 2) * 2 ^ (2 * c + 2) := by
    rw [← pow_add]; congr 1; omega
  have h3 : (2 * c + 3) * (2 * c + 3) ≤ 2 ^ (2 * c + 2) * 2 ^ (2 * c + 2) :=
    Nat.mul_le_mul h1 h1
  rw [h2]
  nlinarith

/-- C20, as amended: for every width `w` of `int`, every store of size `N` with
`4 * N < 2 ^ w`, every start `s < N` and every predicate `f`, `findNext(store, s, f)`
returns after at most `2 * (N - s)` evaluations of `f`: the bound is linear in `N`, not
logarithmic.  At `w = 32` the value returned is that of the embedded `findNext`. -/
theorem findNext_evaluations_linear (w : Nat) (junk : T) (st : GeneralizedBIT T) (s : Nat)
    (f : T → Bool) (hs : s < st.N) (hN : 4 * st.N < 2 ^ w) :
    ∃ res cnt, findNextCountW w junk st s f = some (res, cnt) ∧ cnt ≤ 2 * (st.N - s) ∧
      (w = 32 → findNext junk st s f = some res) := by
  obtain ⟨res, cnt, h1, -, h3, h4⟩ :=
    findNextLoopCountW_le w junk st f (by omega) (st.N + 1) s 0 (by omega) (by omega)
  refine ⟨res, cnt, h1, ?_, fun hw => ?_⟩
  · rcases Nat.mod_two_eq_zero_or_one s with h | h
    · have := h3 hs h; omega
    · have := h4 hs h; omega
  · subst hw
    rw [← findNextCountW_32 junk st s f]
    show Option.map Prod.fst (findNextLoopCountW 32 junk st f (st.N + 1) s 0) = some res
    rw [h1]
    rfl

theorem findNext_evaluations_linear_witness :
    0 < tenStore.N ∧ 4 * tenStore.N < 2 ^ 32 ∧
    ∃ res cnt, findNextCountW 32 (0 : Int) tenStore 0 (fun x => decide (10 ≤ x))
        = some (res, cnt) ∧ cnt ≤ 2 * (tenStore.N - 0) ∧
      (32 = 32 → findNext 0 tenStore 0 (fun x => decide (10 ≤ x)) = some res) :=
  ⟨by decide, by decide,
    findNext_evaluations_linear 32 (0 : Int) tenStore 0 (fun x => decide (10 ≤ x))
      (by decide) (by decide)⟩

/-- C20 as stated fails.  With the width `w` of `int` a parameter (sizes `4 * N < 2 ^ w`),
no constant `c` bounds the number of evaluations of `f` by `c * (floor(log2 N) + 1)`, not
even on the stores built from sequences of naturals under addition; and at `w = 32`, on
the store built from `1024` ones, `findNext(store, 0, x >= 2)` returns `-1` after `2047`
evaluations of `f`. -/
theorem findNext_not_logarithmic :
    (¬ ∃ c : Nat, ∀ (w : Nat) (a : List Nat) (s : Nat) (f : Nat → Bool) (junk : Nat)
        (st : GeneralizedBIT Nat) (res : Int) (cnt : Nat),
        1 ≤ a.length → 4 * a.length < 2 ^ w → s < a.length →
        buildW w junk (empty (fun x y => x + y) 0) a = some st →
        findNextCountW w junk st s f = some (res, cnt) →
        cnt ≤ c * (Nat.log 2 a.length + 1)) ∧
    (∃ st, build (0 : Nat) (empty (fun x y => x + y) 0) (List.replicate 1024 1) = some st ∧
      findNextCountW 32 0 st 0 (fun x => decide (2 ≤ x)) = some (-1, 2047) ∧
      findNext 0 st 0 (fun x => decide (2 ≤ x)) = some (-1)) := by
  constructor
  · rintro ⟨c, h⟩
    have hpow : (2 : Nat) ^ (4 * c + 2 + 4) = 16 * 2 ^ (4 * c + 2) := by
      rw [pow_add]; norm_num; ring
    have hpow1 : (2 : Nat) ^ (4 * c + 2 + 1) = 2 * 2 ^ (4 * c + 2) := by
      rw [pow_succ]; ring
    have hpow2 : (2 : Nat) ^ (4 * c + 4) = 4 * 2 ^ (4 * c + 2) := by
      rw [show 4 * c + 4 = 4 * c + 2 + 2 by omega, pow_add]; norm_num; ring
    have hpos : 0 < 2 ^ (4 * c + 2) := by positivity
    obtain ⟨st, hb, -, hc⟩ :=
      findNextCountW_ones (4 * c + 2 + 4) 0 (2 ^ (4 * c + 2)) (by omega) (by omega)
    have hlen : (List.replicate (2 * 2 ^ (4 * c + 2)) 1 : List Nat).length
        = 2 ^ (4 * c + 2 + 1) := by
      rw [List.length_replicate, hpow1]
    have hbound := h (4 * c + 2 + 4) (List.replicate (2 * 2 ^ (4 * c + 2)) 1) 0
      (fun x => decide (2 ≤ x)) 0 st (-1) (4 * 2 ^ (4 * c + 2) - 1)
      (by rw [hlen]; omega) (by rw [hlen]; omega) (by rw [hlen]; omega) hb hc
    rw [hlen, Nat.log_pow (by norm_num)] at hbound
    have hlin := linear_beats_log c
    rw [hpow2] at hlin
    have e : c * (4 * c + 2 + 1 + 1) = c * (4 * c + 4) := by ring
    rw [e] at hbound
    omega
  · obtain ⟨st, hb, -, hc⟩ := findNextCountW_ones 32 0 512 (by omega) (by norm_num)
    rw [buildW_32] at hb
    refine ⟨st, hb, hc, ?_⟩
    rw [← findNextCountW_32, hc]
    rfl

end GBIT
